import Mathlib

/-!
# 2d-tree: point sets with range and nearest-neighbour queries

A shallow embedding of `src/src/point.cpp`, `src/src/rect.cpp`, `src/src/2dtree.cpp` and
the iterators of `src/include/primitives.h`.

## Numbers

Every finite `double` is an integer multiple of `2^-1074`.  A `double` is modelled by that
integer (`Int`), so `1.0` is `2^1074`; `dbl n e` is the number `n * 2^-e`.  Sums and
differences are taken exactly; a product of two such numbers is an integer in units of
`2^-2148`.  Rounding and overflow of the arithmetic on coordinates are not modelled.

`Point::distance` is `sqrt(dx*dx + dy*dy)`.  The square root is strictly monotone on
non-negative numbers and every use of a distance in the sources is a comparison with
another distance, with `std::abs` of a coordinate difference or with `DBL_MAX`, so the
model carries the square: `Point.distance` below is `dx*dx + dy*dy`, a radius is the square
of the C++ radius, and `std::abs(sub) < min_dist` reads `sub * sub < min_dist`.

`alpha = .7` is the double nearest to `7/10`, `3152519739159347 * 2^-52`, and the product
`alpha * node->m` is rounded to the nearest double, ties to even: this one rounding is
modelled (`round53`), because the test `child->m > alpha * node->m` depends on it.

## Pointers

A `std::shared_ptr<Node>` together with everything it owns is a `Tree`: every node is
created by `std::make_shared` and stored in exactly one owning slot.  Each node carries the
address it was allocated at (`addr`); `std::make_shared` takes the next unused address from
a counter that is threaded through the code, so an address is never handed out twice.  A
`std::weak_ptr<Node>` (`m_next`) is an `Option Nat`, the address it designates; locking it
looks the address up among the nodes that are still owned.
-/

/-- The number `2^k`, written so that no single exponent is large. -/
def pow2 (k : Nat) : Nat := (2 ^ 128) ^ (k / 128) * 2 ^ (k % 128)

/-- The double `n * 2^-e` (for `e ≤ 1074`) in units of `2^-1074`. -/
def dbl (n : Int) (e : Nat) : Int := n * ((pow2 (1074 - e) : Nat) : Int)

/-- The largest finite double `(2 - 2^-52) * 2^1023`, as in `<cfloat>`. -/
def DBL_MAX : Int := ((pow2 1024 - pow2 971 : Nat) : Int) * ((pow2 1074 : Nat) : Int)

/-- The machine epsilon `std::numeric_limits<double>::epsilon() = 2^-52`. -/
def DBL_EPSILON : Int := ((pow2 1022 : Nat) : Int)

/-! ## point.cpp -/

/-- The class `Point`: two doubles. -/
structure Point where
  px : Int
  py : Int
deriving DecidableEq, Repr

namespace Point

/-- The default constructor `Point()`: both coordinates are `DBL_MAX`. -/
def default : Point := ⟨DBL_MAX, DBL_MAX⟩

/-- The accessor `Point::x`. -/
def x (p : Point) : Int := p.px

/-- The accessor `Point::y`. -/
def y (p : Point) : Int := p.py

/-- The square of `Point::distance`. -/
def distance (a p : Point) : Int :=
  (a.px - p.x) * (a.px - p.x) + (a.py - p.y) * (a.py - p.y)

/-- The comparison `Point::operator<`. -/
def lt (a p : Point) : Bool :=
  decide (a.px < p.x) || (decide (a.px = p.x) && decide (a.py < p.y))

/-- The comparison `Point::operator>`. -/
def gt (a p : Point) : Bool :=
  decide (a.px > p.x) || (decide (a.px = p.x) && decide (a.py > p.y))

/-- The comparison `Point::operator<=`. -/
def le (a p : Point) : Bool := !(a.gt p)

/-- The comparison `Point::operator>=`. -/
def ge (a p : Point) : Bool := !(a.lt p)

/-- The helper `Point::equals_d`. -/
def equals_d (a b : Int) : Bool := decide (|a - b| < DBL_EPSILON)

/-- The comparison `Point::operator==`. -/
def eq (a p : Point) : Bool := equals_d a.px p.x && equals_d a.py p.y

/-- The comparison `Point::operator!=`. -/
def ne (a p : Point) : Bool := !(a.eq p)

end Point

/-! ## rect.cpp -/

/-- The class `Rect`: its lower-left and upper-right corner. -/
structure Rect where
  left_bottom : Point
  right_top : Point
deriving DecidableEq, Repr

namespace Rect

/-- The default constructor `Rect()`: both corners are `Point()`. -/
def default : Rect := ⟨Point.default, Point.default⟩

/-- The accessor `Rect::xmin`. -/
def xmin (r : Rect) : Int := r.left_bottom.x

/-- The accessor `Rect::ymin`. -/
def ymin (r : Rect) : Int := r.left_bottom.y

/-- The accessor `Rect::xmax`. -/
def xmax (r : Rect) : Int := r.right_top.x

/-- The accessor `Rect::ymax`. -/
def ymax (r : Rect) : Int := r.right_top.y

/-- The test `Rect::contains`. -/
def contains (r : Rect) (p : Point) : Bool :=
  decide (p.x ≥ r.xmin) && decide (p.x ≤ r.xmax) && decide (p.y ≥ r.ymin) && decide (p.y ≤ r.ymax)

/-- The comparison `Rect::operator==`. -/
def eq (r rhs : Rect) : Bool := r.left_bottom.eq rhs.left_bottom && r.right_top.eq rhs.right_top

/-- The comparison `Rect::operator!=`. -/
def ne (r rhs : Rect) : Bool := !(rhs.eq r)

/-- The function `Rect::distance` (a gap along one axis, not squared). -/
def distance (r : Rect) (p : Point) : Int :=
  let left := if p.x < r.xmin then r.xmin - p.x else DBL_MAX
  let top := if p.y > r.ymax then p.y - r.ymax else DBL_MAX
  let right := if p.x > r.xmax then p.x - r.xmax else DBL_MAX
  let bottom := if p.y < r.ymin then r.ymin - p.y else DBL_MAX
  let result := min (min left top) (min right bottom)
  if result < DBL_MAX then result else 0

/-- The test `Rect::intersects`. -/
def intersects (r other : Rect) : Bool :=
  other.contains r.left_bottom || other.contains r.right_top ||
    r.contains other.left_bottom || r.contains other.right_top

end Rect

/-! ## 2dtree.cpp, namespace kdtree -/

namespace kdtree

/-- What a walk along successor links reads of a node: its address, point and `m_next`. -/
structure Cell where
  addr : Nat
  m_point : Point
  m_next : Option Nat
deriving DecidableEq, Repr

/-- A `std::shared_ptr<Node>` with the nodes it owns; `nil` is the null pointer.  The fields
of `node` are those of `struct Node`, preceded by the address of the node. -/
inductive Tree where
  | nil : Tree
  | node (addr : Nat) (m_point : Point) (m_left m_right : Tree) (m_next : Option Nat)
      (is_x : Bool) (m : Nat) : Tree
deriving DecidableEq, Repr

namespace Tree

/-- The field `node->m` (`0` stands for the read through a null pointer). -/
def weight : Tree → Nat
  | nil => 0
  | node _ _ _ _ _ _ m => m

/-- The number of nodes owned. -/
def size : Tree → Nat
  | nil => 0
  | node _ _ l r _ _ _ => l.size + 1 + r.size

/-- The points of the nodes, left subtree first, then the node, then the right subtree. -/
def toList : Tree → List Point
  | nil => []
  | node _ p l r _ _ _ => l.toList ++ p :: r.toList

/-- The nodes in the same order, as cells. -/
def cells : Tree → List Cell
  | nil => []
  | node a p l r nx _ _ => l.cells ++ ⟨a, p, nx⟩ :: r.cells

/-- The node reached by `while (b->m_left) b = b->m_left`. -/
def leftmost : Tree → Option Cell
  | nil => none
  | node a p l _ nx _ _ =>
    match l.leftmost with
    | some c => some c
    | none => some ⟨a, p, nx⟩

/-- The node reached by `while (e->m_right) e = e->m_right`. -/
def rightmost : Tree → Option Cell
  | nil => none
  | node a p _ r nx _ _ =>
    match r.rightmost with
    | some c => some c
    | none => some ⟨a, p, nx⟩

/-- The node allocated at address `a`, if the tree owns it. -/
def find (t : Tree) (a : Nat) : Option Cell := t.cells.find? (fun c => c.addr == a)

/-- The call `w.lock()` on a weak pointer, while `t` owns the live nodes: the pointer itself if
its node is still owned, null otherwise. -/
def lock (t : Tree) (w : Option Nat) : Option Nat :=
  match w with
  | none => none
  | some a => (t.find a).map Cell.addr

end Tree

/-- The number of times `n` is halved until it is below `2^53`; the first argument bounds the
recursion. -/
def shift53 : Nat → Nat → Nat
  | 0, _ => 0
  | fuel + 1, n => if n < 2 ^ 53 then 0 else shift53 fuel (n / 2) + 1

/-- The integer `n` rounded to 53 significant bits, to the nearest and on a tie to the even
one: the rounding of a `double` result, and of the conversion of a `std::size_t`. -/
def round53 (n : Nat) : Nat :=
  let s := shift53 n n
  let q := n / 2 ^ s
  let r := n % 2 ^ s
  if 2 * r > 2 ^ s ∨ (2 * r = 2 ^ s ∧ q % 2 = 1) then (q + 1) * 2 ^ s else q * 2 ^ s

/-- The test `child->m > alpha * node->m` in `double`: `alpha = .7` is
`3152519739159347 * 2^-52`, both weights are converted to `double`, the product is rounded,
and the two sides are compared in units of `2^-52`. -/
def exceeds_alpha (child_m node_m : Nat) : Bool :=
  decide (round53 (3152519739159347 * round53 node_m) < round53 child_m * 2 ^ 52)

/-- The private `PointSet::put(node, point, is_x, next, is_balance)` with `balance` passed as
`bal`; `c` is the next unused address and the result is the new content of the slot `node`
with the new counter.  Each of its call sites has the shape
`if (slot) put(slot, point, is_x, next, ..) else slot = std::make_shared<Node>(point, is_x, next)`:
the second branch is the `nil` case here.  In the right branch the new `m_next` is the node
reached from `m_right` along `m_left`. -/
def put_with (bal : Tree → Bool → Nat → Option (Tree × Nat)) :
    Tree → Point → Bool → Option Nat → Bool → Nat → Option (Tree × Nat)
  | Tree.nil, point, is_x, next, _, c => some (Tree.node c point Tree.nil Tree.nil next is_x 1, c + 1)
  | Tree.node a p l r nx nix m, point, is_x, next, is_balance, c =>
    if (decide (point.x < p.x) && nix) || (decide (point.y < p.y) && !nix) then
      match put_with bal l point (!is_x) (some a) is_balance c with
      | none => none
      | some (l1, c1) =>
        if is_balance && exceeds_alpha l1.weight (m + 1) then
          bal (Tree.node a p l1 r nx nix (m + 1)) is_x c1
        else some (Tree.node a p l1 r nx nix (m + 1), c1)
    else
      match put_with bal r point (!is_x) next is_balance c with
      | none => none
      | some (r1, c1) =>
        if is_balance && exceeds_alpha r1.weight (m + 1) then
          bal (Tree.node a p l r1 (r1.leftmost.map Cell.addr) nix (m + 1)) is_x c1
        else some (Tree.node a p l r1 (r1.leftmost.map Cell.addr) nix (m + 1), c1)

/-- The private `put` as `build_tree` calls it, with `is_balance = false`: `balance` is never
reached. -/
def put_plain (t : Tree) (point : Point) (is_x : Bool) (next : Option Nat) (c : Nat) :
    Option (Tree × Nat) :=
  put_with (fun _ _ _ => none) t point is_x next false c

/-- The function `PointSet::build_tree`; `temp` holds the points `temp[i]->m_point`.  The
first argument bounds the depth of the recursion (`none` when it is used up). -/
def build_tree (temp : List Point) :
    Nat → Tree → Bool → Option Nat → Nat → Nat → Nat → Option (Tree × Nat)
  | 0, _, _, _, _, _, _ => none
  | fuel + 1, root, is_x, last, left, right, c =>
    let mid := (left + right) / 2
    if mid ≥ left ∧ mid < right then
      match temp[mid]? with
      | none => none
      | some pt =>
        match put_plain root pt is_x last c with
        | none => none
        | some (root1, c1) =>
          match build_tree temp fuel root1 is_x last left mid c1 with
          | none => none
          | some (root2, c2) => build_tree temp fuel root2 is_x last (mid + 1) right c2
    else some (root, c)

/-- The loop `do { begin = begin->m_next.lock(); temp.push_back(begin); } while (begin != end)`
of `balance`, started at the cell `b`; `last` is the address of `end`.  The successor is looked
up among the nodes of the subtree `owner` being rebuilt; a null successor (the C++ would
dereference it) or one outside the subtree gives `none`, as does a walk of more steps than the
subtree has nodes (which never meets `end`). -/
def collect (owner : Tree) (last : Nat) : Nat → Cell → Option (List Point)
  | 0, _ => none
  | fuel + 1, b =>
    match b.m_next with
    | none => none
    | some a =>
      match owner.find a with
      | none => none
      | some c =>
        if c.addr = last then some [c.m_point]
        else (collect owner last fuel c).map (fun rest => c.m_point :: rest)

/-- The function `PointSet::balance`.  After the walk, `end = end->m_next.lock()` is the
successor of the rightmost node: the node `next` of the enclosing `put`, which is null or
an ancestor of `node` and so alive. -/
def balance (node : Tree) (is_x : Bool) (c : Nat) : Option (Tree × Nat) :=
  match node.leftmost, node.rightmost with
  | some b, some e =>
    match collect node e.addr node.size b with
    | none => none
    | some rest =>
      build_tree (b.m_point :: rest) (rest.length + 2) Tree.nil is_x e.m_next 0 (rest.length + 1) c
  | _, _ => none

/-- The private `PointSet::put`, with `balance`. -/
def put (t : Tree) (point : Point) (is_x : Bool) (next : Option Nat) (is_balance : Bool)
    (c : Nat) : Option (Tree × Nat) :=
  put_with balance t point is_x next is_balance c

/-- The private `PointSet::contains(node, point)`. -/
def contains : Tree → Point → Bool
  | Tree.nil, _ => false
  | Tree.node _ p l r _ nix _, point =>
    if p.eq point then true
    else if (decide (point.x < p.x) && nix) || (decide (point.y < p.y) && !nix) then
      contains l point
    else contains r point

/-- The class `kdtree::PointSet`: its data members and the allocation counter.  `m_end` is
never assigned and stays null; `m_size`, an `int`, is a natural number here. -/
structure PointSet where
  m_root : Tree
  m_begin : Option Nat
  m_end : Option Nat
  m_size : Nat
  alloc : Nat
deriving DecidableEq, Repr

namespace PointSet

/-- The default-constructed, empty set. -/
def empty_set : PointSet := ⟨Tree.nil, none, none, 0, 0⟩

/-- The method `PointSet::empty`. -/
def empty (s : PointSet) : Bool := decide (s.m_root = Tree.nil)

/-- The method `PointSet::size`. -/
def size (s : PointSet) : Nat := s.m_size

/-- The public `PointSet::contains(point)`. -/
def contains (s : PointSet) (point : Point) : Bool := kdtree.contains s.m_root point

/-- The public `PointSet::put(point)`; `none` when a `balance` inside fails. -/
def put (s : PointSet) (point : Point) : Option PointSet :=
  if s.contains point then some s
  else
    match s.m_root with
    | Tree.nil =>
      some ⟨Tree.node s.alloc point Tree.nil Tree.nil s.m_end true 1, some s.alloc, s.m_end,
        s.m_size + 1, s.alloc + 1⟩
    | Tree.node a p l r nx nix m =>
      match kdtree.put (Tree.node a p l r nx nix m) point true s.m_end true s.alloc with
      | none => none
      | some (root1, c1) =>
        some ⟨root1, root1.leftmost.map Cell.addr, s.m_end, s.m_size + 1, c1⟩

/-- The puts of a sequence of points, in order. -/
def put_all : PointSet → List Point → Option PointSet
  | s, [] => some s
  | s, p :: ps =>
    match s.put p with
    | none => none
    | some s1 => put_all s1 ps

end PointSet

/-- The client loop `for (; it != end; ++it) visit(*it)` over kd-tree iterators whose nodes
are owned by `owner`: `it` and `last` are the `m_node` of the two iterators and `operator++`
is `m_node = m_node->m_next.lock()`.  The result is `none` when the loop dereferences null or
has not met `last` after the given number of steps. -/
def enumerate (owner : Tree) : Nat → Option Nat → Option Nat → Option (List Point)
  | 0, _, _ => none
  | fuel + 1, it, last =>
    if it = last then some []
    else
      match it with
      | none => none
      | some a =>
        match owner.find a with
        | none => none
        | some c =>
          (enumerate owner fuel (owner.lock c.m_next) last).map (fun rest => c.m_point :: rest)

/-- The result of a query: the result tree `range_root` / `nearest_root`, the `m_node` of the
first iterator, and the counter.  The second iterator is `iterator(range_end)`, null. -/
structure Result where
  root : Tree
  first : Option Nat
  alloc : Nat
deriving DecidableEq, Repr

/-- The block shared by `range` and `nearest`: put `point` into the result tree and reset
its begin pointer, or create the root. -/
def emit (res : Result) (point : Point) : Option Result :=
  match res.root with
  | Tree.nil => some ⟨Tree.node res.alloc point Tree.nil Tree.nil none true 1, some res.alloc, res.alloc + 1⟩
  | Tree.node a p l r nx nix m =>
    match put (Tree.node a p l r nx nix m) point true none true res.alloc with
    | none => none
    | some (root1, c1) => some ⟨root1, root1.leftmost.map Cell.addr, c1⟩

/-- The private `PointSet::range(node, rect, range_root, range_begin, range_end)`. -/
def range_rec : Tree → Rect → Result → Option Result
  | Tree.nil, _, res => some res
  | Tree.node _ p l r _ nix _, rect, res =>
    match (if rect.contains p then emit res p else some res) with
    | none => none
    | some res1 =>
      let value := if nix then p.x else p.y
      let max_dim := if nix then rect.xmax else rect.ymax
      let min_dim := if nix then rect.xmin else rect.ymin
      if value < min_dim then range_rec r rect res1
      else if value > max_dim then range_rec l rect res1
      else
        match range_rec l rect res1 with
        | none => none
        | some res2 => range_rec r rect res2

/-- The public `PointSet::range(rect)`. -/
def PointSet.range (s : PointSet) (rect : Rect) : Option Result :=
  if !s.empty then range_rec s.m_root rect ⟨Tree.nil, none, s.alloc⟩
  else some ⟨Tree.nil, none, s.alloc⟩

/-- The points a client reads from the iterator pair of a result. -/
def Result.points (res : Result) (fuel : Nat) : Option (List Point) :=
  enumerate res.root fuel res.first none

/-- The `std::map<double, std::shared_ptr<Node>>` of `nearest`: the entries in ascending order
of their key, a squared distance; of the node only `m_point` is read. -/
abbrev DistMap := List (Int × Point)

namespace DistMap

/-- The call `std::map::insert`: nothing happens when the key is present. -/
def insert : DistMap → Int → Point → DistMap
  | [], d, p => [(d, p)]
  | (k, q) :: rest, d, p =>
    if d < k then (d, p) :: (k, q) :: rest
    else if d = k then (k, q) :: rest
    else (k, q) :: insert rest d p

/-- The call `std::map::erase(key)`. -/
def erase (m : DistMap) (d : Int) : DistMap := m.filter (fun e => decide (e.1 ≠ d))

/-- The key `rbegin()->first`, the largest one. -/
def rbegin_key (m : DistMap) : Option Int := m.getLast?.map Prod.fst

end DistMap

/-- The update of `node_dists` at a node with point `p` at distance `dist`:
`if (k > 0 && size() == k && rbegin()->first > dist) erase(rbegin()->first);`
`if (size() < k) insert({dist, node});`.  On an empty map the first test fails at
`size() == k`. -/
def visit (node_dists : DistMap) (k : Nat) (dist : Int) (p : Point) : DistMap :=
  let nd1 :=
    match node_dists.rbegin_key with
    | some key => if k > 0 ∧ node_dists.length = k ∧ key > dist then node_dists.erase key else node_dists
    | none => node_dists
  if nd1.length < k then nd1.insert dist p else nd1

/-- The private `PointSet::nearest(node, point, k, i, is_x, node_dists, min_dist)`; the result
is the new `node_dists`.  The two cases of `sub < 0` spell out `node1` and `node2`. -/
def nearest_rec : Tree → Point → Nat → Nat → Bool → DistMap → Int → DistMap
  | Tree.nil, _, _, _, _, node_dists, _ => node_dists
  | Tree.node _ p l r _ _ _, point, k, i, is_x, node_dists, min_dist =>
    let dist := point.distance p
    let nd2 := visit node_dists k dist p
    let min_dist1 := if min_dist > dist then dist else min_dist
    let i1 := i + 1
    let sub := if is_x then p.x - point.x else p.y - point.y
    if sub < 0 then
      let nd3 := nearest_rec r point k i1 (!is_x) nd2 min_dist1
      if sub * sub < min_dist1 ∨ i1 < k then nearest_rec l point k i1 (!is_x) nd3 min_dist1
      else nd3
    else
      let nd3 := nearest_rec l point k i1 (!is_x) nd2 min_dist1
      if sub * sub < min_dist1 ∨ i1 < k then nearest_rec r point k i1 (!is_x) nd3 min_dist1
      else nd3

/-- The loop of `nearest(point, k)` over `node_dists`, in ascending order of the keys. -/
def emit_all : Result → DistMap → Option Result
  | res, [] => some res
  | res, e :: rest =>
    match emit res e.2 with
    | none => none
    | some res1 => emit_all res1 rest

/-- The public `PointSet::nearest(point, k)`. -/
def PointSet.nearest_k (s : PointSet) (point : Point) (k : Nat) : Option Result :=
  emit_all ⟨Tree.nil, none, s.alloc⟩ (nearest_rec s.m_root point k 0 true [] (DBL_MAX * DBL_MAX))

/-- The public `PointSet::nearest(point)`: the outer option is the model's failure, the inner
one the `std::optional<Point>` returned. -/
def PointSet.nearest (s : PointSet) (point : Point) : Option (Option Point) :=
  match s.nearest_k point 1 with
  | none => none
  | some res =>
    match res.first with
    | none => some none
    | some a => (res.root.find a).map (fun c => some c.m_point)

end kdtree

/-! ## 2dtree.cpp, namespace rbtree, and its iterator in primitives.h -/

namespace rbtree

/-- The class `rbtree::PointSet`: the elements of the `std::set<Point>` in ascending order. -/
structure PointSet where
  points : List Point
deriving DecidableEq, Repr

/-- The call `std::set<Point>::insert`, ordered by `Point::operator<`. -/
def set_insert : List Point → Point → List Point
  | [], p => [p]
  | q :: rest, p =>
    if p.lt q then p :: q :: rest
    else if q.lt p then q :: set_insert rest p
    else q :: rest

/-- The call `std::set<double>::emplace`. -/
def dset_emplace : List Int → Int → List Int
  | [], d => [d]
  | k :: rest, d =>
    if d < k then d :: k :: rest
    else if k < d then k :: dset_emplace rest d
    else k :: rest

/-- The class `rbtree::PointSet::iterator`: `m_current` is the part of the set from the
position of the iterator on (the end iterator has none left). -/
structure iterator where
  m_current : List Point
  m_rect : Rect
  m_point : Point
  m_radius : Int
deriving DecidableEq, Repr

/-- The loops `while (++it != m_end && cond(*it))` of `next_point`, after the first `++it`. -/
def skip_while (cond : Point → Bool) : List Point → List Point
  | [] => []
  | q :: rest => if cond q then skip_while cond rest else q :: rest

/-- The function `iterator::next_point`, on `m_current`. -/
def next_point (it : List Point) (rect : Rect) (point : Point) (radius : Int) : List Point :=
  if rect.ne Rect.default then skip_while (fun q => !rect.contains q) it.tail
  else if point.ne Point.default then skip_while (fun q => decide (point.distance q > radius)) it.tail
  else it.tail

/-- The increment `iterator::operator++`. -/
def iterator.incr (it : iterator) : iterator :=
  { it with m_current := next_point it.m_current it.m_rect it.m_point it.m_radius }

/-- The constructor `iterator(ps, it)`; the uninitialised `m_radius` is `0`. -/
def iterator.plain (it : List Point) : iterator := ⟨it, Rect.default, Point.default, 0⟩

/-- The constructor `iterator(ps, it, rect)`. -/
def iterator.of_rect (it : List Point) (rect : Rect) : iterator :=
  let self : iterator := ⟨it, rect, Point.default, 0⟩
  match it with
  | [] => self
  | q :: _ => if !rect.contains q then self.incr else self

/-- The constructor `iterator(ps, it, point, radius)`. -/
def iterator.of_radius (it : List Point) (point : Point) (radius : Int) : iterator :=
  let self : iterator := ⟨it, Rect.default, point, radius⟩
  match it with
  | [] => self
  | q :: _ => if point.distance q > radius then self.incr else self

namespace PointSet

/-- The default-constructed, empty set. -/
def empty_set : PointSet := ⟨[]⟩

/-- The method `PointSet::empty`. -/
def empty (s : PointSet) : Bool := s.points.isEmpty

/-- The method `PointSet::size`. -/
def size (s : PointSet) : Nat := s.points.length

/-- The method `PointSet::put`. -/
def put (s : PointSet) (p : Point) : PointSet := ⟨set_insert s.points p⟩

/-- The puts of a sequence of points, in order. -/
def put_all : PointSet → List Point → PointSet
  | s, [] => s
  | s, p :: ps => put_all (s.put p) ps

/-- The method `PointSet::contains`: `std::set::find` looks for an element equivalent under
`operator<`. -/
def contains (s : PointSet) (p : Point) : Bool := s.points.any (fun q => !q.lt p && !p.lt q)

/-- The method `PointSet::range`: the iterator pair. -/
def range (s : PointSet) (rect : Rect) : iterator × iterator :=
  (iterator.of_rect s.points rect, iterator.of_rect [] rect)

/-- The loop of `std::min_element(first, last, comp)` after its first element: `smallest`
moves to an element when `comp(element, *smallest)` holds. -/
def min_element_from (comp : Point → Point → Bool) : Point → List Point → Point
  | smallest, [] => smallest
  | smallest, q :: rest =>
    if comp q smallest then min_element_from comp q rest else min_element_from comp smallest rest

/-- The method `PointSet::nearest(p)`: `std::min_element` with the comparison
`p.distance(a) < p.distance(b)`, absent for `points.end()`. -/
def nearest (s : PointSet) (p : Point) : Option Point :=
  match s.points with
  | [] => none
  | q :: rest => some (min_element_from (fun a b => decide (p.distance a < p.distance b)) q rest)

/-- The loop over the points in `nearest(p, k)` that fills `distances`. -/
def nearest_distances (p : Point) (k : Nat) : List Point → List Int → List Int
  | [], distances => distances
  | point :: rest, distances =>
    if distances.length = k ∧
        (match distances.getLast? with
         | some d => decide (d < point.distance p)
         | none => false) = true then
      nearest_distances p k rest distances
    else
      let distances1 := if distances.length = k then distances.dropLast else distances
      nearest_distances p k rest (dset_emplace distances1 (point.distance p))

/-- The method `PointSet::nearest(p, k)`: the iterator pair (`none` stands for reading
`*distances.rbegin()` of an empty set). -/
def nearest_k (s : PointSet) (p : Point) (k : Nat) : Option (iterator × iterator) :=
  let k1 := min s.size k
  if k1 = 0 then some (iterator.plain [], iterator.plain [])
  else
    match (nearest_distances p k1 s.points []).getLast? with
    | none => none
    | some radius => some (iterator.of_radius s.points p radius, iterator.of_radius [] p radius)

end PointSet

/-- The client loop `for (; it != end; ++it) visit(*it)` over an iterator pair; iterators are
compared by `m_current`.  The result is `none` when the loop dereferences the end of the set
or has not met `last` after the given number of steps. -/
def enumerate : Nat → iterator → iterator → Option (List Point)
  | 0, _, _ => none
  | fuel + 1, it, last =>
    if it.m_current = last.m_current then some []
    else
      match it.m_current with
      | [] => none
      | q :: _ => (enumerate fuel it.incr last).map (fun rest => q :: rest)

end rbtree

/-! ## Invariants of the k-d tree -/

namespace kdtree

/-- The address a successor link into the subtree `t` designates: its leftmost node, or
`next` when `t` is null. -/
def Tree.first (t : Tree) (next : Option Nat) : Option Nat :=
  match t.leftmost with
  | some c => some c.addr
  | none => next

/-- The successor links of `t` follow the order left subtree, node, right subtree, and the
last node of `t` is linked to `next`. -/
def Tree.Linked : Tree → Option Nat → Prop
  | Tree.nil, _ => True
  | Tree.node a _ l r nx _ _, next => l.Linked (some a) ∧ nx = r.first next ∧ r.Linked next

/-- The address a link to the front of a list of cells designates, `next` for no cell. -/
def link_target : List Cell → Option Nat → Option Nat
  | [], next => next
  | d :: _, _ => some d.addr

/-- The same on a list of cells: each cell is linked to the one after it, the last to `next`. -/
def Chain : List Cell → Option Nat → Prop
  | [], _ => True
  | c :: rest, next => c.m_next = link_target rest next ∧ Chain rest next

/-- The discriminant invariant: below a node that splits on an axis, the left subtree holds
strictly smaller coordinates on that axis and the right subtree greater or equal ones. -/
def Tree.Ordered : Tree → Prop
  | Tree.nil => True
  | Tree.node _ p l r _ nix _ =>
    (∀ q ∈ l.toList, if nix = true then q.x < p.x else q.y < p.y) ∧
    (∀ q ∈ r.toList, if nix = true then p.x ≤ q.x else p.y ≤ q.y) ∧
    l.Ordered ∧ r.Ordered

/-- The stored axis flags alternate with the depth, starting with `b` at the root. -/
def Tree.Axis : Tree → Bool → Prop
  | Tree.nil, _ => True
  | Tree.node _ _ l r _ nix _, b => nix = b ∧ l.Axis (!b) ∧ r.Axis (!b)

/-- The addresses of the nodes of a tree, in order. -/
def Tree.addrs (t : Tree) : List Nat := t.cells.map Cell.addr

/-- A well-formed subtree as `put` meets it: `is_x` is the axis of its root, `next` the
successor of its last node and `c` the allocation counter. -/
structure Tree.WF (t : Tree) (is_x : Bool) (next : Option Nat) (c : Nat) : Prop where
  ordered : t.Ordered
  axis : t.Axis is_x
  linked : t.Linked next
  nodup : t.addrs.Nodup
  below : ∀ a ∈ t.addrs, a < c

/-- What `put` needs of the `balance` it calls on a subtree with at least two nodes. -/
def BalSpec (bal : Tree → Bool → Nat → Option (Tree × Nat)) : Prop :=
  ∀ (t : Tree) (is_x : Bool) (next : Option Nat) (c : Nat), t.WF is_x next c → 2 ≤ t.size →
    ∃ t1 c1, bal t is_x c = some (t1, c1) ∧ t1.WF is_x next c1 ∧ c ≤ c1 ∧
      t1.toList.Perm t.toList ∧ (∀ a ∈ t1.addrs, c ≤ a) ∧ t1 ≠ Tree.nil

/-- The invariant of a `kdtree::PointSet`. -/
structure PointSet.Inv (s : PointSet) : Prop where
  wf : s.m_root.WF true none s.alloc
  m_end_null : s.m_end = none
  m_begin_first : s.m_begin = s.m_root.first none
  m_size_eq : s.m_size = s.m_root.toList.length
  distinct : s.m_root.toList.Nodup

end kdtree

namespace kdtree

/-- The invariant of a result tree under construction. -/
structure Result.Inv (res : Result) : Prop where
  wf : res.root.WF true none res.alloc
  first_eq : res.first = res.root.first none

/-- The map holds a key that is at most `d`. -/
def DistMap.Covers (m : DistMap) (d : Int) : Prop := ∃ e ∈ m, e.1 ≤ d

/-- The keys of the map. -/
def DistMap.keys (m : DistMap) : List Int := m.map Prod.fst

end kdtree

/-- Any two points of the list are the same point or differ by at least epsilon in a
coordinate. -/
def Separated (pts : List Point) : Prop :=
  ∀ a ∈ pts, ∀ b ∈ pts, a = b ∨ DBL_EPSILON ≤ |a.x - b.x| ∨ DBL_EPSILON ≤ |a.y - b.y|

/-- The points of the list have pairwise distinct distances to `p`. -/
def DistinctDistances (p : Point) (pts : List Point) : Prop :=
  ∀ a ∈ pts, ∀ b ∈ pts, p.distance a = p.distance b → a = b

/-- The stored points of a k-d tree set: the points of the nodes its tree owns. -/
def kdtree.PointSet.stored (s : kdtree.PointSet) : List Point := s.m_root.toList

/-- The point `(nx * 2^-e, ny * 2^-e)`. -/
def pt (nx ny : Int) (e : Nat) : Point := ⟨dbl nx e, dbl ny e⟩

/-- The four corners of a rectangle. -/
def Rect.corners (r : Rect) : List Point :=
  [⟨r.xmin, r.ymin⟩, ⟨r.xmin, r.ymax⟩, ⟨r.xmax, r.ymin⟩, ⟨r.xmax, r.ymax⟩]

/-- The gaps between a point and the four sides of a rectangle that are positive: left, top,
right, bottom. -/
def Rect.positive_gaps (r : Rect) (p : Point) : List Int :=
  [r.xmin - p.x, p.y - r.ymax, p.x - r.xmax, r.ymin - p.y].filter (fun g => decide (0 < g))

/-- A property of every double: the only double within epsilon of `DBL_MAX` is `DBL_MAX`
(its neighbour is `2^971` away). -/
def NearMaxIsMax (c : Int) : Prop := |c - DBL_MAX| < DBL_EPSILON → c = DBL_MAX

/-- The `k`-th smallest number of a list, counted with repetitions: the entry `k - 1` of the
sorted list. -/
def kth_smallest (ds : List Int) (k : Nat) : Option Int :=
  if k = 0 then none else (ds.insertionSort (fun a b => a ≤ b))[k - 1]?

/-- The scapegoat condition at the root of a subtree: `max(m(left), m(right)) <= 0.7 * m`,
a null child counting as `0`. -/
def kdtree.Tree.within_alpha : kdtree.Tree → Bool
  | kdtree.Tree.nil => true
  | kdtree.Tree.node _ _ l r _ _ m => decide (10 * max l.weight r.weight ≤ 7 * m)

/-- The weight invariant: `m(node) = 1 + m(left) + m(right)` at every node, an absent child
counting as `0`. -/
def kdtree.Tree.Weighted : kdtree.Tree → Prop
  | kdtree.Tree.nil => True
  | kdtree.Tree.node _ _ l r _ _ m => m = 1 + l.weight + r.weight ∧ l.Weighted ∧ r.Weighted

/-- The depth and the stored flag `is_x` of every node of a tree whose root is at depth `d`. -/
def kdtree.Tree.depth_flags : kdtree.Tree → Nat → List (Nat × Bool)
  | kdtree.Tree.nil, _ => []
  | kdtree.Tree.node _ _ l r _ nix _, d =>
    l.depth_flags (d + 1) ++ (d, nix) :: r.depth_flags (d + 1)

/-- The calls of the private `PointSet::nearest` that enter a node, in their order: for each
the flag `is_x` the call received and the flag `is_x` stored in the node.  The recursion is
that of `nearest_rec`. -/
def kdtree.nearest_flags :
    kdtree.Tree → Point → Nat → Nat → Bool → kdtree.DistMap → Int → List (Bool × Bool)
  | kdtree.Tree.nil, _, _, _, _, _, _ => []
  | kdtree.Tree.node _ p l r _ nix _, point, k, i, is_x, node_dists, min_dist =>
    let dist := point.distance p
    let nd2 := kdtree.visit node_dists k dist p
    let min_dist1 := if min_dist > dist then dist else min_dist
    let i1 := i + 1
    let sub := if is_x then p.x - point.x else p.y - point.y
    if sub < 0 then
      let nd3 := kdtree.nearest_rec r point k i1 (!is_x) nd2 min_dist1
      (is_x, nix) :: (kdtree.nearest_flags r point k i1 (!is_x) nd2 min_dist1 ++
        (if sub * sub < min_dist1 ∨ i1 < k then
          kdtree.nearest_flags l point k i1 (!is_x) nd3 min_dist1
        else []))
    else
      let nd3 := kdtree.nearest_rec l point k i1 (!is_x) nd2 min_dist1
      (is_x, nix) :: (kdtree.nearest_flags l point k i1 (!is_x) nd2 min_dist1 ++
        (if sub * sub < min_dist1 ∨ i1 < k then
          kdtree.nearest_flags r point k i1 (!is_x) nd3 min_dist1
        else []))

/-! ## Cells, leftmost and rightmost nodes, successor chains -/

namespace kdtree

theorem Tree.toList_eq_cells (t : Tree) : t.toList = t.cells.map Cell.m_point := by
  induction t with
  | nil => rfl
  | node a p l r nx nix m ihl ihr => simp [Tree.toList, Tree.cells, ihl, ihr]

theorem Tree.size_eq_length (t : Tree) : t.size = t.toList.length := by
  induction t with
  | nil => rfl
  | node a p l r nx nix m ihl ihr => simp [Tree.toList, Tree.size, ihl, ihr]; omega

theorem Tree.cells_length (t : Tree) : t.cells.length = t.toList.length := by
  rw [Tree.toList_eq_cells, List.length_map]

theorem Tree.leftmost_eq_head (t : Tree) : t.leftmost = t.cells.head? := by
  induction t with
  | nil => rfl
  | node a p l r nx nix m ihl _ =>
    simp only [Tree.leftmost, Tree.cells, ihl]
    cases h : l.cells with
    | nil => simp
    | cons c cs => simp

theorem Tree.rightmost_eq_last (t : Tree) : t.rightmost = t.cells.getLast? := by
  induction t with
  | nil => rfl
  | node a p l r nx nix m _ ihr =>
    simp only [Tree.rightmost, Tree.cells, ihr]
    cases h : r.cells with
    | nil => simp
    | cons c cs =>
      rw [List.getLast?_append_of_ne_nil _ (by simp), List.getLast?_cons_cons]
      cases h2 : (c :: cs).getLast? with
      | none => simp at h2
      | some d => rfl

theorem Tree.cells_eq_nil_iff (t : Tree) : t.cells = [] ↔ t = Tree.nil := by
  cases t <;> simp [Tree.cells]

theorem Tree.first_eq (t : Tree) (next : Option Nat) : t.first next = link_target t.cells next := by
  rw [Tree.first, Tree.leftmost_eq_head]
  cases t.cells <;> rfl

theorem Tree.first_of_ne_nil {t : Tree} (h : t ≠ Tree.nil) (n1 : Option Nat) :
    t.first n1 = t.leftmost.map Cell.addr := by
  rw [Tree.first]
  cases hl : t.leftmost with
  | some c => simp
  | none =>
    rw [Tree.leftmost_eq_head] at hl
    have : t.cells = [] := by simpa using hl
    exact absurd ((Tree.cells_eq_nil_iff t).1 this) h

theorem Tree.first_node (a : Nat) (p : Point) (l r : Tree) (nx : Option Nat) (nix : Bool) (m : Nat)
    (next : Option Nat) : (Tree.node a p l r nx nix m).first next = l.first (some a) := by
  simp only [Tree.first, Tree.leftmost]
  cases l.leftmost <;> rfl

theorem Chain.append_iff (xs ys : List Cell) (next : Option Nat) :
    Chain (xs ++ ys) next ↔ Chain xs (link_target ys next) ∧ Chain ys next := by
  induction xs with
  | nil => simp [Chain]
  | cons c cs ih =>
    simp only [List.cons_append, Chain, ih]
    cases cs with
    | nil => simp [link_target]; cases ys <;> simp [link_target] <;> tauto
    | cons d ds => simp [link_target]; tauto

theorem Tree.linked_iff_chain (t : Tree) (next : Option Nat) : t.Linked next ↔ Chain t.cells next := by
  induction t generalizing next with
  | nil => simp [Tree.Linked, Tree.cells, Chain]
  | node a p l r nx nix m ihl ihr =>
    simp only [Tree.Linked, Tree.cells, Chain.append_iff, Chain, ihl, ihr, link_target,
      Tree.first_eq]

end kdtree

/-! ## The private put keeps a subtree well-formed -/

namespace kdtree

theorem Tree.addrs_node (a : Nat) (p : Point) (l r : Tree) (nx : Option Nat) (nix : Bool) (m : Nat) :
    (Tree.node a p l r nx nix m).addrs = l.addrs ++ a :: r.addrs := by
  simp [Tree.addrs, Tree.cells]

theorem Tree.addrs_length (t : Tree) : t.addrs.length = t.toList.length := by
  simp [Tree.addrs, Tree.cells_length]

theorem Tree.WF_nil (is_x : Bool) (next : Option Nat) (c : Nat) : Tree.nil.WF is_x next c :=
  ⟨trivial, trivial, trivial, List.nodup_nil, by simp [Tree.addrs, Tree.cells]⟩

theorem Tree.WF_node_iff (a : Nat) (p : Point) (l r : Tree) (nx : Option Nat) (nix : Bool) (m : Nat)
    (is_x : Bool) (next : Option Nat) (c : Nat) :
    (Tree.node a p l r nx nix m).WF is_x next c ↔
      nix = is_x ∧ l.WF (!is_x) (some a) c ∧ r.WF (!is_x) next c ∧ nx = r.first next ∧ a < c ∧
      a ∉ l.addrs ∧ a ∉ r.addrs ∧ (∀ b ∈ l.addrs, b ∉ r.addrs) ∧
      (∀ q ∈ l.toList, if nix = true then q.x < p.x else q.y < p.y) ∧
      (∀ q ∈ r.toList, if nix = true then p.x ≤ q.x else p.y ≤ q.y) := by
  constructor
  · rintro ⟨ho, ha, hl, hn, hb⟩
    simp only [Tree.Ordered] at ho
    simp only [Tree.Axis] at ha
    simp only [Tree.Linked] at hl
    rw [Tree.addrs_node] at hn hb
    rw [List.nodup_append] at hn
    obtain ⟨hn1, hn2, hn3⟩ := hn
    rw [List.nodup_cons] at hn2
    refine ⟨ha.1, ⟨ho.2.2.1, ha.2.1, hl.1, hn1, ?_⟩, ⟨ho.2.2.2, ha.2.2, hl.2.2, hn2.2, ?_⟩, hl.2.1,
      ?_, ?_, hn2.1, ?_, ho.1, ho.2.1⟩
    · intro b hb1; exact hb b (by simp [hb1])
    · intro b hb1; exact hb b (by simp [hb1])
    · exact hb a (by simp)
    · intro h; exact hn3 h (by simp)
    · intro b h1 h2; exact hn3 h1 (by simp [h2])
  · rintro ⟨h1, hl, hr, h4, h5, h6, h7, h8, h9, h10⟩
    refine ⟨⟨h9, h10, hl.ordered, hr.ordered⟩, ⟨h1, hl.axis, hr.axis⟩, ⟨hl.linked, h4, hr.linked⟩, ?_, ?_⟩
    · rw [Tree.addrs_node, List.nodup_append]
      refine ⟨hl.nodup, List.nodup_cons.2 ⟨h7, hr.nodup⟩, ?_⟩
      intro b hb1 hb2
      rcases List.mem_cons.1 hb2 with h | h
      · exact h6 (h ▸ hb1)
      · exact h8 b hb1 h
    · intro b hb
      rw [Tree.addrs_node] at hb
      rcases List.mem_append.1 hb with h | h
      · exact hl.below b h
      · rcases List.mem_cons.1 h with h | h
        · exact h ▸ h5
        · exact hr.below b h

theorem Tree.WF.of_le {t : Tree} {is_x : Bool} {next : Option Nat} {c c1 : Nat}
    (h : t.WF is_x next c) (hc : c ≤ c1) : t.WF is_x next c1 :=
  ⟨h.ordered, h.axis, h.linked, h.nodup, fun a ha => lt_of_lt_of_le (h.below a ha) hc⟩

theorem Tree.toList_node (a : Nat) (p : Point) (l r : Tree) (nx : Option Nat) (nix : Bool) (m : Nat) :
    (Tree.node a p l r nx nix m).toList = l.toList ++ p :: r.toList := rfl

theorem Tree.size_ge_two_left (a : Nat) (p : Point) (l r : Tree) (nx : Option Nat) (nix : Bool)
    (m : Nat) (h : l ≠ Tree.nil) : 2 ≤ (Tree.node a p l r nx nix m).size := by
  cases l with
  | nil => exact absurd rfl h
  | node => simp [Tree.size]; omega

theorem Tree.size_ge_two_right (a : Nat) (p : Point) (l r : Tree) (nx : Option Nat) (nix : Bool)
    (m : Nat) (h : r ≠ Tree.nil) : 2 ≤ (Tree.node a p l r nx nix m).size := by
  cases r with
  | nil => exact absurd rfl h
  | node => simp [Tree.size]; omega

/-- The specification of the private `put`, for any `balance` that meets `BalSpec`. -/
theorem put_with_spec (bal : Tree → Bool → Nat → Option (Tree × Nat)) (b : Bool)
    (hbal : b = true → BalSpec bal) :
    ∀ (t : Tree) (point : Point) (is_x : Bool) (next : Option Nat) (c : Nat),
      t.WF is_x next c →
      ∃ t1 c1, put_with bal t point is_x next b c = some (t1, c1) ∧ t1.WF is_x next c1 ∧ c ≤ c1 ∧
        t1.toList.Perm (point :: t.toList) ∧ (∀ a ∈ t1.addrs, a ∈ t.addrs ∨ c ≤ a) ∧
        t1 ≠ Tree.nil := by
  intro t
  induction t with
  | nil =>
    intro point is_x next c _
    refine ⟨_, _, rfl, ?_, Nat.le_succ c, ?_, ?_, by simp⟩
    · rw [Tree.WF_node_iff]
      refine ⟨rfl, Tree.WF_nil _ _ _, Tree.WF_nil _ _ _, rfl, Nat.lt_succ_self c, ?_, ?_, ?_, ?_, ?_⟩ <;>
        simp [Tree.addrs, Tree.cells, Tree.toList]
    · simp [Tree.toList]
    · intro a ha
      simp [Tree.addrs, Tree.cells] at ha
      right; omega
  | node a p l r nx nix m ihl ihr =>
    intro point is_x next c hwf
    obtain ⟨h1, hl, hr, h4, h5, h6, h7, h8, h9, h10⟩ := (Tree.WF_node_iff _ _ _ _ _ _ _ _ _ _).1 hwf
    rw [put_with]
    split
    · -- left
      rename_i hcond
      obtain ⟨l1, c1, hput, hl1, hc1, hperm, haddr, hne⟩ := ihl point (!is_x) (some a) c hl
      rw [hput]
      have hpt : if nix = true then point.x < p.x else point.y < p.y := by
        cases nix <;> simpa using hcond
      have hnode : (Tree.node a p l1 r nx nix (m + 1)).WF is_x next c1 := by
        rw [Tree.WF_node_iff]
        refine ⟨h1, hl1, hr.of_le hc1, h4, lt_of_lt_of_le h5 hc1, ?_, h7, ?_, ?_, h10⟩
        · intro h
          rcases haddr a h with h | h
          · exact h6 h
          · omega
        · intro x hx hxr
          rcases haddr x hx with h | h
          · exact h8 x h hxr
          · have := hr.below x hxr; omega
        · intro q hq
          rcases List.mem_cons.1 (hperm.subset hq) with h | h
          · exact h ▸ hpt
          · exact h9 q h
      have hperm2 : (Tree.node a p l1 r nx nix (m + 1)).toList.Perm
          (point :: (Tree.node a p l r nx nix m).toList) := by
        simp only [Tree.toList_node]
        exact (hperm.append_right _).trans (by simp)
      have haddr2 : ∀ x ∈ (Tree.node a p l1 r nx nix (m + 1)).addrs,
          x ∈ (Tree.node a p l r nx nix m).addrs ∨ c ≤ x := by
        intro x hx
        simp only [Tree.addrs_node, List.mem_append, List.mem_cons] at hx ⊢
        rcases hx with h | h | h
        · rcases haddr x h with h | h
          · exact Or.inl (Or.inl h)
          · exact Or.inr h
        · exact Or.inl (Or.inr (Or.inl h))
        · exact Or.inl (Or.inr (Or.inr h))
      simp only []
      by_cases hb : (b && exceeds_alpha l1.weight (m + 1)) = true
      · rw [if_pos hb]
        simp only [Bool.and_eq_true] at hb
        obtain ⟨t2, c2, hbal2, hwf2, hc2, hperm3, haddr3, hne2⟩ :=
          hbal hb.1 _ is_x next c1 hnode (Tree.size_ge_two_left _ _ _ _ _ _ _ hne)
        refine ⟨t2, c2, hbal2, hwf2, le_trans hc1 hc2, hperm3.trans hperm2, ?_, hne2⟩
        intro x hx
        exact Or.inr (le_trans hc1 (haddr3 x hx))
      · rw [if_neg hb]
        exact ⟨_, _, rfl, hnode, hc1, hperm2, haddr2, by simp⟩
    · -- right
      rename_i hcond
      obtain ⟨r1, c1, hput, hr1, hc1, hperm, haddr, hne⟩ := ihr point (!is_x) next c hr
      rw [hput]
      have hpt : if nix = true then p.x ≤ point.x else p.y ≤ point.y := by
        cases nix <;> simpa using hcond
      have hnode : (Tree.node a p l r1 (r1.leftmost.map Cell.addr) nix (m + 1)).WF is_x next c1 := by
        rw [Tree.WF_node_iff]
        refine ⟨h1, hl.of_le hc1, hr1, (Tree.first_of_ne_nil hne next).symm, lt_of_lt_of_le h5 hc1,
          h6, ?_, ?_, h9, ?_⟩
        · intro h
          rcases haddr a h with h | h
          · exact h7 h
          · omega
        · intro x hx hxr
          rcases haddr x hxr with h | h
          · exact h8 x hx h
          · have := hl.below x hx; omega
        · intro q hq
          rcases List.mem_cons.1 (hperm.subset hq) with h | h
          · exact h ▸ hpt
          · exact h10 q h
      have hperm2 : (Tree.node a p l r1 (r1.leftmost.map Cell.addr) nix (m + 1)).toList.Perm
          (point :: (Tree.node a p l r nx nix m).toList) := by
        simp only [Tree.toList_node]
        exact (List.Perm.append_left _
          ((List.Perm.cons _ hperm).trans (List.Perm.swap point p r.toList))).trans List.perm_middle
      have haddr2 : ∀ x ∈ (Tree.node a p l r1 (r1.leftmost.map Cell.addr) nix (m + 1)).addrs,
          x ∈ (Tree.node a p l r nx nix m).addrs ∨ c ≤ x := by
        intro x hx
        simp only [Tree.addrs_node, List.mem_append, List.mem_cons] at hx ⊢
        rcases hx with h | h | h
        · exact Or.inl (Or.inl h)
        · exact Or.inl (Or.inr (Or.inl h))
        · rcases haddr x h with h | h
          · exact Or.inl (Or.inr (Or.inr h))
          · exact Or.inr h
      simp only []
      by_cases hb : (b && exceeds_alpha r1.weight (m + 1)) = true
      · rw [if_pos hb]
        simp only [Bool.and_eq_true] at hb
        obtain ⟨t2, c2, hbal2, hwf2, hc2, hperm3, haddr3, hne2⟩ :=
          hbal hb.1 _ is_x next c1 hnode (Tree.size_ge_two_right _ _ _ _ _ _ _ hne)
        refine ⟨t2, c2, hbal2, hwf2, le_trans hc1 hc2, hperm3.trans hperm2, ?_, hne2⟩
        intro x hx
        exact Or.inr (le_trans hc1 (haddr3 x hx))
      · rw [if_neg hb]
        exact ⟨_, _, rfl, hnode, hc1, hperm2, haddr2, by simp⟩

end kdtree

/-! ## The rebuild: build_tree, the successor walk and balance -/

namespace kdtree

theorem slice_split (temp : List Point) (left mid right : Nat) (pt : Point) (h1 : left ≤ mid)
    (h2 : mid < right) (h3 : right ≤ temp.length) (h4 : temp[mid]? = some pt) :
    (temp.take right).drop left =
      (temp.take mid).drop left ++ pt :: (temp.take right).drop (mid + 1) := by
  have hlen : (temp.take right).length = right := by simp [h3]
  have hmid : mid < (temp.take right).length := by omega
  have hget : (temp.take right)[mid]? = some pt := by
    rw [List.getElem?_take_of_lt h2]; exact h4
  have hX : temp.take right = temp.take mid ++ pt :: (temp.take right).drop (mid + 1) := by
    have h5 := (List.take_append_drop mid (temp.take right)).symm
    have h6 : (temp.take right).take mid = temp.take mid := by
      rw [List.take_take]; congr 1; omega
    have h7 : (temp.take right).drop mid = pt :: (temp.take right).drop (mid + 1) := by
      rw [List.drop_eq_getElem_cons hmid]
      congr 1
      have := List.getElem?_eq_getElem hmid
      rw [this] at hget
      exact Option.some.inj hget
    rw [h6, h7] at h5
    exact h5
  have hl : left ≤ (temp.take mid).length := by simp; omega
  conv_lhs => rw [hX]
  rw [List.drop_append_of_le_length hl]

theorem put_plain_spec (t : Tree) (point : Point) (is_x : Bool) (next : Option Nat) (c : Nat)
    (h : t.WF is_x next c) :
    ∃ t1 c1, put_plain t point is_x next c = some (t1, c1) ∧ t1.WF is_x next c1 ∧ c ≤ c1 ∧
      t1.toList.Perm (point :: t.toList) ∧ (∀ a ∈ t1.addrs, a ∈ t.addrs ∨ c ≤ a) ∧
      t1 ≠ Tree.nil :=
  put_with_spec _ false (by simp) t point is_x next c h

theorem build_tree_spec (temp : List Point) :
    ∀ (fuel : Nat) (root : Tree) (is_x : Bool) (last : Option Nat) (left right c : Nat),
      right - left < fuel → right ≤ temp.length → root.WF is_x last c →
      ∃ t1 c1, build_tree temp fuel root is_x last left right c = some (t1, c1) ∧
        t1.WF is_x last c1 ∧ c ≤ c1 ∧
        t1.toList.Perm (root.toList ++ (temp.take right).drop left) ∧
        (∀ a ∈ t1.addrs, a ∈ root.addrs ∨ c ≤ a) := by
  intro fuel
  induction fuel with
  | zero => intro root is_x last left right c h; omega
  | succ fuel ih =>
    intro root is_x last left right c hfuel hlen hwf
    rw [build_tree]
    by_cases hmid : (left + right) / 2 ≥ left ∧ (left + right) / 2 < right
    · rw [if_pos hmid]
      have hlt : (left + right) / 2 < temp.length := by omega
      have hget : temp[(left + right) / 2]? = some temp[(left + right) / 2] :=
        List.getElem?_eq_getElem hlt
      rw [hget]
      simp only []
      obtain ⟨root1, c1, hput, hwf1, hc1, hperm1, haddr1, _⟩ :=
        put_plain_spec root temp[(left + right) / 2] is_x last c hwf
      rw [hput]
      simp only []
      obtain ⟨root2, c2, hb2, hwf2, hc2, hperm2, haddr2⟩ :=
        ih root1 is_x last left ((left + right) / 2) c1 (by omega) (by omega) hwf1
      rw [hb2]
      simp only []
      obtain ⟨root3, c3, hb3, hwf3, hc3, hperm3, haddr3⟩ :=
        ih root2 is_x last ((left + right) / 2 + 1) right c2 (by omega) hlen hwf2
      refine ⟨root3, c3, hb3, hwf3, by omega, ?_, ?_⟩
      · rw [slice_split temp left _ right _ hmid.1 hmid.2 hlen hget]
        refine hperm3.trans ?_
        refine ((hperm2.trans (hperm1.append_right _)).append_right _).trans ?_
        have hm := (@List.perm_middle _ temp[(left + right) / 2]
          (root.toList ++ List.drop left (List.take ((left + right) / 2) temp))
          (List.drop ((left + right) / 2 + 1) (List.take right temp))).symm
        simpa [List.append_assoc] using hm
      · intro a ha
        rcases haddr3 a ha with h | h
        · rcases haddr2 a h with h | h
          · rcases haddr1 a h with h | h
            · exact Or.inl h
            · exact Or.inr h
          · exact Or.inr (by omega)
        · exact Or.inr (by omega)
    · rw [if_neg hmid]
      refine ⟨root, c, rfl, hwf, le_refl c, ?_, fun a ha => Or.inl ha⟩
      have : right ≤ left := by omega
      have h0 : (temp.take right).drop left = [] := by
        apply List.drop_eq_nil_of_le; simp; omega
      rw [h0, List.append_nil]

theorem find_cell_of_mem (xs : List Cell) (hnd : (xs.map Cell.addr).Nodup) (c : Cell) (hc : c ∈ xs) :
    xs.find? (fun d => d.addr == c.addr) = some c := by
  induction xs with
  | nil => simp at hc
  | cons d ds ih =>
    rw [List.map_cons, List.nodup_cons] at hnd
    rcases List.mem_cons.1 hc with h | h
    · subst h; simp
    · have hne : d.addr ≠ c.addr := by
        intro heq
        exact hnd.1 (heq ▸ List.mem_map_of_mem _ h)
      rw [List.find?_cons_of_neg _ (by simpa using hne)]
      exact ih hnd.2 h

theorem Tree.find_of_mem (t : Tree) (hnd : t.addrs.Nodup) (c : Cell) (hc : c ∈ t.cells) :
    t.find c.addr = some c :=
  kdtree.find_cell_of_mem t.cells hnd c hc

theorem Tree.find_some_mem (t : Tree) (a : Nat) (c : Cell) (h : t.find a = some c) :
    c ∈ t.cells ∧ c.addr = a := by
  unfold Tree.find at h
  exact ⟨List.mem_of_find?_eq_some h, by simpa using List.find?_some h⟩

theorem Chain.last_next (xs : List Cell) (next : Option Nat) (e : Cell) (h : Chain xs next)
    (he : xs.getLast? = some e) : e.m_next = next := by
  induction xs with
  | nil => simp at he
  | cons c cs ih =>
    cases cs with
    | nil =>
      simp at he
      subst he
      exact h.1
    | cons d ds =>
      rw [List.getLast?_cons_cons] at he
      exact ih h.2 he

theorem collect_spec (owner : Tree) (hnd : owner.addrs.Nodup) (last : Nat) (next : Option Nat) :
    ∀ (rest pre : List Cell) (b : Cell) (fuel : Nat), owner.cells = pre ++ b :: rest →
      rest ≠ [] → Chain (b :: rest) next → rest.getLast?.map Cell.addr = some last →
      rest.length ≤ fuel → collect owner last fuel b = some (rest.map Cell.m_point) := by
  intro rest
  induction rest with
  | nil => intro pre b fuel _ h; exact absurd rfl h
  | cons d ds ih =>
    intro pre b fuel hcells _ hchain hlast hfuel
    cases fuel with
    | zero => simp at hfuel
    | succ fuel =>
      rw [collect]
      have hb : b.m_next = some d.addr := hchain.1
      have hd : d ∈ owner.cells := by rw [hcells]; simp
      rw [hb]
      simp only []
      rw [owner.find_of_mem hnd d hd]
      simp only []
      by_cases hdl : d.addr = last
      · rw [if_pos hdl]
        cases ds with
        | nil => rfl
        | cons e es =>
          exfalso
          rw [List.getLast?_cons_cons] at hlast
          obtain ⟨z, hz, hza⟩ := Option.map_eq_some'.1 hlast
          have hzmem : z ∈ e :: es := List.mem_of_getLast?_eq_some hz
          have hnd2 : (pre ++ b :: d :: e :: es).map Cell.addr |>.Nodup := by
            rw [← hcells]; exact hnd
          simp only [List.map_append, List.map_cons] at hnd2
          have hnd3 := (List.nodup_append.1 hnd2).2.1
          have hnd4 := (List.nodup_cons.1 hnd3).2
          have hnd5 := (List.nodup_cons.1 hnd4).1
          apply hnd5
          rw [hdl, ← hza]
          exact List.mem_map_of_mem Cell.addr hzmem
      · rw [if_neg hdl]
        have hne : ds ≠ [] := by
          intro h
          subst h
          simp at hlast
          exact hdl hlast
        have hlast2 : ds.getLast?.map Cell.addr = some last := by
          cases ds with
          | nil => exact absurd rfl hne
          | cons e es => rw [List.getLast?_cons_cons] at hlast; exact hlast
        rw [ih (pre ++ [b]) d fuel (by rw [hcells]; simp) hne hchain.2 hlast2
          (by simp at hfuel; omega)]
        rfl

theorem balance_spec : BalSpec balance := by
  intro t is_x next c hwf hsize
  have hchain : Chain t.cells next := (Tree.linked_iff_chain t next).1 hwf.linked
  have hlen : 2 ≤ t.cells.length := by rw [Tree.cells_length, ← Tree.size_eq_length]; exact hsize
  obtain ⟨b, rest, hcells⟩ : ∃ b rest, t.cells = b :: rest := by
    cases h : t.cells with
    | nil => rw [h] at hlen; simp at hlen
    | cons b rest => exact ⟨b, rest, rfl⟩
  have hrest : rest ≠ [] := by
    intro h; rw [hcells, h] at hlen; simp at hlen
  obtain ⟨e, he⟩ : ∃ e, rest.getLast? = some e := by
    cases h : rest.getLast? with
    | none => exact absurd (List.getLast?_eq_none_iff.1 h) hrest
    | some e => exact ⟨e, rfl⟩
  have hlast : t.cells.getLast? = some e := by
    rw [hcells]
    cases rest with
    | nil => exact absurd rfl hrest
    | cons d ds => rw [List.getLast?_cons_cons]; exact he
  have hleft : t.leftmost = some b := by rw [Tree.leftmost_eq_head, hcells]; rfl
  have hright : t.rightmost = some e := by rw [Tree.rightmost_eq_last]; exact hlast
  have henext : e.m_next = next := Chain.last_next _ _ _ hchain hlast
  have hcol : collect t e.addr t.size b = some (rest.map Cell.m_point) := by
    apply collect_spec t hwf.nodup e.addr next rest [] b t.size (by simpa using hcells) hrest
      (hcells ▸ hchain) (by rw [he]; rfl)
    rw [Tree.size_eq_length, ← Tree.cells_length, hcells]; simp
  have htl : t.toList = b.m_point :: rest.map Cell.m_point := by
    rw [Tree.toList_eq_cells, hcells]; rfl
  unfold balance
  rw [hleft, hright]
  simp only []
  rw [hcol]
  simp only []
  rw [henext]
  obtain ⟨t1, c1, hb, hwf1, hc1, hperm, haddr⟩ :=
    build_tree_spec (b.m_point :: rest.map Cell.m_point) ((rest.map Cell.m_point).length + 2)
      Tree.nil is_x next 0 ((rest.map Cell.m_point).length + 1) c (by omega) (by simp)
      (Tree.WF_nil _ _ _)
  refine ⟨t1, c1, hb, hwf1, hc1, ?_, ?_, ?_⟩
  · rw [htl]
    have h0 : (List.take ((rest.map Cell.m_point).length + 1) (b.m_point :: rest.map Cell.m_point)) =
        b.m_point :: rest.map Cell.m_point := by
      apply List.take_of_length_le; simp
    rw [h0] at hperm
    simpa [Tree.toList] using hperm
  · intro a ha
    rcases haddr a ha with h | h
    · simp [Tree.addrs, Tree.cells] at h
    · exact h
  · intro h
    subst h
    have h0 : (List.take ((rest.map Cell.m_point).length + 1) (b.m_point :: rest.map Cell.m_point)) =
        b.m_point :: rest.map Cell.m_point := by
      apply List.take_of_length_le; simp
    rw [h0] at hperm
    simp [Tree.toList] at hperm

/-- The specification of the private `put` with the real `balance`. -/
theorem put_spec (b : Bool) (t : Tree) (point : Point) (is_x : Bool) (next : Option Nat) (c : Nat)
    (h : t.WF is_x next c) :
    ∃ t1 c1, put t point is_x next b c = some (t1, c1) ∧ t1.WF is_x next c1 ∧ c ≤ c1 ∧
      t1.toList.Perm (point :: t.toList) ∧ (∀ a ∈ t1.addrs, a ∈ t.addrs ∨ c ≤ a) ∧
      t1 ≠ Tree.nil :=
  put_with_spec balance b (fun _ => balance_spec) t point is_x next c h

end kdtree

/-! ## Membership, the walk from begin, and the public put -/

theorem DBL_EPSILON_pos : 0 < DBL_EPSILON := by decide

theorem Point.eq_self (p : Point) : p.eq p = true := by
  simp [Point.eq, Point.equals_d, Point.x, Point.y, DBL_EPSILON_pos]

namespace kdtree

theorem contains_of_mem (t : Tree) (h : t.Ordered) (q : Point) (hq : q ∈ t.toList) :
    contains t q = true := by
  induction t with
  | nil => simp [Tree.toList] at hq
  | node a p l r nx nix m ihl ihr =>
    obtain ⟨h1, h2, h3, h4⟩ := h
    rw [contains]
    by_cases hp : p.eq q = true
    · rw [if_pos hp]
    · rw [if_neg hp]
      rw [Tree.toList_node, List.mem_append, List.mem_cons] at hq
      rcases hq with hq | hq | hq
      · have := h1 q hq
        have hc : (decide (q.x < p.x) && nix || decide (q.y < p.y) && !nix) = true := by
          cases nix <;> simpa using this
        rw [if_pos hc]
        exact ihl h3 hq
      · subst hq
        exact absurd (Point.eq_self q) hp
      · have := h2 q hq
        have hc : ¬ (decide (q.x < p.x) && nix || decide (q.y < p.y) && !nix) = true := by
          cases nix <;> simpa using this
        rw [if_neg hc]
        exact ihr h4 hq

theorem contains_sound (t : Tree) (q : Point) (h : contains t q = true) :
    ∃ s ∈ t.toList, s.eq q = true := by
  induction t with
  | nil => simp [contains] at h
  | node a p l r nx nix m ihl ihr =>
    rw [contains] at h
    by_cases hp : p.eq q = true
    · exact ⟨p, by simp [Tree.toList], hp⟩
    · rw [if_neg hp] at h
      split at h
      · obtain ⟨s, hs, hsq⟩ := ihl h
        exact ⟨s, by simp [Tree.toList, hs], hsq⟩
      · obtain ⟨s, hs, hsq⟩ := ihr h
        exact ⟨s, by simp [Tree.toList, hs], hsq⟩

theorem lock_link_target (owner : Tree) (hnd : owner.addrs.Nodup) (pre suf : List Cell)
    (h : owner.cells = pre ++ suf) : owner.lock (link_target suf none) = link_target suf none := by
  cases suf with
  | nil => rfl
  | cons d ds =>
    simp only [link_target, Tree.lock]
    rw [owner.find_of_mem hnd d (by rw [h]; simp)]
    rfl

theorem enumerate_chain (owner : Tree) (hnd : owner.addrs.Nodup) :
    ∀ (suf pre : List Cell) (fuel : Nat), owner.cells = pre ++ suf → Chain suf none →
      suf.length < fuel →
      enumerate owner fuel (link_target suf none) none = some (suf.map Cell.m_point) := by
  intro suf
  induction suf with
  | nil =>
    intro pre fuel _ _ hf
    cases fuel with
    | zero => simp at hf
    | succ fuel => simp [enumerate, link_target]
  | cons c rest ih =>
    intro pre fuel hcells hchain hf
    cases fuel with
    | zero => simp at hf
    | succ fuel =>
      simp only [enumerate, link_target]
      rw [if_neg (by simp)]
      rw [owner.find_of_mem hnd c (by rw [hcells]; simp)]
      simp only []
      have hcells2 : owner.cells = (pre ++ [c]) ++ rest := by rw [hcells]; simp
      rw [hchain.1, lock_link_target owner hnd _ _ hcells2,
        ih (pre ++ [c]) fuel hcells2 hchain.2 (by simp at hf; omega)]
      rfl

theorem enumerate_tree (t : Tree) (c : Nat) (h : t.WF true none c) (fuel : Nat)
    (hf : t.size < fuel) : enumerate t fuel (t.first none) none = some t.toList := by
  rw [Tree.first_eq, Tree.toList_eq_cells]
  apply enumerate_chain t h.nodup t.cells [] fuel (by simp)
    ((Tree.linked_iff_chain t none).1 h.linked)
  rw [Tree.cells_length, ← Tree.size_eq_length]
  exact hf

theorem PointSet.Inv.empty_set : PointSet.empty_set.Inv :=
  ⟨Tree.WF_nil _ _ _, rfl, rfl, rfl, List.nodup_nil⟩

theorem PointSet.put_public_spec (s : PointSet) (hs : s.Inv) (p : Point) :
    ∃ s1, s.put p = some s1 ∧ s1.Inv ∧ s.alloc ≤ s1.alloc ∧
      (s.contains p = true → s1 = s) ∧
      (s.contains p = false → s1.m_root.toList.Perm (p :: s.m_root.toList)) := by
  unfold PointSet.put
  by_cases hc : s.contains p = true
  · rw [if_pos hc]
    exact ⟨s, rfl, hs, le_refl _, fun _ => rfl, fun h => by rw [hc] at h; cases h⟩
  · rw [if_neg hc]
    have hnotmem : p ∉ s.m_root.toList := fun hmem =>
      hc (contains_of_mem s.m_root hs.wf.ordered p hmem)
    obtain ⟨t1, c1, hput, hwf1, hc1, hperm, _, hne⟩ :=
      kdtree.put_spec true s.m_root p true none s.alloc hs.wf
    have hend := hs.m_end_null
    cases hroot : s.m_root with
    | nil =>
      rw [hroot] at hput hperm
      have h2 : t1 = Tree.node s.alloc p Tree.nil Tree.nil none true 1 ∧ c1 = s.alloc + 1 := by
        simp [kdtree.put, put_with] at hput
        exact ⟨hput.1.symm, hput.2.symm⟩
      obtain ⟨h3, h4⟩ := h2
      subst h3 h4
      rw [hend]
      refine ⟨_, rfl, ⟨hwf1, rfl, ?_, ?_, ?_⟩, Nat.le_succ _, fun h => absurd h hc, fun _ => ?_⟩
      · simp [Tree.first, Tree.leftmost]
      · simp [Tree.toList, hs.m_size_eq, hroot]
      · simp [Tree.toList]
      · simp [Tree.toList]
    | node a q l r nx nix m =>
      simp only []
      rw [hroot, ← hend] at hput
      rw [hput]
      simp only []
      refine ⟨_, rfl, ⟨hwf1, hend, ?_, ?_, ?_⟩, hc1, fun h => absurd h hc, fun _ => ?_⟩
      · exact (Tree.first_of_ne_nil hne none).symm
      · simp only []
        rw [hperm.length_eq, hs.m_size_eq]; rfl
      · exact hperm.nodup_iff.2 (List.nodup_cons.2 ⟨hnotmem, hs.distinct⟩)
      · rw [← hroot]; exact hperm

theorem PointSet.put_all_spec (pts : List Point) :
    ∀ (s : PointSet), s.Inv →
      ∃ s1, s.put_all pts = some s1 ∧ s1.Inv ∧
        (∀ q ∈ s1.m_root.toList, q ∈ s.m_root.toList ∨ q ∈ pts) ∧
        (∀ q ∈ s.m_root.toList, q ∈ s1.m_root.toList) ∧
        (pts ≠ [] → s1.m_root ≠ Tree.nil) := by
  induction pts with
  | nil => intro s hs; exact ⟨s, rfl, hs, fun q h => Or.inl h, fun q h => h, fun h => absurd rfl h⟩
  | cons p ps ih =>
    intro s hs
    obtain ⟨s1, hput, hs1, _, hyes, hno⟩ := PointSet.put_public_spec s hs p
    obtain ⟨s2, hall, hs2, hsub, hsup, _⟩ := ih s1 hs1
    rw [PointSet.put_all, hput]
    simp only []
    have hmem1 : p ∈ s1.m_root.toList ∨ s.contains p = true := by
      cases hc : s.contains p with
      | true => exact Or.inr rfl
      | false => exact Or.inl ((hno hc).mem_iff.2 (by simp))
    have hsub1 : ∀ q ∈ s1.m_root.toList, q ∈ s.m_root.toList ∨ q = p := by
      intro q hq
      cases hc : s.contains p with
      | true => rw [hyes hc] at hq; exact Or.inl hq
      | false =>
        rcases List.mem_cons.1 ((hno hc).mem_iff.1 hq) with h | h
        · exact Or.inr h
        · exact Or.inl h
    have hsup1 : ∀ q ∈ s.m_root.toList, q ∈ s1.m_root.toList := by
      intro q hq
      cases hc : s.contains p with
      | true => rw [hyes hc]; exact hq
      | false => exact (hno hc).mem_iff.2 (by simp [hq])
    refine ⟨s2, hall, hs2, ?_, fun q hq => hsup q (hsup1 q hq), fun _ => ?_⟩
    · intro q hq
      rcases hsub q hq with h | h
      · rcases hsub1 q h with h | h
        · exact Or.inl h
        · exact Or.inr (by simp [h])
      · exact Or.inr (by simp [h])
    · have hne1 : s1.m_root.toList ≠ [] := by
        cases hc : s.contains p with
        | true =>
          obtain ⟨x, hx, _⟩ := contains_sound s.m_root p hc
          intro h
          have := hsup1 x hx
          rw [h] at this
          simp at this
        | false =>
          intro h
          have := (hno hc).length_eq
          rw [h] at this
          simp at this
      intro h
      rw [h] at hsup
      obtain ⟨x, hx⟩ := List.exists_mem_of_ne_nil _ hne1
      have := hsup x hx
      simp [Tree.toList] at this

theorem PointSet.enumerate_all (s : PointSet) (hs : s.Inv) (fuel : Nat) (hf : s.size < fuel) :
    enumerate s.m_root fuel s.m_begin s.m_end = some s.m_root.toList := by
  rw [hs.m_begin_first, hs.m_end_null]
  apply enumerate_tree s.m_root s.alloc hs.wf fuel
  rw [Tree.size_eq_length, ← hs.m_size_eq]
  exact hf

end kdtree

/-! ## Result trees and the range query -/

namespace kdtree

theorem Result.Inv.start (c : Nat) : (Result.mk Tree.nil none c).Inv :=
  ⟨Tree.WF_nil _ _ _, rfl⟩

theorem emit_spec (res : Result) (hres : res.Inv) (p : Point) :
    ∃ res1, emit res p = some res1 ∧ res1.Inv ∧ res1.root.toList.Perm (p :: res.root.toList) := by
  obtain ⟨t1, c1, hput, hwf1, hc1, hperm, _, hne⟩ :=
    put_spec true res.root p true none res.alloc hres.wf
  unfold emit
  cases hroot : res.root with
  | nil =>
    rw [hroot] at hput hperm
    have h2 : t1 = Tree.node res.alloc p Tree.nil Tree.nil none true 1 ∧ c1 = res.alloc + 1 := by
      simp [kdtree.put, put_with] at hput
      exact ⟨hput.1.symm, hput.2.symm⟩
    obtain ⟨h3, h4⟩ := h2
    subst h3 h4
    refine ⟨_, rfl, ⟨hwf1, ?_⟩, hperm⟩
    simp [Tree.first, Tree.leftmost]
  | node a q l r nx nix m =>
    simp only []
    rw [hroot] at hput
    rw [hput]
    simp only []
    refine ⟨_, rfl, ⟨hwf1, (Tree.first_of_ne_nil hne none).symm⟩, ?_⟩
    rw [← hroot]; exact hperm

theorem Result.points_eq (res : Result) (hres : res.Inv) (fuel : Nat) (hf : res.root.size < fuel) :
    res.points fuel = some res.root.toList := by
  unfold Result.points
  rw [hres.first_eq]
  exact enumerate_tree res.root res.alloc hres.wf fuel hf

theorem range_rec_spec (rect : Rect) :
    ∀ (t : Tree) (res : Result), t.Ordered → res.Inv →
      ∃ res1, range_rec t rect res = some res1 ∧ res1.Inv ∧
        res1.root.toList.Perm (t.toList.filter rect.contains ++ res.root.toList) := by
  intro t
  induction t with
  | nil => intro res _ hres; exact ⟨res, rfl, hres, by simp [Tree.toList]⟩
  | node a p l r nx nix m ihl ihr =>
    intro res hord hres
    obtain ⟨h1, h2, h3, h4⟩ := hord
    have hstep : ∃ res1, (if rect.contains p = true then emit res p else some res) = some res1 ∧
        res1.Inv ∧ res1.root.toList.Perm ([p].filter rect.contains ++ res.root.toList) := by
      by_cases hc : rect.contains p = true
      · rw [if_pos hc]
        obtain ⟨res1, he, hi, hp⟩ := emit_spec res hres p
        exact ⟨res1, he, hi, by simpa [List.filter, hc] using hp⟩
      · rw [if_neg hc]
        exact ⟨res, rfl, hres, by simp [List.filter, hc]⟩
    obtain ⟨res1, hstep1, hinv1, hperm1⟩ := hstep
    rw [range_rec, hstep1]
    simp only []
    have hfilter : (Tree.node a p l r nx nix m).toList.filter rect.contains =
        l.toList.filter rect.contains ++ ([p].filter rect.contains ++ r.toList.filter rect.contains) := by
      rw [Tree.toList_node, List.filter_append]
      congr 1
      exact List.filter_append [p] r.toList
    rw [hfilter]
    by_cases hlo : (if nix = true then p.x else p.y) < (if nix = true then rect.xmin else rect.ymin)
    · rw [if_pos hlo]
      have hl0 : l.toList.filter rect.contains = [] := by
        rw [List.filter_eq_nil_iff]
        intro q hq
        have := h1 q hq
        cases nix <;> simp at this hlo <;> simp [Rect.contains] <;> intros <;> omega
      obtain ⟨res2, hr2, hinv2, hperm2⟩ := ihr res1 h4 hinv1
      refine ⟨res2, hr2, hinv2, ?_⟩
      rw [hl0, List.nil_append]
      refine hperm2.trans ?_
      rw [List.perm_iff_count]
      intro x
      have := hperm1.count_eq x
      simp only [List.count_append] at this ⊢
      omega
    · rw [if_neg hlo]
      by_cases hhi : (if nix = true then p.x else p.y) > (if nix = true then rect.xmax else rect.ymax)
      · rw [if_pos hhi]
        have hr0 : r.toList.filter rect.contains = [] := by
          rw [List.filter_eq_nil_iff]
          intro q hq
          have := h2 q hq
          cases nix <;> simp at this hhi <;> simp [Rect.contains] <;> intros <;> omega
        obtain ⟨res2, hr2, hinv2, hperm2⟩ := ihl res1 h3 hinv1
        refine ⟨res2, hr2, hinv2, ?_⟩
        rw [hr0, List.append_nil]
        refine hperm2.trans ?_
        rw [List.perm_iff_count]
        intro x
        have := hperm1.count_eq x
        simp only [List.count_append] at this ⊢
        omega
      · rw [if_neg hhi]
        obtain ⟨res2, hr2, hinv2, hperm2⟩ := ihl res1 h3 hinv1
        rw [hr2]
        simp only []
        obtain ⟨res3, hr3, hinv3, hperm3⟩ := ihr res2 h4 hinv2
        refine ⟨res3, hr3, hinv3, ?_⟩
        rw [List.perm_iff_count]
        intro x
        have e1 := hperm1.count_eq x
        have e2 := hperm2.count_eq x
        have e3 := hperm3.count_eq x
        simp only [List.count_append] at e1 e2 e3 ⊢
        omega

theorem PointSet.range_spec (s : PointSet) (hs : s.Inv) (rect : Rect) :
    ∃ res, s.range rect = some res ∧ res.Inv ∧
      res.root.toList.Perm (s.m_root.toList.filter rect.contains) := by
  unfold PointSet.range
  by_cases he : (!s.empty) = true
  · rw [if_pos he]
    obtain ⟨res, h1, h2, h3⟩ := range_rec_spec rect s.m_root ⟨Tree.nil, none, s.alloc⟩
      hs.wf.ordered (Result.Inv.start _)
    exact ⟨res, h1, h2, by simpa [Tree.toList] using h3⟩
  · rw [if_neg he]
    refine ⟨_, rfl, Result.Inv.start _, ?_⟩
    have : s.m_root = Tree.nil := by simpa [PointSet.empty] using he
    rw [this]
    simp [Tree.toList]

end kdtree

/-! ## The distance map of nearest -/

namespace kdtree

namespace DistMap

theorem insert_mem (m : DistMap) (d : Int) (p : Point) (e : Int × Point) (h : e ∈ m) :
    e ∈ m.insert d p := by
  induction m with
  | nil => simp at h
  | cons x xs ih =>
    obtain ⟨k, q⟩ := x
    simp only [insert]
    split
    · simp [h]
    · split
      · exact h
      · rcases List.mem_cons.1 h with h | h
        · simp [h]
        · exact List.mem_cons_of_mem _ (ih h)

theorem insert_has_key (m : DistMap) (d : Int) (p : Point) : ∃ e ∈ m.insert d p, e.1 = d := by
  induction m with
  | nil => exact ⟨(d, p), by simp [insert], rfl⟩
  | cons x xs ih =>
    obtain ⟨k, q⟩ := x
    simp only [insert]
    split
    · exact ⟨(d, p), by simp, rfl⟩
    · split
      · rename_i h; exact ⟨(k, q), by simp, h.symm⟩
      · obtain ⟨e, he, hd⟩ := ih
        exact ⟨e, List.mem_cons_of_mem _ he, hd⟩

theorem insert_sub (m : DistMap) (d : Int) (p : Point) (e : Int × Point) (h : e ∈ m.insert d p) :
    e ∈ m ∨ e = (d, p) := by
  induction m with
  | nil => simp [insert] at h; exact Or.inr h
  | cons x xs ih =>
    obtain ⟨k, q⟩ := x
    simp only [insert] at h
    split at h
    · rcases List.mem_cons.1 h with h | h
      · exact Or.inr h
      · exact Or.inl h
    · split at h
      · exact Or.inl h
      · rcases List.mem_cons.1 h with h | h
        · exact Or.inl (by simp [h])
        · rcases ih h with h | h
          · exact Or.inl (List.mem_cons_of_mem _ h)
          · exact Or.inr h

theorem insert_length_le (m : DistMap) (d : Int) (p : Point) :
    (m.insert d p).length ≤ m.length + 1 := by
  induction m with
  | nil => simp [insert]
  | cons x xs ih =>
    obtain ⟨k, q⟩ := x
    simp only [insert]
    split
    · simp
    · split
      · simp
      · simp; omega

theorem insert_keys_perm (m : DistMap) (d : Int) (p : Point) (h : d ∉ m.keys) :
    (m.insert d p).keys.Perm (d :: m.keys) := by
  induction m with
  | nil => simp [insert, keys]
  | cons x xs ih =>
    obtain ⟨k, q⟩ := x
    simp only [keys, List.map_cons, List.mem_cons, not_or] at h
    simp only [insert]
    split
    · simp [keys]
    · split
      · rename_i h2; exact absurd h2 h.1
      · simp only [keys, List.map_cons]
        exact (List.Perm.cons k (ih h.2)).trans (List.Perm.swap d k _)

theorem erase_sub (m : DistMap) (key : Int) (e : Int × Point) (h : e ∈ m.erase key) : e ∈ m :=
  List.mem_of_mem_filter h

theorem erase_mem (m : DistMap) (key : Int) (e : Int × Point) (h : e ∈ m) (hk : e.1 ≠ key) :
    e ∈ m.erase key := by
  simp [erase, List.mem_filter, h, hk]

theorem erase_length_lt (m : DistMap) (key : Int) (h : key ∈ m.keys) :
    (m.erase key).length < m.length := by
  induction m with
  | nil => simp [keys] at h
  | cons x xs ih =>
    simp only [keys, List.map_cons, List.mem_cons] at h
    simp only [erase, List.filter_cons]
    by_cases hx : x.1 = key
    · simp only [hx, ne_eq, not_true_eq_false, decide_False, Bool.false_eq_true, ↓reduceIte,
        List.length_cons]
      exact Nat.lt_succ_of_le (List.length_filter_le _ _)
    · have h2 : key ∈ keys xs := by
        rcases h with h | h
        · exact absurd h.symm hx
        · exact h
      simp only [ne_eq, hx, not_false_eq_true, decide_True, ↓reduceIte, List.length_cons]
      exact Nat.succ_lt_succ (ih h2)

theorem erase_length_eq (m : DistMap) (key : Int) (h : key ∈ m.keys) (hnd : m.keys.Nodup) :
    (m.erase key).length + 1 = m.length := by
  induction m with
  | nil => simp [keys] at h
  | cons x xs ih =>
    simp only [keys, List.map_cons, List.mem_cons] at h
    simp only [keys, List.map_cons, List.nodup_cons] at hnd
    simp only [erase, List.filter_cons]
    by_cases hx : x.1 = key
    · simp only [hx, ne_eq, not_true_eq_false, decide_False, Bool.false_eq_true, ↓reduceIte,
        List.length_cons, Nat.add_right_cancel_iff]
      congr 1
      rw [List.filter_eq_self]
      intro e he
      have : e.1 ≠ key := by
        intro h3
        apply hnd.1
        rw [hx, ← h3]
        exact List.mem_map_of_mem _ he
      simpa using this
    · have h2 : key ∈ keys xs := by
        rcases h with h | h
        · exact absurd h.symm hx
        · exact h
      simp only [ne_eq, hx, not_false_eq_true, decide_True, ↓reduceIte, List.length_cons]
      have := ih h2 hnd.2
      simp only [erase, ne_eq] at this
      omega

theorem erase_keys_nodup (m : DistMap) (key : Int) (hnd : m.keys.Nodup) :
    (m.erase key).keys.Nodup :=
  hnd.sublist (List.Sublist.map _ (List.filter_sublist _))

theorem rbegin_key_mem (m : DistMap) (key : Int) (h : m.rbegin_key = some key) :
    ∃ e ∈ m, e.1 = key := by
  unfold rbegin_key at h
  obtain ⟨e, he, hk⟩ := Option.map_eq_some'.1 h
  exact ⟨e, List.mem_of_getLast?_eq_some he, hk⟩

theorem rbegin_key_none (m : DistMap) (h : m.rbegin_key = none) : m = [] := by
  unfold rbegin_key at h
  simpa using h

end DistMap

theorem visit_length_le (nd : DistMap) (k : Nat) (d : Int) (p : Point) (h : nd.length ≤ k) :
    (visit nd k d p).length ≤ k := by
  unfold visit
  simp only []
  cases hk : nd.rbegin_key with
  | none =>
    simp only []
    split
    · have := DistMap.insert_length_le nd d p
      omega
    · exact h
  | some key =>
    simp only []
    by_cases hc : k > 0 ∧ nd.length = k ∧ key > d
    · rw [if_pos hc]
      split
      · have := DistMap.insert_length_le (nd.erase key) d p
        omega
      · exact le_trans (List.length_filter_le _ _) h
    · rw [if_neg hc]
      split
      · have := DistMap.insert_length_le nd d p
        omega
      · exact h

theorem visit_sub (nd : DistMap) (k : Nat) (d : Int) (p : Point) (e : Int × Point)
    (h : e ∈ visit nd k d p) : e ∈ nd ∨ e = (d, p) := by
  unfold visit at h
  simp only [] at h
  have h1 : ∀ e, e ∈ (match nd.rbegin_key with
        | some key => if k > 0 ∧ nd.length = k ∧ key > d then nd.erase key else nd
        | none => nd) → e ∈ nd := by
    intro e he
    cases hk : nd.rbegin_key with
    | none => rw [hk] at he; exact he
    | some key =>
      rw [hk] at he
      simp only [] at he
      split at he
      · exact DistMap.erase_sub _ _ _ he
      · exact he
  split at h
  · rcases DistMap.insert_sub _ _ _ _ h with h | h
    · exact Or.inl (h1 e h)
    · exact Or.inr h
  · exact Or.inl (h1 e h)

theorem visit_covers_mono (nd : DistMap) (k : Nat) (d : Int) (p : Point) (x : Int)
    (h : nd.Covers x) : (visit nd k d p).Covers x := by
  obtain ⟨e, he, hle⟩ := h
  unfold visit
  simp only []
  cases hk : nd.rbegin_key with
  | none => rw [DistMap.rbegin_key_none nd hk] at he; simp at he
  | some key =>
    simp only []
    by_cases hc : k > 0 ∧ nd.length = k ∧ key > d
    · rw [if_pos hc]
      obtain ⟨e0, he0, hk0⟩ := DistMap.rbegin_key_mem nd key hk
      have hlt : (nd.erase key).length < k := by
        have := DistMap.erase_length_lt nd key (by
          rw [← hk0]; exact List.mem_map_of_mem _ he0)
        omega
      rw [if_pos hlt]
      by_cases hek : e.1 = key
      · obtain ⟨e1, he1, hd1⟩ := DistMap.insert_has_key (nd.erase key) d p
        exact ⟨e1, he1, by omega⟩
      · exact ⟨e, DistMap.insert_mem _ _ _ _ (DistMap.erase_mem _ _ _ he hek), hle⟩
    · rw [if_neg hc]
      split
      · exact ⟨e, DistMap.insert_mem _ _ _ _ he, hle⟩
      · exact ⟨e, he, hle⟩

theorem visit_covers_new (nd : DistMap) (k : Nat) (d : Int) (p : Point) (hk1 : 1 ≤ k)
    (hlen : nd.length ≤ k) : (visit nd k d p).Covers d := by
  unfold visit
  simp only []
  cases hk : nd.rbegin_key with
  | none =>
    simp only []
    have : nd = [] := DistMap.rbegin_key_none nd hk
    subst this
    rw [if_pos (by simpa using hk1)]
    obtain ⟨e1, he1, hd1⟩ := DistMap.insert_has_key [] d p
    exact ⟨e1, he1, by omega⟩
  | some key =>
    simp only []
    obtain ⟨e0, he0, hk0⟩ := DistMap.rbegin_key_mem nd key hk
    by_cases hc : k > 0 ∧ nd.length = k ∧ key > d
    · rw [if_pos hc]
      have hlt : (nd.erase key).length < k := by
        have := DistMap.erase_length_lt nd key (by
          rw [← hk0]; exact List.mem_map_of_mem _ he0)
        omega
      rw [if_pos hlt]
      obtain ⟨e1, he1, hd1⟩ := DistMap.insert_has_key (nd.erase key) d p
      exact ⟨e1, he1, by omega⟩
    · rw [if_neg hc]
      by_cases hlt : nd.length < k
      · rw [if_pos hlt]
        obtain ⟨e1, he1, hd1⟩ := DistMap.insert_has_key nd d p
        exact ⟨e1, he1, by omega⟩
      · rw [if_neg hlt]
        refine ⟨e0, he0, ?_⟩
        have : ¬ key > d := fun h => hc ⟨by omega, by omega, h⟩
        omega

theorem visit_length_eq (nd : DistMap) (k : Nat) (d : Int) (p : Point) (hlen : nd.length ≤ k)
    (hnd : nd.keys.Nodup) (hd : d ∉ nd.keys) :
    (visit nd k d p).length = min k (nd.length + 1) ∧ (visit nd k d p).keys.Nodup := by
  have hins : ∀ m : DistMap, m.keys.Nodup → d ∉ m.keys →
      (m.insert d p).length = m.length + 1 ∧ (m.insert d p).keys.Nodup := by
    intro m hm hdm
    have hp := DistMap.insert_keys_perm m d p hdm
    constructor
    · have := hp.length_eq
      simpa [DistMap.keys] using this
    · exact hp.nodup_iff.2 (List.nodup_cons.2 ⟨hdm, hm⟩)
  unfold visit
  simp only []
  cases hk : nd.rbegin_key with
  | none =>
    simp only []
    have : nd = [] := DistMap.rbegin_key_none nd hk
    subst this
    by_cases hk0 : 0 < k
    · rw [if_pos (by simpa using hk0)]
      obtain ⟨h1, h2⟩ := hins [] hnd hd
      exact ⟨by rw [h1]; simp; omega, h2⟩
    · rw [if_neg (by simpa using hk0)]
      exact ⟨by simp; omega, hnd⟩
  | some key =>
    simp only []
    obtain ⟨e0, he0, hk0⟩ := DistMap.rbegin_key_mem nd key hk
    have hkey : key ∈ nd.keys := by rw [← hk0]; exact List.mem_map_of_mem _ he0
    by_cases hc : k > 0 ∧ nd.length = k ∧ key > d
    · rw [if_pos hc]
      have heq := DistMap.erase_length_eq nd key hkey hnd
      rw [if_pos (by omega)]
      have hd2 : d ∉ (nd.erase key).keys := by
        intro h
        apply hd
        obtain ⟨e, he, hed⟩ := List.mem_map.1 h
        exact List.mem_map.2 ⟨e, DistMap.erase_sub _ _ _ he, hed⟩
      obtain ⟨h1, h2⟩ := hins (nd.erase key) (DistMap.erase_keys_nodup nd key hnd) hd2
      exact ⟨by rw [h1]; omega, h2⟩
    · rw [if_neg hc]
      by_cases hlt : nd.length < k
      · rw [if_pos hlt]
        obtain ⟨h1, h2⟩ := hins nd hnd hd
        exact ⟨by rw [h1]; omega, h2⟩
      · rw [if_neg hlt]
        exact ⟨by omega, hnd⟩

end kdtree

/-! ## The descent of nearest -/

namespace kdtree

theorem nearest_rec_sub (point : Point) (k : Nat) :
    ∀ (t : Tree) (i : Nat) (is_x : Bool) (nd : DistMap) (md : Int), nd.length ≤ k →
      (nearest_rec t point k i is_x nd md).length ≤ k ∧
      ∀ e ∈ nearest_rec t point k i is_x nd md,
        e ∈ nd ∨ (e.2 ∈ t.toList ∧ e.1 = point.distance e.2) := by
  intro t
  induction t with
  | nil => intro i is_x nd md h; exact ⟨h, fun e he => Or.inl he⟩
  | node a p l r nx nix m ihl ihr =>
    intro i is_x nd md h
    have hv := visit_length_le nd k (point.distance p) p h
    have hvs := visit_sub nd k (point.distance p) p
    have hmem : ∀ e : Int × Point, e ∈ visit nd k (point.distance p) p →
        e ∈ nd ∨ (e.2 ∈ (Tree.node a p l r nx nix m).toList ∧ e.1 = point.distance e.2) := by
      intro e he
      rcases hvs e he with h1 | h1
      · exact Or.inl h1
      · subst h1; exact Or.inr ⟨by simp [Tree.toList], rfl⟩
    have hl : ∀ e : Int × Point, (e.2 ∈ l.toList ∧ e.1 = point.distance e.2) →
        (e.2 ∈ (Tree.node a p l r nx nix m).toList ∧ e.1 = point.distance e.2) :=
      fun e he => ⟨by simp [Tree.toList, he.1], he.2⟩
    have hr : ∀ e : Int × Point, (e.2 ∈ r.toList ∧ e.1 = point.distance e.2) →
        (e.2 ∈ (Tree.node a p l r nx nix m).toList ∧ e.1 = point.distance e.2) :=
      fun e he => ⟨by simp [Tree.toList, he.1], he.2⟩
    simp only [nearest_rec]
    generalize (if md > point.distance p then point.distance p else md) = md1
    generalize (if is_x = true then p.x - point.x else p.y - point.y) = sub
    by_cases hsub : sub < 0
    · rw [if_pos hsub]
      obtain ⟨h1, h2⟩ := ihr (i + 1) (!is_x) _ md1 hv
      by_cases hfar : sub * sub < md1 ∨ i + 1 < k
      · rw [if_pos hfar]
        obtain ⟨h3, h4⟩ := ihl (i + 1) (!is_x) _ md1 h1
        refine ⟨h3, fun e he => ?_⟩
        rcases h4 e he with h5 | h5
        · rcases h2 e h5 with h6 | h6
          · exact hmem e h6
          · exact Or.inr (hr e h6)
        · exact Or.inr (hl e h5)
      · rw [if_neg hfar]
        refine ⟨h1, fun e he => ?_⟩
        rcases h2 e he with h6 | h6
        · exact hmem e h6
        · exact Or.inr (hr e h6)
    · rw [if_neg hsub]
      obtain ⟨h1, h2⟩ := ihl (i + 1) (!is_x) _ md1 hv
      by_cases hfar : sub * sub < md1 ∨ i + 1 < k
      · rw [if_pos hfar]
        obtain ⟨h3, h4⟩ := ihr (i + 1) (!is_x) _ md1 h1
        refine ⟨h3, fun e he => ?_⟩
        rcases h4 e he with h5 | h5
        · rcases h2 e h5 with h6 | h6
          · exact hmem e h6
          · exact Or.inr (hl e h6)
        · exact Or.inr (hr e h5)
      · rw [if_neg hfar]
        refine ⟨h1, fun e he => ?_⟩
        rcases h2 e he with h6 | h6
        · exact hmem e h6
        · exact Or.inr (hl e h6)

theorem nearest_rec_keys (point : Point) (k : Nat) (t : Tree) (i : Nat) (is_x : Bool)
    (nd : DistMap) (md : Int) (h : nd.length ≤ k) :
    ∀ x ∈ (nearest_rec t point k i is_x nd md).keys,
      x ∈ nd.keys ∨ x ∈ t.toList.map point.distance := by
  intro x hx
  obtain ⟨e, he, hex⟩ := List.mem_map.1 hx
  rcases (nearest_rec_sub point k t i is_x nd md h).2 e he with h1 | h1
  · exact Or.inl (List.mem_map.2 ⟨e, h1, hex⟩)
  · exact Or.inr (List.mem_map.2 ⟨e.2, h1.1, by rw [← hex, h1.2]⟩)

theorem visit_keys (nd : DistMap) (k : Nat) (d : Int) (p : Point) :
    ∀ x ∈ (visit nd k d p).keys, x ∈ nd.keys ∨ x = d := by
  intro x hx
  obtain ⟨e, he, hex⟩ := List.mem_map.1 hx
  rcases visit_sub nd k d p e he with h1 | h1
  · exact Or.inl (List.mem_map.2 ⟨e, h1, hex⟩)
  · subst h1; exact Or.inr hex.symm

theorem nearest_rec_length (point : Point) (k : Nat) :
    ∀ (t : Tree) (i : Nat) (is_x : Bool) (nd : DistMap) (md : Int), nd.length ≤ k →
      nd.keys.Nodup → (∀ q ∈ t.toList, point.distance q ∉ nd.keys) →
      (t.toList.map point.distance).Nodup →
      (nearest_rec t point k i is_x nd md).keys.Nodup ∧
      min k (nd.length + min (k - i) t.size) ≤ (nearest_rec t point k i is_x nd md).length ∧
      nd.length ≤ (nearest_rec t point k i is_x nd md).length := by
  intro t
  induction t with
  | nil =>
    intro i is_x nd md h hnd _ _
    refine ⟨hnd, ?_, le_refl _⟩
    simp only [nearest_rec, Tree.size]
    omega
  | node a p l r nx nix m ihl ihr =>
    intro i is_x nd md h hnd hnew hdist
    rw [Tree.toList_node, List.map_append, List.map_cons, List.nodup_append, List.nodup_cons] at hdist
    obtain ⟨hdl, ⟨hpr, hdr⟩, hdisj⟩ := hdist
    have hpl : point.distance p ∉ l.toList.map point.distance := fun hx => hdisj hx (by simp)
    have hlr : ∀ x ∈ l.toList.map point.distance, x ∉ r.toList.map point.distance :=
      fun x hx hxr => hdisj hx (List.mem_cons_of_mem _ hxr)
    have hp : point.distance p ∉ nd.keys := hnew p (by simp [Tree.toList])
    obtain ⟨hvlen, hvnd⟩ := visit_length_eq nd k (point.distance p) p h hnd hp
    have hvle := visit_length_le nd k (point.distance p) p h
    have hvk := visit_keys nd k (point.distance p) p
    have hnl : ∀ q ∈ l.toList, point.distance q ∉ (visit nd k (point.distance p) p).keys := by
      intro q hq hx
      rcases hvk _ hx with h1 | h1
      · exact hnew q (by simp [Tree.toList, hq]) h1
      · exact hpl (h1 ▸ List.mem_map_of_mem _ hq)
    have hnr : ∀ q ∈ r.toList, point.distance q ∉ (visit nd k (point.distance p) p).keys := by
      intro q hq hx
      rcases hvk _ hx with h1 | h1
      · exact hnew q (by simp [Tree.toList, hq]) h1
      · exact hpr (h1 ▸ List.mem_map_of_mem _ hq)
    simp only [nearest_rec, Tree.size]
    generalize (if md > point.distance p then point.distance p else md) = md1
    generalize (if is_x = true then p.x - point.x else p.y - point.y) = sub
    by_cases hsub : sub < 0
    · rw [if_pos hsub]
      obtain ⟨h1, h2, h3⟩ := ihr (i + 1) (!is_x) _ md1 hvle hvnd hnr hdr
      have h1le := (nearest_rec_sub point k r (i + 1) (!is_x) _ md1 hvle).1
      have h1k := nearest_rec_keys point k r (i + 1) (!is_x) _ md1 hvle
      by_cases hfar : sub * sub < md1 ∨ i + 1 < k
      · rw [if_pos hfar]
        have hnl2 : ∀ q ∈ l.toList, point.distance q ∉ (nearest_rec r point k (i + 1) (!is_x)
            (visit nd k (point.distance p) p) md1).keys := by
          intro q hq hx
          rcases h1k _ hx with h5 | h5
          · exact hnl q hq h5
          · exact hlr _ (List.mem_map_of_mem _ hq) h5
        obtain ⟨h4, h5, h6⟩ := ihl (i + 1) (!is_x) _ md1 h1le h1 hnl2 hdl
        refine ⟨h4, ?_, ?_⟩ <;> omega
      · rw [if_neg hfar]
        have : ¬ (i + 1 < k) := fun hh => hfar (Or.inr hh)
        refine ⟨h1, ?_, ?_⟩ <;> omega
    · rw [if_neg hsub]
      obtain ⟨h1, h2, h3⟩ := ihl (i + 1) (!is_x) _ md1 hvle hvnd hnl hdl
      have h1le := (nearest_rec_sub point k l (i + 1) (!is_x) _ md1 hvle).1
      have h1k := nearest_rec_keys point k l (i + 1) (!is_x) _ md1 hvle
      by_cases hfar : sub * sub < md1 ∨ i + 1 < k
      · rw [if_pos hfar]
        have hnr2 : ∀ q ∈ r.toList, point.distance q ∉ (nearest_rec l point k (i + 1) (!is_x)
            (visit nd k (point.distance p) p) md1).keys := by
          intro q hq hx
          rcases h1k _ hx with h5 | h5
          · exact hnr q hq h5
          · exact hlr _ h5 (List.mem_map_of_mem _ hq)
        obtain ⟨h4, h5, h6⟩ := ihr (i + 1) (!is_x) _ md1 h1le h1 hnr2 hdr
        refine ⟨h4, ?_, ?_⟩ <;> omega
      · rw [if_neg hfar]
        have : ¬ (i + 1 < k) := fun hh => hfar (Or.inr hh)
        refine ⟨h1, ?_, ?_⟩ <;> omega

end kdtree

/-! ## The result of nearest(point, k) and nearest(point) -/

namespace kdtree

theorem emit_all_spec (m : DistMap) :
    ∀ (res : Result), res.Inv →
      ∃ res1, emit_all res m = some res1 ∧ res1.Inv ∧
        res1.root.toList.Perm (m.map Prod.snd ++ res.root.toList) := by
  induction m with
  | nil => intro res hres; exact ⟨res, rfl, hres, by simp⟩
  | cons e es ih =>
    intro res hres
    obtain ⟨res1, h1, h2, h3⟩ := emit_spec res hres e.2
    obtain ⟨res2, h4, h5, h6⟩ := ih res1 h2
    rw [emit_all, h1]
    refine ⟨res2, h4, h5, h6.trans ?_⟩
    rw [List.perm_iff_count]
    intro x
    have := h3.count_eq x
    simp only [List.map_cons, List.count_append, List.count_cons] at this ⊢
    omega

theorem PointSet.nearest_k_spec (s : PointSet) (point : Point) (k : Nat) :
    ∃ res, s.nearest_k point k = some res ∧ res.Inv ∧
      res.root.toList.Perm
        ((nearest_rec s.m_root point k 0 true [] (DBL_MAX * DBL_MAX)).map Prod.snd) := by
  obtain ⟨res, h1, h2, h3⟩ := emit_all_spec
    (nearest_rec s.m_root point k 0 true [] (DBL_MAX * DBL_MAX)) ⟨Tree.nil, none, s.alloc⟩
    (Result.Inv.start _)
  exact ⟨res, h1, h2, by simpa [Tree.toList] using h3⟩

theorem nearest_rec_root_length (t : Tree) (point : Point) (k : Nat) (md : Int)
    (hnd : t.toList.Nodup) (hd : DistinctDistances point t.toList) :
    (nearest_rec t point k 0 true [] md).length = min k t.size ∧
    (nearest_rec t point k 0 true [] md).keys.Nodup := by
  have hdn : (t.toList.map point.distance).Nodup :=
    List.Nodup.map_on (fun x hx y hy hxy => hd x hx y hy hxy) hnd
  obtain ⟨h1, h2, _⟩ := nearest_rec_length point k t 0 true [] md (Nat.zero_le _)
    List.nodup_nil (by simp [DistMap.keys]) hdn
  have h3 := (nearest_rec_sub point k t 0 true [] md (Nat.zero_le _)).1
  have h4 : (nearest_rec t point k 0 true [] md).keys ⊆ t.toList.map point.distance := by
    intro x hx
    rcases nearest_rec_keys point k t 0 true [] md (Nat.zero_le _) x hx with h | h
    · simp [DistMap.keys] at h
    · exact h
  have h5 := (List.subperm_of_subset h1 h4).length_le
  simp only [DistMap.keys, List.length_map] at h5
  rw [← Tree.size_eq_length] at h5
  simp only [List.length_nil, Nat.zero_add, Nat.sub_zero] at h2
  exact ⟨by omega, h1⟩

theorem nearest_rec_root_all (t : Tree) (point : Point) (k : Nat) (md : Int)
    (hnd : t.toList.Nodup) (hd : DistinctDistances point t.toList) (hk : t.size ≤ k) :
    ((nearest_rec t point k 0 true [] md).map Prod.snd).Perm t.toList := by
  obtain ⟨hlen, hkeys⟩ := nearest_rec_root_length t point k md hnd hd
  have hsub := (nearest_rec_sub point k t 0 true [] md (Nat.zero_le _)).2
  have hkeq : (nearest_rec t point k 0 true [] md).keys =
      ((nearest_rec t point k 0 true [] md).map Prod.snd).map point.distance := by
    simp only [DistMap.keys, List.map_map]
    apply List.map_congr_left
    intro e he
    rcases hsub e he with h | h
    · simp at h
    · exact h.2
  have hnd2 : ((nearest_rec t point k 0 true [] md).map Prod.snd).Nodup := by
    rw [hkeq] at hkeys
    exact List.Nodup.of_map _ hkeys
  have hss : (nearest_rec t point k 0 true [] md).map Prod.snd ⊆ t.toList := by
    intro q hq
    obtain ⟨e, he, heq⟩ := List.mem_map.1 hq
    rcases hsub e he with h | h
    · simp at h
    · exact heq ▸ h.1
  apply (List.subperm_of_subset hnd2 hss).perm_of_length_le
  rw [List.length_map, hlen, ← Tree.size_eq_length]
  omega

end kdtree

/-! ## The reference set -/

theorem Point.eq_of_not_lt (a b : Point) (h1 : a.lt b = false) (h2 : b.lt a = false) : a = b := by
  cases a with
  | mk ax ay =>
    cases b with
    | mk bx b_y =>
      simp only [Point.lt, Point.x, Point.y, Bool.or_eq_false_iff, Bool.and_eq_false_iff,
        decide_eq_false_iff_not] at h1 h2
      have hx : ax = bx := by omega
      subst hx
      have hy : ay = b_y := by
        rcases h1.2 with h | h
        · exact absurd rfl h
        · rcases h2.2 with h' | h'
          · exact absurd rfl h'
          · omega
      subst hy
      rfl

theorem Point.distance_comm (a b : Point) : a.distance b = b.distance a := by
  simp only [Point.distance, Point.x, Point.y]
  ring

theorem Rect.default_ne_default : Rect.default.ne Rect.default = false := by
  simp [Rect.ne, Rect.eq, Point.eq_self]

namespace rbtree

theorem mem_set_insert (xs : List Point) (p q : Point) :
    q ∈ set_insert xs p ↔ q ∈ xs ∨ q = p := by
  induction xs with
  | nil => simp [set_insert]
  | cons x rest ih =>
    simp only [set_insert]
    by_cases h1 : p.lt x = true
    · rw [if_pos h1]; simp only [List.mem_cons]; tauto
    · rw [if_neg h1]
      by_cases h2 : x.lt p = true
      · rw [if_pos h2]; simp only [List.mem_cons, ih]; tauto
      · rw [if_neg h2]
        have : p = x := Point.eq_of_not_lt p x (by simpa using h1) (by simpa using h2)
        subst this
        simp only [List.mem_cons]; tauto

theorem PointSet.mem_put_all (pts : List Point) :
    ∀ (s : PointSet) (q : Point), q ∈ (s.put_all pts).points ↔ q ∈ s.points ∨ q ∈ pts := by
  induction pts with
  | nil => intro s q; simp [PointSet.put_all]
  | cons p ps ih =>
    intro s q
    rw [PointSet.put_all, ih, PointSet.put]
    simp only [mem_set_insert, List.mem_cons]
    tauto

theorem mem_dset_emplace (ds : List Int) (d x : Int) : x ∈ dset_emplace ds d ↔ x ∈ ds ∨ x = d := by
  induction ds with
  | nil => simp [dset_emplace]
  | cons k rest ih =>
    simp only [dset_emplace]
    by_cases h1 : d < k
    · rw [if_pos h1]; simp only [List.mem_cons]; tauto
    · rw [if_neg h1]
      by_cases h2 : k < d
      · rw [if_pos h2]; simp only [List.mem_cons, ih]; tauto
      · rw [if_neg h2]
        have : d = k := by omega
        subst this
        simp only [List.mem_cons]; tauto

theorem dset_emplace_length (ds : List Int) (d : Int) : (dset_emplace ds d).length ≤ ds.length + 1 := by
  induction ds with
  | nil => simp [dset_emplace]
  | cons k rest ih =>
    simp only [dset_emplace]
    split
    · simp
    · split
      · simp; omega
      · simp

theorem dset_emplace_sorted (ds : List Int) (d : Int) (h : ds.Pairwise (· < ·)) :
    (dset_emplace ds d).Pairwise (· < ·) := by
  induction ds with
  | nil => simp [dset_emplace]
  | cons k rest ih =>
    rw [List.pairwise_cons] at h
    simp only [dset_emplace]
    by_cases h1 : d < k
    · rw [if_pos h1]
      refine List.pairwise_cons.2 ⟨?_, List.pairwise_cons.2 h⟩
      intro x hx
      rcases List.mem_cons.1 hx with hx | hx
      · omega
      · have := h.1 x hx; omega
    · rw [if_neg h1]
      by_cases h2 : k < d
      · rw [if_pos h2]
        refine List.pairwise_cons.2 ⟨?_, ih h.2⟩
        intro x hx
        rcases (mem_dset_emplace rest d x).1 hx with hx | hx
        · exact h.1 x hx
        · omega
      · rw [if_neg h2]
        exact List.pairwise_cons.2 h

theorem sorted_le_last (ds : List Int) (h : ds.Pairwise (· < ·)) (m : Int)
    (hm : ds.getLast? = some m) : ∀ x ∈ ds, x ≤ m := by
  induction ds with
  | nil => simp at hm
  | cons k rest ih =>
    rw [List.pairwise_cons] at h
    cases rest with
    | nil =>
      simp at hm
      intro x hx
      simp at hx
      omega
    | cons k2 rest2 =>
      rw [List.getLast?_cons_cons] at hm
      have hmem : m ∈ k2 :: rest2 := List.mem_of_getLast?_eq_some hm
      intro x hx
      rcases List.mem_cons.1 hx with hx | hx
      · have := h.1 m hmem; omega
      · exact ih h.2 hm x hx

theorem PointSet.nearest_distances_all (p : Point) (k : Nat) :
    ∀ (rest : List Point) (ds : List Int), ds.length + rest.length ≤ k → ds.Pairwise (· < ·) →
      (PointSet.nearest_distances p k rest ds).Pairwise (· < ·) ∧
      (∀ d ∈ ds, d ∈ PointSet.nearest_distances p k rest ds) ∧
      (∀ q ∈ rest, q.distance p ∈ PointSet.nearest_distances p k rest ds) := by
  intro rest
  induction rest with
  | nil => intro ds _ hs; exact ⟨hs, fun d hd => hd, fun q hq => by simp at hq⟩
  | cons q qs ih =>
    intro ds hlen hs
    simp only [List.length_cons] at hlen
    have hne : ds.length ≠ k := by omega
    simp only [PointSet.nearest_distances, hne, false_and, ↓reduceIte]
    have hlen2 : (dset_emplace ds (q.distance p)).length + qs.length ≤ k := by
      have := dset_emplace_length ds (q.distance p); omega
    obtain ⟨h1, h2, h3⟩ := ih _ hlen2 (dset_emplace_sorted ds _ hs)
    refine ⟨h1, fun d hd => h2 d ((mem_dset_emplace _ _ _).2 (Or.inl hd)), fun x hx => ?_⟩
    rcases List.mem_cons.1 hx with hx | hx
    · subst hx; exact h2 _ ((mem_dset_emplace _ _ _).2 (Or.inr rfl))
    · exact h3 x hx

theorem skip_while_of_all_false (cond : Point → Bool) (xs : List Point)
    (h : ∀ q ∈ xs, cond q = false) : skip_while cond xs = xs := by
  cases xs with
  | nil => rfl
  | cons q rest => simp [skip_while, h q (by simp)]

theorem enumerate_filtered (point : Point) (radius : Int) (hp : point.ne Point.default = true) :
    ∀ (xs : List Point) (fuel : Nat), xs.length < fuel →
      enumerate fuel
          ⟨skip_while (fun q => decide (point.distance q > radius)) xs, Rect.default, point, radius⟩
          ⟨[], Rect.default, point, radius⟩ =
        some (xs.filter (fun q => decide (point.distance q ≤ radius))) := by
  intro xs
  induction xs with
  | nil =>
    intro fuel hf
    cases fuel with
    | zero => simp at hf
    | succ fuel => simp [enumerate, skip_while]
  | cons q rest ih =>
    intro fuel hf
    simp only [List.length_cons] at hf
    by_cases hc : point.distance q > radius
    · have h1 : skip_while (fun q => decide (point.distance q > radius)) (q :: rest) =
          skip_while (fun q => decide (point.distance q > radius)) rest := by
        simp [skip_while, hc]
      have h2 : (q :: rest).filter (fun q => decide (point.distance q ≤ radius)) =
          rest.filter (fun q => decide (point.distance q ≤ radius)) := by
        rw [List.filter_cons_of_neg]; simp; omega
      rw [h1, h2]
      exact ih fuel (by omega)
    · have h1 : skip_while (fun q => decide (point.distance q > radius)) (q :: rest) = q :: rest := by
        simp [skip_while, hc]
      have h2 : (q :: rest).filter (fun q => decide (point.distance q ≤ radius)) =
          q :: rest.filter (fun q => decide (point.distance q ≤ radius)) := by
        rw [List.filter_cons_of_pos]; simp; omega
      rw [h1, h2]
      cases fuel with
      | zero => simp at hf
      | succ fuel =>
        simp only [enumerate, iterator.incr, next_point, Rect.default_ne_default, hp,
          List.tail_cons, Bool.false_eq_true, ↓reduceIte, reduceCtorEq]
        rw [ih fuel (by omega)]
        rfl

theorem enumerate_unfiltered (point : Point) (radius : Int) (hp : point.ne Point.default = false) :
    ∀ (xs : List Point) (fuel : Nat), xs.length < fuel →
      enumerate fuel ⟨xs, Rect.default, point, radius⟩ ⟨[], Rect.default, point, radius⟩ =
        some xs := by
  intro xs
  induction xs with
  | nil =>
    intro fuel hf
    cases fuel with
    | zero => simp at hf
    | succ fuel => simp [enumerate]
  | cons q rest ih =>
    intro fuel hf
    simp only [List.length_cons] at hf
    cases fuel with
    | zero => simp at hf
    | succ fuel =>
      simp only [enumerate, iterator.incr, next_point, Rect.default_ne_default, hp,
        List.tail_cons, Bool.false_eq_true, ↓reduceIte, reduceCtorEq]
      rw [ih fuel (by omega)]
      rfl

theorem iterator.of_radius_eq (xs : List Point) (point : Point) (radius : Int)
    (hp : point.ne Point.default = true) :
    iterator.of_radius xs point radius =
      ⟨skip_while (fun q => decide (point.distance q > radius)) xs, Rect.default, point, radius⟩ := by
  cases xs with
  | nil => rfl
  | cons q rest =>
    simp only [iterator.of_radius]
    by_cases hc : point.distance q > radius
    · rw [if_pos hc]
      simp [iterator.incr, next_point, Rect.default_ne_default, hp, skip_while, hc]
    · rw [if_neg hc]
      simp [skip_while, hc]

/-- With `k` at least the size, `nearest(p, k)` of the reference set enumerates all its points. -/
theorem PointSet.nearest_k_all (s : PointSet) (p : Point) (k : Nat) (hk : s.size ≤ k) :
    ∃ its, s.nearest_k p k = some its ∧
      ∀ fuel, s.size < fuel → enumerate fuel its.1 its.2 = some s.points := by
  unfold PointSet.nearest_k
  simp only [Nat.min_eq_left hk]
  by_cases h0 : s.size = 0
  · rw [if_pos h0]
    refine ⟨_, rfl, fun fuel hf => ?_⟩
    have : s.points = [] := by simpa [PointSet.size] using h0
    rw [this]
    cases fuel with
    | zero => simp at hf
    | succ fuel => simp [enumerate, iterator.plain]
  · rw [if_neg h0]
    obtain ⟨h1, _, h3⟩ := PointSet.nearest_distances_all p s.size s.points []
      (by simp [PointSet.size]) List.Pairwise.nil
    have hne : s.points ≠ [] := by
      intro h; apply h0; simp [PointSet.size, h]
    obtain ⟨q0, hq0⟩ := List.exists_mem_of_ne_nil _ hne
    cases hl : (PointSet.nearest_distances p s.size s.points []).getLast? with
    | none =>
      have := h3 q0 hq0
      rw [List.getLast?_eq_none_iff.1 hl] at this
      simp at this
    | some radius =>
      simp only []
      refine ⟨_, rfl, fun fuel hf => ?_⟩
      have hall : ∀ q ∈ s.points, p.distance q ≤ radius := by
        intro q hq
        rw [Point.distance_comm]
        exact sorted_le_last _ h1 radius hl _ (h3 q hq)
      have hof : iterator.of_radius [] p radius = ⟨[], Rect.default, p, radius⟩ := rfl
      by_cases hp : p.ne Point.default = true
      · simp only [iterator.of_radius_eq _ _ _ hp, skip_while]
        rw [enumerate_filtered p radius hp s.points fuel hf]
        congr 1
        rw [List.filter_eq_self]
        intro q hq
        simpa using hall q hq
      · have hp' : p.ne Point.default = false := by simpa using hp
        have hof2 : iterator.of_radius s.points p radius = ⟨s.points, Rect.default, p, radius⟩ := by
          cases hpts : s.points with
          | nil => rfl
          | cons q rest =>
            simp only [iterator.of_radius]
            rw [if_neg]
            have := hall q (by rw [hpts]; simp)
            omega
        rw [hof, hof2]
        exact enumerate_unfiltered p radius hp' s.points fuel hf

end rbtree

/-! ## Claims -/

open kdtree

theorem kdtree.PointSet.stored_subset (pts : List Point) :
    ∃ s, PointSet.put_all PointSet.empty_set pts = some s ∧ s.Inv ∧
      (∀ q ∈ s.stored, q ∈ pts) ∧ (pts ≠ [] → s.m_root ≠ kdtree.Tree.nil) := by
  obtain ⟨s, h1, h2, h3, _, h5⟩ := PointSet.put_all_spec pts PointSet.empty_set
    PointSet.Inv.empty_set
  refine ⟨s, h1, h2, fun q hq => ?_, h5⟩
  rcases h3 q hq with h | h
  · simp [PointSet.empty_set, kdtree.Tree.toList] at h
  · exact h

theorem kdtree.PointSet.size_le_of_subset (s : PointSet) (hs : s.Inv) (pts : List Point)
    (h : ∀ q ∈ s.stored, q ∈ pts) : s.size ≤ pts.length := by
  show s.m_size ≤ pts.length
  rw [hs.m_size_eq]
  exact (List.subperm_of_subset hs.distinct h).length_le

theorem kdtree.PointSet.size_eq_stored (s : PointSet) (hs : s.Inv) : s.size = s.stored.length :=
  hs.m_size_eq

theorem kdtree.PointSet.put_all_separated (pts : List Point) :
    ∀ (s : PointSet), s.Inv → Separated (s.stored ++ pts) →
      ∃ s1, s.put_all pts = some s1 ∧ s1.Inv ∧ ∀ q, q ∈ s1.stored ↔ q ∈ s.stored ∨ q ∈ pts := by
  induction pts with
  | nil => intro s hs _; exact ⟨s, rfl, hs, fun q => by simp⟩
  | cons p ps ih =>
    intro s hs hsep
    obtain ⟨s1, hput, hs1, _, hyes, hno⟩ := PointSet.put_public_spec s hs p
    have hmem : ∀ q, q ∈ s1.stored ↔ q ∈ s.stored ∨ q = p := by
      intro q
      cases hc : s.contains p with
      | true =>
        rw [hyes hc]
        obtain ⟨x, hx, hxp⟩ := contains_sound s.m_root p hc
        have hxp2 : x = p := by
          rcases hsep x (by simp [PointSet.stored, hx]) p (by simp) with h | h | h
          · exact h
          · simp only [Point.eq, Point.equals_d, Bool.and_eq_true, decide_eq_true_eq, Point.x,
              Point.y] at hxp h
            omega
          · simp only [Point.eq, Point.equals_d, Bool.and_eq_true, decide_eq_true_eq, Point.x,
              Point.y] at hxp h
            omega
        subst hxp2
        constructor
        · exact fun h => Or.inl h
        · rintro (h | h)
          · exact h
          · exact h ▸ hx
      | false =>
        unfold PointSet.stored
        rw [(hno hc).mem_iff, List.mem_cons]
        tauto
    have hsep1 : Separated (s1.stored ++ ps) := by
      intro a ha b hb
      apply hsep
      · rcases List.mem_append.1 ha with h | h
        · rcases (hmem a).1 h with h | h
          · simp [h]
          · simp [h]
        · simp [h]
      · rcases List.mem_append.1 hb with h | h
        · rcases (hmem b).1 h with h | h
          · simp [h]
          · simp [h]
        · simp [h]
    obtain ⟨s2, hall, hs2, hmem2⟩ := ih s1 hs1 hsep1
    refine ⟨s2, ?_, hs2, fun q => ?_⟩
    · rw [PointSet.put_all, hput]; exact hall
    · rw [hmem2, hmem, List.mem_cons]; tauto

/-- C1: for every sequence of puts and every rectangle, the points read from the iterator
pair of `range(rect)` are the stored points that the rectangle contains, as a
permutation, and no point is read twice. -/
theorem kdtree_range_exact (pts : List Point) (rect : Rect) :
    ∃ s res, PointSet.put_all PointSet.empty_set pts = some s ∧ s.range rect = some res ∧
      ∀ fuel, s.size < fuel →
        ∃ out, res.points fuel = some out ∧
          out.Perm (s.stored.filter rect.contains) ∧ out.Nodup := by
  obtain ⟨s, hs, hinv, _⟩ := kdtree.PointSet.stored_subset pts
  obtain ⟨res, hr, hrinv, hperm⟩ := PointSet.range_spec s hinv rect
  refine ⟨s, res, hs, hr, fun fuel hf => ⟨res.root.toList, ?_, hperm, ?_⟩⟩
  · apply Result.points_eq res hrinv fuel
    rw [Tree.size_eq_length, hperm.length_eq]
    have := List.length_filter_le rect.contains s.m_root.toList
    have := hinv.m_size_eq
    simp only [PointSet.size] at hf
    omega
  · exact hperm.nodup_iff.2 (hinv.distinct.filter _)

/-- C4: after any sequence of puts the walk from `begin()` along the successor links reads
the points of all nodes of the tree, each node once, and then meets `end()`; their number
is `size()` and no two of them are the same point. -/
theorem kdtree_iteration_complete (pts : List Point) :
    ∃ s, PointSet.put_all PointSet.empty_set pts = some s ∧ s.stored.length = s.size ∧
      s.stored.Nodup ∧
      ∀ fuel, s.size < fuel → enumerate s.m_root fuel s.m_begin s.m_end = some s.stored := by
  obtain ⟨s, hs, hinv, _⟩ := kdtree.PointSet.stored_subset pts
  exact ⟨s, hs, hinv.m_size_eq.symm, hinv.distinct,
    fun fuel hf => PointSet.enumerate_all s hinv fuel hf⟩

/-- C5, as amended: `contains(p)` is true only if a stored point equals `p` under
`operator==`, and it is true whenever `p` itself is stored. -/
theorem kdtree_contains_sound_and_finds_stored (pts : List Point) (p : Point) :
    ∃ s, PointSet.put_all PointSet.empty_set pts = some s ∧
      (s.contains p = true → ∃ q ∈ s.stored, q.eq p = true) ∧
      (p ∈ s.stored → s.contains p = true) := by
  obtain ⟨s, hs, hinv, _⟩ := kdtree.PointSet.stored_subset pts
  exact ⟨s, hs, fun h => contains_sound s.m_root p h,
    fun h => contains_of_mem s.m_root hinv.wf.ordered p h⟩

/-- C6: after any sequence of puts, `contains(q)` is true for every point `q` read from
`[begin, end)`. -/
theorem kdtree_contains_every_stored (pts : List Point) :
    ∃ s, PointSet.put_all PointSet.empty_set pts = some s ∧
      ∀ fuel, s.size < fuel →
        ∃ out, enumerate s.m_root fuel s.m_begin s.m_end = some out ∧
          ∀ q ∈ out, s.contains q = true := by
  obtain ⟨s, hs, hinv, _⟩ := kdtree.PointSet.stored_subset pts
  exact ⟨s, hs, fun fuel hf => ⟨s.stored, PointSet.enumerate_all s hinv fuel hf,
    fun q hq => contains_of_mem s.m_root hinv.wf.ordered q hq⟩⟩

/-- C7: when any two points of the sequence are identical or differ by at least epsilon in
a coordinate, `size()` after the puts is the number of distinct points of the sequence. -/
theorem kdtree_size_counts_distinct (pts : List Point) (hsep : Separated pts) :
    ∃ s, PointSet.put_all PointSet.empty_set pts = some s ∧ s.size = pts.dedup.length := by
  obtain ⟨s, hs, hinv, hmem⟩ := kdtree.PointSet.put_all_separated pts PointSet.empty_set
    PointSet.Inv.empty_set (by simpa [PointSet.stored, PointSet.empty_set, Tree.toList] using hsep)
  refine ⟨s, hs, ?_⟩
  rw [kdtree.PointSet.size_eq_stored s hinv]
  apply List.Perm.length_eq
  rw [List.perm_ext_iff_of_nodup (show s.stored.Nodup from hinv.distinct) (List.nodup_dedup pts)]
  intro q
  rw [hmem, List.mem_dedup]
  simp [PointSet.stored, PointSet.empty_set, Tree.toList]

/-- C8: on every state reached by puts, a `put(p)` followed by a second `put(p)` gives the
state the first one gave: root, begin pointer, size and counter are unchanged. -/
theorem kdtree_put_twice (pts : List Point) (p : Point) :
    ∃ s s1, PointSet.put_all PointSet.empty_set pts = some s ∧ s.put p = some s1 ∧
      s1.put p = some s1 := by
  obtain ⟨s, hs, hinv, _⟩ := kdtree.PointSet.stored_subset pts
  obtain ⟨s1, hput, hs1, _, hyes, hno⟩ := PointSet.put_public_spec s hinv p
  refine ⟨s, s1, hs, hput, ?_⟩
  have hc1 : s1.contains p = true := by
    cases hc : s.contains p with
    | true => rw [hyes hc]; exact hc
    | false =>
      exact contains_of_mem s1.m_root hs1.wf.ordered p ((hno hc).mem_iff.2 (by simp))
  simp [PointSet.put, hc1]

/-- C9: when the stored points have pairwise distinct distances to `p`, the iterator pair of
`nearest(p, k)` yields exactly `min(k, size())` points. -/
theorem kdtree_nearest_k_count (pts : List Point) (p : Point) (k : Nat) :
    ∃ s, PointSet.put_all PointSet.empty_set pts = some s ∧
      (DistinctDistances p s.stored →
        ∃ res, s.nearest_k p k = some res ∧
          ∀ fuel, s.size < fuel → ∃ out, res.points fuel = some out ∧ out.length = min k s.size) := by
  obtain ⟨s, hs, hinv, _⟩ := kdtree.PointSet.stored_subset pts
  refine ⟨s, hs, fun hd => ?_⟩
  obtain ⟨res, h1, h2, h3⟩ := PointSet.nearest_k_spec s p k
  obtain ⟨hlen, _⟩ := nearest_rec_root_length s.m_root p k (DBL_MAX * DBL_MAX) hinv.distinct hd
  have hsz : s.m_root.size = s.size := by rw [Tree.size_eq_length]; exact hinv.m_size_eq.symm
  have hl : res.root.toList.length = min k s.size := by
    rw [h3.length_eq, List.length_map, hlen, hsz]
  refine ⟨res, h1, fun fuel hf => ⟨res.root.toList, ?_, hl⟩⟩
  apply Result.points_eq res h2 fuel
  rw [Tree.size_eq_length, hl]
  omega

/-- C10, as amended: with `k >= size()`, `nearest(p, k)` of the reference set yields all
its points, and `nearest(p, k)` of the k-d tree yields all stored points when these have
pairwise distinct distances to `p`. -/
theorem nearest_k_large_yields_all (pts : List Point) (p : Point) (k : Nat) :
    ((rbtree.PointSet.put_all rbtree.PointSet.empty_set pts).size ≤ k →
      ∃ its, (rbtree.PointSet.put_all rbtree.PointSet.empty_set pts).nearest_k p k = some its ∧
        ∀ fuel, (rbtree.PointSet.put_all rbtree.PointSet.empty_set pts).size < fuel →
          rbtree.enumerate fuel its.1 its.2 =
            some (rbtree.PointSet.put_all rbtree.PointSet.empty_set pts).points) ∧
    ∃ s, PointSet.put_all PointSet.empty_set pts = some s ∧
      (s.size ≤ k → DistinctDistances p s.stored →
        ∃ res, s.nearest_k p k = some res ∧
          ∀ fuel, s.size < fuel → ∃ out, res.points fuel = some out ∧ out.Perm s.stored) := by
  refine ⟨fun hk => rbtree.PointSet.nearest_k_all _ p k hk, ?_⟩
  obtain ⟨s, hs, hinv, _⟩ := kdtree.PointSet.stored_subset pts
  refine ⟨s, hs, fun hk hd => ?_⟩
  obtain ⟨res, h1, h2, h3⟩ := PointSet.nearest_k_spec s p k
  have hsz : s.m_root.size = s.size := by rw [Tree.size_eq_length]; exact hinv.m_size_eq.symm
  have hall := nearest_rec_root_all s.m_root p k (DBL_MAX * DBL_MAX) hinv.distinct hd
    (by rw [hsz]; exact hk)
  have hperm : res.root.toList.Perm s.stored := h3.trans hall
  refine ⟨res, h1, fun fuel hf => ⟨res.root.toList, ?_, hperm⟩⟩
  apply Result.points_eq res h2 fuel
  rw [Tree.size_eq_length, hperm.length_eq]
  show s.m_root.toList.length < fuel
  have := hinv.m_size_eq
  simp only [PointSet.size] at hf
  omega

/-- C5 fails as stated: after the puts of `(1,0)` and `(1,5)` the stored point `(1,5)` equals
`(1 - 2^-53, 5)` under `operator==`, and `contains((1 - 2^-53, 5))` is false, the descent
turning left at the root. -/
theorem kdtree_contains_misses_equal_point :
    ∃ s, PointSet.put_all PointSet.empty_set [pt 1 0 0, pt 1 5 0] = some s ∧
      pt 1 5 0 ∈ s.stored ∧ (pt 1 5 0).eq ⟨dbl (2 ^ 53 - 1) 53, dbl 5 0⟩ = true ∧
      s.contains ⟨dbl (2 ^ 53 - 1) 53, dbl 5 0⟩ = false :=
  ⟨_, rfl, by decide, by decide, by decide⟩

/-- The hypothesis of C7 holds for the sequence `(0,0)`, `(1,1)`, `(0,0)`, and there `size()`
is the number of distinct points. -/
theorem kdtree_size_counts_distinct_witness :
    Separated [pt 0 0 0, pt 1 1 0, pt 0 0 0] ∧
    ∃ s, PointSet.put_all PointSet.empty_set [pt 0 0 0, pt 1 1 0, pt 0 0 0] = some s ∧
      s.size = [pt 0 0 0, pt 1 1 0, pt 0 0 0].dedup.length :=
  ⟨by unfold Separated; decide,
    kdtree_size_counts_distinct [pt 0 0 0, pt 1 1 0, pt 0 0 0] (by unfold Separated; decide)⟩

/-- The hypothesis of C9 holds for the points `(0,0)`, `(1,1)`, `(0.5,0.5)` and the query point
`(0.375,0.25)`, and there `nearest(p, 2)` yields `min(2, size())` points. -/
theorem kdtree_nearest_k_count_witness :
    ∃ s, PointSet.put_all PointSet.empty_set [pt 0 0 0, pt 1 1 0, pt 1 1 1] = some s ∧
      DistinctDistances (pt 3 2 3) s.stored ∧
      ∃ res, s.nearest_k (pt 3 2 3) 2 = some res ∧
        ∀ fuel, s.size < fuel →
          ∃ out, res.points fuel = some out ∧ out.length = min 2 s.size := by
  obtain ⟨s, hs, h⟩ := kdtree_nearest_k_count [pt 0 0 0, pt 1 1 0, pt 1 1 1] (pt 3 2 3) 2
  obtain ⟨s1, hs1, _, hsub, _⟩ := kdtree.PointSet.stored_subset [pt 0 0 0, pt 1 1 0, pt 1 1 1]
  have hss : s1 = s := Option.some.inj (hs1.symm.trans hs)
  subst hss
  have hd0 : DistinctDistances (pt 3 2 3) [pt 0 0 0, pt 1 1 0, pt 1 1 1] := by
    unfold DistinctDistances; decide
  have hd : DistinctDistances (pt 3 2 3) s1.stored :=
    fun a ha b hb hab => hd0 a (hsub a ha) b (hsub b hb) hab
  exact ⟨s1, hs, hd, h hd⟩

/-- C10 fails as stated: with the points `(1,0)` and `(-1,0)` at the same distance from the
query point `(0,0)`, `nearest(p, 2)` of the k-d tree yields `(1,0)` alone although `size()`
is `2`. -/
theorem kdtree_nearest_k_large_drops_tie :
    ∃ s res, PointSet.put_all PointSet.empty_set [pt 1 0 0, pt (-1) 0 0] = some s ∧
      s.size = 2 ∧ pt (-1) 0 0 ∈ s.stored ∧ s.nearest_k (pt 0 0 0) 2 = some res ∧
      res.points 3 = some [pt 1 0 0] :=
  ⟨_, _, rfl, by decide, by decide, rfl, by decide⟩

/-- The hypotheses of the amended C10 hold for the points `(0,0)`, `(1,1)`, `(0.5,0.5)`, the
query point `(0.375,0.25)` and `k = 5`, and there both sets yield all their points. -/
theorem nearest_k_large_yields_all_witness :
    (∃ its, (rbtree.PointSet.put_all rbtree.PointSet.empty_set
        [pt 0 0 0, pt 1 1 0, pt 1 1 1]).nearest_k (pt 3 2 3) 5 = some its ∧
      ∀ fuel, (rbtree.PointSet.put_all rbtree.PointSet.empty_set
          [pt 0 0 0, pt 1 1 0, pt 1 1 1]).size < fuel →
        rbtree.enumerate fuel its.1 its.2 =
          some (rbtree.PointSet.put_all rbtree.PointSet.empty_set
            [pt 0 0 0, pt 1 1 0, pt 1 1 1]).points) ∧
    ∃ s, PointSet.put_all PointSet.empty_set [pt 0 0 0, pt 1 1 0, pt 1 1 1] = some s ∧
      s.size ≤ 5 ∧ DistinctDistances (pt 3 2 3) s.stored ∧
      ∃ res, s.nearest_k (pt 3 2 3) 5 = some res ∧
        ∀ fuel, s.size < fuel → ∃ out, res.points fuel = some out ∧ out.Perm s.stored := by
  obtain ⟨hrb, s, hs, h⟩ :=
    nearest_k_large_yields_all [pt 0 0 0, pt 1 1 0, pt 1 1 1] (pt 3 2 3) 5
  obtain ⟨s1, hs1, hinv, hsub, _⟩ := kdtree.PointSet.stored_subset [pt 0 0 0, pt 1 1 0, pt 1 1 1]
  have hss : s1 = s := Option.some.inj (hs1.symm.trans hs)
  subst hss
  have hd0 : DistinctDistances (pt 3 2 3) [pt 0 0 0, pt 1 1 0, pt 1 1 1] := by
    unfold DistinctDistances; decide
  have hd : DistinctDistances (pt 3 2 3) s1.stored :=
    fun a ha b hb hab => hd0 a (hsub a ha) b (hsub b hb) hab
  have hsz : s1.size ≤ 5 :=
    le_trans (kdtree.PointSet.size_le_of_subset s1 hinv _ hsub) (by decide)
  exact ⟨hrb (by decide), s1, hs, hsz, hd, h hsz hd⟩

/-! ## Scenarios of test.cpp -/

/-- The scenario of `PointSetMethods` in `test.cpp`: after the puts of `(0,0)`, `(1,1)`,
`(0.5,0.5)` the set has size 3, the walk from `begin()` reads three points, the three points
are contained and `(0.5,0)` is not. -/
theorem scenario_PointSetMethods :
    ∃ s, PointSet.put_all PointSet.empty_set [pt 0 0 0, pt 1 1 0, pt 1 1 1] = some s ∧
      s.empty = false ∧ s.size = 3 ∧
      enumerate s.m_root 4 s.m_begin s.m_end = some [pt 0 0 0, pt 1 1 1, pt 1 1 0] ∧
      s.contains (pt 0 0 0) = true ∧ s.contains (pt 1 1 0) = true ∧
      s.contains (pt 1 1 1) = true ∧ s.contains (pt 1 0 1) = false :=
  ⟨_, rfl, by decide, by decide, by decide, by decide, by decide, by decide, by decide⟩

/-- The scenario of `PointSetBasicSearch` in `test.cpp`, with the doubles `0.4`, `0.3` and `0.7`
written out: `nearest((0.4,0.4))` is `(0.5,0.5)` and the range of the rectangle from
`(0.3,0.3)` to `(0.7,0.7)` is that point alone, on both implementations. -/
theorem scenario_PointSetBasicSearch :
    ∃ s res, PointSet.put_all PointSet.empty_set [pt 0 0 0, pt 1 1 0, pt 1 1 1] = some s ∧
      s.nearest (pt 3602879701896397 3602879701896397 53) = some (some (pt 1 1 1)) ∧
      s.range ⟨pt 5404319552844595 5404319552844595 54,
        pt 6305039478318694 6305039478318694 53⟩ = some res ∧
      res.points 4 = some [pt 1 1 1] ∧
      rbtree.enumerate 4
        ((rbtree.PointSet.put_all rbtree.PointSet.empty_set
          [pt 0 0 0, pt 1 1 0, pt 1 1 1]).range
          ⟨pt 5404319552844595 5404319552844595 54,
            pt 6305039478318694 6305039478318694 53⟩).1
        ((rbtree.PointSet.put_all rbtree.PointSet.empty_set
          [pt 0 0 0, pt 1 1 0, pt 1 1 1]).range
          ⟨pt 5404319552844595 5404319552844595 54,
            pt 6305039478318694 6305039478318694 53⟩).2 = some [pt 1 1 1] :=
  ⟨_, _, rfl, by decide, rfl, by decide, by decide⟩

/-- The scenario of `Rect` in `test.cpp` for the rectangle from `(1,1)` to `(2,2)`. -/
theorem scenario_Rect :
    (Rect.mk (pt 1 1 0) (pt 2 2 0)).distance (pt 1 1 0) = 0 ∧
    (Rect.mk (pt 1 1 0) (pt 2 2 0)).distance (pt 3 3 1) = 0 ∧
    (Rect.mk (pt 1 1 0) (pt 2 2 0)).distance (pt 0 1 0) = dbl 1 0 ∧
    (Rect.mk (pt 1 1 0) (pt 2 2 0)).distance (pt 2 3 0) = dbl 1 0 ∧
    (Rect.mk (pt 1 1 0) (pt 2 2 0)).distance (pt 16 5 2) = dbl 2 0 ∧
    (Rect.mk (pt 1 1 0) (pt 2 2 0)).contains (pt 3 3 1) = true ∧
    (Rect.mk (pt 1 1 0) (pt 2 2 0)).intersects (Rect.mk (pt 0 0 0) (pt 3 3 1)) = true ∧
    (Rect.mk (pt 1 1 0) (pt 2 2 0)).intersects (Rect.mk (pt 1 1 1) (pt 7 7 1)) = true := by
  decide

/-! ## Order of points and geometry of rectangles -/

theorem Point.lt_iff (a b : Point) :
    a.lt b = true ↔ a.x < b.x ∨ (a.x = b.x ∧ a.y < b.y) := by
  simp [Point.lt, Point.x, Point.y]

theorem Point.lt_irrefl (a : Point) : a.lt a = false := by
  rw [← Bool.not_eq_true, Point.lt_iff]
  omega

theorem Point.lt_trans {a b c : Point} (h1 : a.lt b = true) (h2 : b.lt c = true) :
    a.lt c = true := by
  rw [Point.lt_iff] at *
  omega

theorem Point.lt_asymm {a b : Point} (h : a.lt b = true) : b.lt a = false := by
  rw [← Bool.not_eq_true]
  rw [Point.lt_iff] at *
  omega

theorem Point.lt_or_lt_of_ne {a b : Point} (h : a ≠ b) : a.lt b = true ∨ b.lt a = true := by
  by_cases h1 : a.lt b = true
  · exact Or.inl h1
  · by_cases h2 : b.lt a = true
    · exact Or.inr h2
    · exact absurd (Point.eq_of_not_lt a b (by simpa using h1) (by simpa using h2)) h

/-- C19: `operator<` is irreflexive and transitive, of two different points exactly one is
below the other, it compares `x` first and `y` on equal `x`, and `operator>`, `operator<=`,
`operator>=` are its converse, the negation of its converse and its negation. -/
theorem point_lt_strict_total_order (a b c : Point) :
    a.lt a = false ∧
    (a.lt b = true → b.lt c = true → a.lt c = true) ∧
    (a ≠ b → (a.lt b = true ∧ b.lt a = false) ∨ (a.lt b = false ∧ b.lt a = true)) ∧
    (a.lt b = true ↔ a.x < b.x ∨ (a.x = b.x ∧ a.y < b.y)) ∧
    a.gt b = b.lt a ∧ a.le b = !(b.lt a) ∧ a.ge b = !(a.lt b) := by
  refine ⟨Point.lt_irrefl a, Point.lt_trans, fun h => ?_, Point.lt_iff a b, ?_, ?_, rfl⟩
  · rcases Point.lt_or_lt_of_ne h with h1 | h1
    · exact Or.inl ⟨h1, Point.lt_asymm h1⟩
    · exact Or.inr ⟨Point.lt_asymm h1, h1⟩
  · simp only [Point.gt, Point.lt, Point.x, Point.y, gt_iff_lt]
    congr 2
    exact decide_eq_decide.2 eq_comm
  · simp only [Point.le, Point.gt, Point.lt, Point.x, Point.y, gt_iff_lt]
    congr 3
    exact decide_eq_decide.2 eq_comm

theorem Rect.contains_iff (r : Rect) (p : Point) :
    r.contains p = true ↔ r.xmin ≤ p.x ∧ p.x ≤ r.xmax ∧ r.ymin ≤ p.y ∧ p.y ≤ r.ymax := by
  simp [Rect.contains, and_assoc]

theorem DBL_MAX_pos : 0 < DBL_MAX := by decide

/-- C17 fails as stated: the rectangle from `(DBL_MAX, 0)` to `(DBL_MAX, 1)` has
`xmin <= xmax` and `ymin <= ymax` and does not contain `(0,0)`, whose only positive gap is
`DBL_MAX`, and `distance((0,0))` is `0`. -/
theorem rect_distance_zero_outside :
    (Rect.mk ⟨DBL_MAX, 0⟩ ⟨DBL_MAX, dbl 1 0⟩).xmin ≤ (Rect.mk ⟨DBL_MAX, 0⟩ ⟨DBL_MAX, dbl 1 0⟩).xmax ∧
    (Rect.mk ⟨DBL_MAX, 0⟩ ⟨DBL_MAX, dbl 1 0⟩).ymin ≤ (Rect.mk ⟨DBL_MAX, 0⟩ ⟨DBL_MAX, dbl 1 0⟩).ymax ∧
    (Rect.mk ⟨DBL_MAX, 0⟩ ⟨DBL_MAX, dbl 1 0⟩).contains ⟨0, 0⟩ = false ∧
    (Rect.mk ⟨DBL_MAX, 0⟩ ⟨DBL_MAX, dbl 1 0⟩).positive_gaps ⟨0, 0⟩ = [DBL_MAX] ∧
    (Rect.mk ⟨DBL_MAX, 0⟩ ⟨DBL_MAX, dbl 1 0⟩).distance ⟨0, 0⟩ = 0 := by
  decide

theorem exists_least_of_ne_nil (l : List Int) (h : l ≠ []) : ∃ g ∈ l, ∀ x ∈ l, g ≤ x := by
  induction l with
  | nil => exact absurd rfl h
  | cons a rest ih =>
    cases rest with
    | nil => exact ⟨a, by simp, by simp⟩
    | cons b rest2 =>
      obtain ⟨g, hg, hmin⟩ := ih (by simp)
      by_cases hag : a ≤ g
      · refine ⟨a, by simp, fun x hx => ?_⟩
        rcases List.mem_cons.1 hx with hx | hx
        · omega
        · have := hmin x hx; omega
      · refine ⟨g, List.mem_cons_of_mem _ hg, fun x hx => ?_⟩
        rcases List.mem_cons.1 hx with hx | hx
        · omega
        · exact hmin x hx

theorem Rect.mem_positive_gaps (r : Rect) (p : Point) (h : Int) :
    h ∈ r.positive_gaps p ↔
      0 < h ∧ (h = r.xmin - p.x ∨ h = p.y - r.ymax ∨ h = p.x - r.xmax ∨ h = r.ymin - p.y) := by
  simp only [Rect.positive_gaps, List.mem_filter, List.mem_cons, List.mem_singleton,
    List.not_mem_nil, or_false, decide_eq_true_eq]
  tauto

/-- The value `Rect::distance` compares with `DBL_MAX`: the least of the four slots, each the
gap on its side when positive and `DBL_MAX` otherwise. -/
theorem Rect.distance_slots (r : Rect) (p : Point) :
    ∃ m lt tp rt bt : Int, (r.distance p = if m < DBL_MAX then m else 0) ∧
      m ≤ lt ∧ m ≤ tp ∧ m ≤ rt ∧ m ≤ bt ∧ (m = lt ∨ m = tp ∨ m = rt ∨ m = bt) ∧
      ((0 < r.xmin - p.x ∧ lt = r.xmin - p.x) ∨ (r.xmin - p.x ≤ 0 ∧ lt = DBL_MAX)) ∧
      ((0 < p.y - r.ymax ∧ tp = p.y - r.ymax) ∨ (p.y - r.ymax ≤ 0 ∧ tp = DBL_MAX)) ∧
      ((0 < p.x - r.xmax ∧ rt = p.x - r.xmax) ∨ (p.x - r.xmax ≤ 0 ∧ rt = DBL_MAX)) ∧
      ((0 < r.ymin - p.y ∧ bt = r.ymin - p.y) ∨ (r.ymin - p.y ≤ 0 ∧ bt = DBL_MAX)) := by
  refine ⟨min (min (if p.x < r.xmin then r.xmin - p.x else DBL_MAX)
      (if p.y > r.ymax then p.y - r.ymax else DBL_MAX))
    (min (if p.x > r.xmax then p.x - r.xmax else DBL_MAX)
      (if p.y < r.ymin then r.ymin - p.y else DBL_MAX)),
    if p.x < r.xmin then r.xmin - p.x else DBL_MAX,
    if p.y > r.ymax then p.y - r.ymax else DBL_MAX,
    if p.x > r.xmax then p.x - r.xmax else DBL_MAX,
    if p.y < r.ymin then r.ymin - p.y else DBL_MAX, rfl, ?_, ?_, ?_, ?_, ?_, ?_, ?_, ?_, ?_⟩
  · exact min_le_of_left_le (min_le_left _ _)
  · exact min_le_of_left_le (min_le_right _ _)
  · exact min_le_of_right_le (min_le_left _ _)
  · exact min_le_of_right_le (min_le_right _ _)
  · rcases min_choice (min (if p.x < r.xmin then r.xmin - p.x else DBL_MAX)
        (if p.y > r.ymax then p.y - r.ymax else DBL_MAX))
      (min (if p.x > r.xmax then p.x - r.xmax else DBL_MAX)
        (if p.y < r.ymin then r.ymin - p.y else DBL_MAX)) with h | h
    · rw [h]
      rcases min_choice (if p.x < r.xmin then r.xmin - p.x else DBL_MAX)
        (if p.y > r.ymax then p.y - r.ymax else DBL_MAX) with h2 | h2
      · exact Or.inl h2
      · exact Or.inr (Or.inl h2)
    · rw [h]
      rcases min_choice (if p.x > r.xmax then p.x - r.xmax else DBL_MAX)
        (if p.y < r.ymin then r.ymin - p.y else DBL_MAX) with h2 | h2
      · exact Or.inr (Or.inr (Or.inl h2))
      · exact Or.inr (Or.inr (Or.inr h2))
  · split_ifs <;> omega
  · split_ifs <;> omega
  · split_ifs <;> omega
  · split_ifs <;> omega

/-- C17, as amended: `distance(p)` is `0` if the rectangle contains `p`; otherwise it is the
smallest of the positive gaps when that is below `DBL_MAX`, and `0` when it is not.  So
`distance(p) = 0` exactly when the rectangle contains `p` or no positive gap is below
`DBL_MAX`. -/
theorem rect_distance_min_positive_gap (r : Rect) (p : Point) :
    (r.contains p = true → r.distance p = 0) ∧
    (r.contains p = false →
      ∃ g ∈ r.positive_gaps p, (∀ h ∈ r.positive_gaps p, g ≤ h) ∧
        r.distance p = if g < DBL_MAX then g else 0) ∧
    (r.distance p = 0 ↔ r.contains p = true ∨ ∀ h ∈ r.positive_gaps p, DBL_MAX ≤ h) := by
  have hpos := DBL_MAX_pos
  have hc := Rect.contains_iff r p
  obtain ⟨m, lt, tp, rt, bt, hd, h1, h2, h3, h4, hm, s1, s2, s3, s4⟩ := Rect.distance_slots r p
  have hmem := Rect.mem_positive_gaps r p
  have hge : ∀ h ∈ r.positive_gaps p, m ≤ h := by
    intro h hh
    obtain ⟨h0, hh⟩ := (hmem h).1 hh
    omega
  have hmin : m < DBL_MAX → m ∈ r.positive_gaps p := by
    intro hlt
    rw [hmem]
    omega
  have hout : r.contains p = false → r.positive_gaps p ≠ [] := by
    intro hnc hnil
    have hnc2 : ¬ (r.xmin ≤ p.x ∧ p.x ≤ r.xmax ∧ r.ymin ≤ p.y ∧ p.y ≤ r.ymax) := by
      rw [← hc, hnc]; simp
    have hall : ∀ h, ¬ (0 < h ∧ (h = r.xmin - p.x ∨ h = p.y - r.ymax ∨ h = p.x - r.xmax ∨
        h = r.ymin - p.y)) := by
      intro h; rw [← hmem, hnil]; simp
    have a1 := hall (r.xmin - p.x)
    have a2 := hall (p.y - r.ymax)
    have a3 := hall (p.x - r.xmax)
    have a4 := hall (r.ymin - p.y)
    omega
  refine ⟨fun hin => ?_, fun hnc => ?_, ?_⟩
  · have := hc.1 hin
    rw [hd, if_neg (by omega)]
  · by_cases hlt : m < DBL_MAX
    · exact ⟨m, hmin hlt, hge, hd⟩
    · obtain ⟨g, hg, hgmin⟩ := exists_least_of_ne_nil _ (hout hnc)
      refine ⟨g, hg, hgmin, ?_⟩
      have := hge g hg
      rw [hd, if_neg hlt, if_neg (by omega)]
  · constructor
    · intro h0
      by_cases hin : r.contains p = true
      · exact Or.inl hin
      · right
        intro h hh
        have hmh := hge h hh
        by_cases hlt : m < DBL_MAX
        · rw [hd, if_pos hlt] at h0
          have := (hmem m).1 (hmin hlt)
          omega
        · omega
    · rintro (hin | hall)
      · have := hc.1 hin
        rw [hd, if_neg (by omega)]
      · by_cases hlt : m < DBL_MAX
        · have := hall m (hmin hlt)
          omega
        · rw [hd, if_neg hlt]

/-- C18 fails on the code: the rectangles from `(0,0)` to `(2,2)` and from `(1,-1)` to `(3,1)`
have `xmin <= xmax` and `ymin <= ymax`, the first contains the corner `(1,1)` of the second
(its `(xmin, ymax)`), the point `(1.5, 0.5)` lies in both, and `intersects` is false both
ways. -/
theorem rect_intersects_misses_corner :
    (Rect.mk (pt 0 0 0) (pt 2 2 0)).xmin ≤ (Rect.mk (pt 0 0 0) (pt 2 2 0)).xmax ∧
    (Rect.mk (pt 0 0 0) (pt 2 2 0)).ymin ≤ (Rect.mk (pt 0 0 0) (pt 2 2 0)).ymax ∧
    (Rect.mk (pt 1 (-1) 0) (pt 3 1 0)).xmin ≤ (Rect.mk (pt 1 (-1) 0) (pt 3 1 0)).xmax ∧
    (Rect.mk (pt 1 (-1) 0) (pt 3 1 0)).ymin ≤ (Rect.mk (pt 1 (-1) 0) (pt 3 1 0)).ymax ∧
    pt 1 1 0 ∈ (Rect.mk (pt 1 (-1) 0) (pt 3 1 0)).corners ∧
    (Rect.mk (pt 0 0 0) (pt 2 2 0)).contains (pt 1 1 0) = true ∧
    (Rect.mk (pt 0 0 0) (pt 2 2 0)).contains (pt 3 1 1) = true ∧
    (Rect.mk (pt 1 (-1) 0) (pt 3 1 0)).contains (pt 3 1 1) = true ∧
    (Rect.mk (pt 0 0 0) (pt 2 2 0)).intersects (Rect.mk (pt 1 (-1) 0) (pt 3 1 0)) = false ∧
    (Rect.mk (pt 1 (-1) 0) (pt 3 1 0)).intersects (Rect.mk (pt 0 0 0) (pt 2 2 0)) = false := by
  decide

/-! ## The reference set: order of the elements and range -/

namespace rbtree

theorem set_insert_sorted (xs : List Point) (p : Point)
    (h : xs.Pairwise (fun a b => a.lt b = true)) :
    (set_insert xs p).Pairwise (fun a b => a.lt b = true) := by
  induction xs with
  | nil => simp [set_insert]
  | cons x rest ih =>
    rw [List.pairwise_cons] at h
    simp only [set_insert]
    by_cases h1 : p.lt x = true
    · rw [if_pos h1]
      refine List.pairwise_cons.2 ⟨fun y hy => ?_, List.pairwise_cons.2 h⟩
      rcases List.mem_cons.1 hy with hy | hy
      · rw [hy]; exact h1
      · exact Point.lt_trans h1 (h.1 y hy)
    · rw [if_neg h1]
      by_cases h2 : x.lt p = true
      · rw [if_pos h2]
        refine List.pairwise_cons.2 ⟨fun y hy => ?_, ih h.2⟩
        rcases (mem_set_insert rest p y).1 hy with hy | hy
        · exact h.1 y hy
        · rw [hy]; exact h2
      · rw [if_neg h2]
        exact List.pairwise_cons.2 h

theorem PointSet.put_all_sorted (pts : List Point) :
    ∀ (s : PointSet), s.points.Pairwise (fun a b => a.lt b = true) →
      (s.put_all pts).points.Pairwise (fun a b => a.lt b = true) := by
  induction pts with
  | nil => intro s h; exact h
  | cons p ps ih =>
    intro s h
    rw [PointSet.put_all]
    exact ih _ (set_insert_sorted s.points p h)

theorem PointSet.built_sorted (pts : List Point) :
    (PointSet.put_all PointSet.empty_set pts).points.Pairwise (fun a b => a.lt b = true) :=
  PointSet.put_all_sorted pts _ List.Pairwise.nil

theorem nodup_of_sorted (xs : List Point) (h : xs.Pairwise (fun a b => a.lt b = true)) :
    xs.Nodup := by
  refine h.imp ?_
  intro a b hab heq
  rw [heq, Point.lt_irrefl] at hab
  cases hab

theorem PointSet.built_mem (pts : List Point) (q : Point) :
    q ∈ (PointSet.put_all PointSet.empty_set pts).points ↔ q ∈ pts := by
  rw [PointSet.mem_put_all]
  simp [PointSet.empty_set]

theorem enumerate_rect_filtered (rect : Rect) (hr : rect.ne Rect.default = true) :
    ∀ (xs : List Point) (fuel : Nat), xs.length < fuel →
      enumerate fuel ⟨skip_while (fun q => !rect.contains q) xs, rect, Point.default, 0⟩
          ⟨[], rect, Point.default, 0⟩ =
        some (xs.filter rect.contains) := by
  intro xs
  induction xs with
  | nil =>
    intro fuel hf
    cases fuel with
    | zero => simp at hf
    | succ fuel => simp [enumerate, skip_while]
  | cons q rest ih =>
    intro fuel hf
    simp only [List.length_cons] at hf
    by_cases hc : rect.contains q = true
    · have h1 : skip_while (fun q => !rect.contains q) (q :: rest) = q :: rest := by
        simp [skip_while, hc]
      rw [h1, List.filter_cons_of_pos hc]
      cases fuel with
      | zero => simp at hf
      | succ fuel =>
        simp only [enumerate, iterator.incr, next_point, hr, List.tail_cons, ↓reduceIte,
          reduceCtorEq]
        rw [ih fuel (by omega)]
        rfl
    · have h1 : skip_while (fun q => !rect.contains q) (q :: rest) =
          skip_while (fun q => !rect.contains q) rest := by
        simp [skip_while, hc]
      rw [h1, List.filter_cons_of_neg hc]
      exact ih fuel (by omega)

theorem iterator.of_rect_eq (xs : List Point) (rect : Rect) (hr : rect.ne Rect.default = true) :
    iterator.of_rect xs rect =
      ⟨skip_while (fun q => !rect.contains q) xs, rect, Point.default, 0⟩ := by
  cases xs with
  | nil => rfl
  | cons q rest =>
    simp only [iterator.of_rect]
    by_cases hc : rect.contains q = true
    · simp [skip_while, hc]
    · simp [iterator.incr, next_point, hr, skip_while, hc]

theorem PointSet.range_enumerate (s : PointSet) (rect : Rect) (hr : rect.ne Rect.default = true)
    (fuel : Nat) (hf : s.size < fuel) :
    enumerate fuel (s.range rect).1 (s.range rect).2 = some (s.points.filter rect.contains) := by
  simp only [PointSet.range, iterator.of_rect_eq _ _ hr, skip_while]
  exact enumerate_rect_filtered rect hr s.points fuel hf

theorem min_element_from_mem (comp : Point → Point → Bool) :
    ∀ (rest : List Point) (q : Point),
      PointSet.min_element_from comp q rest = q ∨ PointSet.min_element_from comp q rest ∈ rest := by
  intro rest
  induction rest with
  | nil => intro q; exact Or.inl rfl
  | cons x xs ih =>
    intro q
    simp only [PointSet.min_element_from]
    split
    · rcases ih x with h | h
      · exact Or.inr (by simp [h])
      · exact Or.inr (List.mem_cons_of_mem _ h)
    · rcases ih q with h | h
      · exact Or.inl h
      · exact Or.inr (List.mem_cons_of_mem _ h)

end rbtree

/-- C16 fails as stated: for the default rectangle `Rect()`, which contains none of the
points `(0,0)`, `(1,1)`, `(2,2)`, `range` of the reference set yields `(1,1)` and `(2,2)`:
the iterator takes a rectangle equal to `Rect()` for "no filter". -/
theorem rbtree_range_default_rect_unfiltered :
    Rect.default.contains (pt 1 1 0) = false ∧ Rect.default.contains (pt 2 2 0) = false ∧
    rbtree.enumerate 4
      ((rbtree.PointSet.put_all rbtree.PointSet.empty_set
        [pt 0 0 0, pt 1 1 0, pt 2 2 0]).range Rect.default).1
      ((rbtree.PointSet.put_all rbtree.PointSet.empty_set
        [pt 0 0 0, pt 1 1 0, pt 2 2 0]).range Rect.default).2 = some [pt 1 1 0, pt 2 2 0] := by
  decide

/-- C16, as amended: for every rectangle that is not equal (`operator==`) to the default
`Rect()`, `range` of the reference set yields exactly the stored points the rectangle
contains, in strictly ascending `Point` order (so each once), and stops at the end of the
set. -/
theorem rbtree_range_exact (pts : List Point) (rect : Rect)
    (hr : rect.ne Rect.default = true) :
    ((rbtree.PointSet.put_all rbtree.PointSet.empty_set pts).points.filter
        rect.contains).Pairwise (fun a b => a.lt b = true) ∧
    (∀ q, q ∈ (rbtree.PointSet.put_all rbtree.PointSet.empty_set pts).points.filter
        rect.contains ↔ q ∈ pts ∧ rect.contains q = true) ∧
    ∀ fuel, (rbtree.PointSet.put_all rbtree.PointSet.empty_set pts).size < fuel →
      rbtree.enumerate fuel
          ((rbtree.PointSet.put_all rbtree.PointSet.empty_set pts).range rect).1
          ((rbtree.PointSet.put_all rbtree.PointSet.empty_set pts).range rect).2 =
        some ((rbtree.PointSet.put_all rbtree.PointSet.empty_set pts).points.filter
          rect.contains) := by
  refine ⟨(rbtree.PointSet.built_sorted pts).sublist (List.filter_sublist _), fun q => ?_,
    fun fuel hf => rbtree.PointSet.range_enumerate _ rect hr fuel hf⟩
  rw [List.mem_filter, rbtree.PointSet.built_mem]

/-- The hypothesis of the amended C16 holds for the rectangle from `(0,0)` to `(1,1)`. -/
theorem rbtree_range_exact_witness :
    (Rect.mk (pt 0 0 0) (pt 1 1 0)).ne Rect.default = true ∧
    ((rbtree.PointSet.put_all rbtree.PointSet.empty_set
        [pt 2 2 0, pt 1 1 1, pt 0 0 0]).points.filter
        (Rect.mk (pt 0 0 0) (pt 1 1 0)).contains).Pairwise (fun a b => a.lt b = true) ∧
    (∀ q, q ∈ (rbtree.PointSet.put_all rbtree.PointSet.empty_set
        [pt 2 2 0, pt 1 1 1, pt 0 0 0]).points.filter (Rect.mk (pt 0 0 0) (pt 1 1 0)).contains ↔
      q ∈ [pt 2 2 0, pt 1 1 1, pt 0 0 0] ∧ (Rect.mk (pt 0 0 0) (pt 1 1 0)).contains q = true) ∧
    ∀ fuel, (rbtree.PointSet.put_all rbtree.PointSet.empty_set
        [pt 2 2 0, pt 1 1 1, pt 0 0 0]).size < fuel →
      rbtree.enumerate fuel
          ((rbtree.PointSet.put_all rbtree.PointSet.empty_set
            [pt 2 2 0, pt 1 1 1, pt 0 0 0]).range (Rect.mk (pt 0 0 0) (pt 1 1 0))).1
          ((rbtree.PointSet.put_all rbtree.PointSet.empty_set
            [pt 2 2 0, pt 1 1 1, pt 0 0 0]).range (Rect.mk (pt 0 0 0) (pt 1 1 0))).2 =
        some ((rbtree.PointSet.put_all rbtree.PointSet.empty_set
          [pt 2 2 0, pt 1 1 1, pt 0 0 0]).points.filter (Rect.mk (pt 0 0 0) (pt 1 1 0)).contains) :=
  ⟨by decide, rbtree_range_exact [pt 2 2 0, pt 1 1 1, pt 0 0 0] (Rect.mk (pt 0 0 0) (pt 1 1 0))
    (by decide)⟩

theorem Rect.ne_default_of_degenerate (rect : Rect)
    (hdeg : rect.xmin > rect.xmax ∨ rect.ymin > rect.ymax)
    (hdbl : ∀ c ∈ [rect.xmin, rect.ymin, rect.xmax, rect.ymax], NearMaxIsMax c) :
    rect.ne Rect.default = true := by
  by_contra hcon
  have heq : Rect.default.eq rect = true := by simpa [Rect.ne] using hcon
  simp only [Rect.eq, Point.eq, Point.equals_d, Rect.default, Point.default, Bool.and_eq_true,
    decide_eq_true_eq] at heq
  have h1 := hdbl rect.xmin (by simp)
  have h2 := hdbl rect.ymin (by simp)
  have h3 := hdbl rect.xmax (by simp)
  have h4 := hdbl rect.ymax (by simp)
  simp only [NearMaxIsMax, Rect.xmin, Rect.ymin, Rect.xmax, Rect.ymax] at h1 h2 h3 h4 hdeg
  rw [abs_sub_comm] at h1 h2 h3 h4
  have e1 := h1 heq.1.1
  have e2 := h2 heq.1.2
  have e3 := h3 heq.2.1
  have e4 := h4 heq.2.2
  omega

/-- C15: a rectangle with `xmin > xmax` or `ymin > ymax` (with double coordinates) contains
no point, and `range` of it yields no point on the reference set and on the k-d tree. -/
theorem range_of_degenerate_rect_empty (pts : List Point) (rect : Rect)
    (hdeg : rect.xmin > rect.xmax ∨ rect.ymin > rect.ymax)
    (hdbl : ∀ c ∈ [rect.xmin, rect.ymin, rect.xmax, rect.ymax], NearMaxIsMax c) :
    (∀ p, rect.contains p = false) ∧
    (∀ fuel, (rbtree.PointSet.put_all rbtree.PointSet.empty_set pts).size < fuel →
      rbtree.enumerate fuel
          ((rbtree.PointSet.put_all rbtree.PointSet.empty_set pts).range rect).1
          ((rbtree.PointSet.put_all rbtree.PointSet.empty_set pts).range rect).2 = some []) ∧
    ∃ s res, PointSet.put_all PointSet.empty_set pts = some s ∧ s.range rect = some res ∧
      ∀ fuel, s.size < fuel → res.points fuel = some [] := by
  have hnone : ∀ p, rect.contains p = false := by
    intro p
    rw [← Bool.not_eq_true, Rect.contains_iff]
    omega
  have hfil : ∀ xs : List Point, xs.filter rect.contains = [] := by
    intro xs
    rw [List.filter_eq_nil_iff]
    intro q _
    simp [hnone q]
  refine ⟨hnone, fun fuel hf => ?_, ?_⟩
  · rw [rbtree.PointSet.range_enumerate _ rect (Rect.ne_default_of_degenerate rect hdeg hdbl)
      fuel hf, hfil]
  · obtain ⟨s, hs, hinv, _⟩ := kdtree.PointSet.stored_subset pts
    obtain ⟨res, hr, hrinv, hperm⟩ := PointSet.range_spec s hinv rect
    rw [hfil] at hperm
    have hnil : res.root.toList = [] := by simpa using hperm
    refine ⟨s, res, hs, hr, fun fuel hf => ?_⟩
    rw [Result.points_eq res hrinv fuel (by rw [Tree.size_eq_length, hnil]; simp; omega), hnil]

/-- The hypotheses of C15 hold for the rectangle from `(1,1)` to `(0,0)`. -/
theorem range_of_degenerate_rect_empty_witness :
    ((Rect.mk (pt 1 1 0) (pt 0 0 0)).xmin > (Rect.mk (pt 1 1 0) (pt 0 0 0)).xmax ∨
      (Rect.mk (pt 1 1 0) (pt 0 0 0)).ymin > (Rect.mk (pt 1 1 0) (pt 0 0 0)).ymax) ∧
    (∀ p, (Rect.mk (pt 1 1 0) (pt 0 0 0)).contains p = false) ∧
    (∀ fuel, (rbtree.PointSet.put_all rbtree.PointSet.empty_set
        [pt 0 0 0, pt 1 1 0, pt 1 1 1]).size < fuel →
      rbtree.enumerate fuel
          ((rbtree.PointSet.put_all rbtree.PointSet.empty_set
            [pt 0 0 0, pt 1 1 0, pt 1 1 1]).range (Rect.mk (pt 1 1 0) (pt 0 0 0))).1
          ((rbtree.PointSet.put_all rbtree.PointSet.empty_set
            [pt 0 0 0, pt 1 1 0, pt 1 1 1]).range (Rect.mk (pt 1 1 0) (pt 0 0 0))).2 = some []) ∧
    ∃ s res, PointSet.put_all PointSet.empty_set [pt 0 0 0, pt 1 1 0, pt 1 1 1] = some s ∧
      s.range (Rect.mk (pt 1 1 0) (pt 0 0 0)) = some res ∧
      ∀ fuel, s.size < fuel → res.points fuel = some [] :=
  ⟨by decide, range_of_degenerate_rect_empty [pt 0 0 0, pt 1 1 0, pt 1 1 1]
    (Rect.mk (pt 1 1 0) (pt 0 0 0)) (by decide) (by unfold NearMaxIsMax; decide)⟩

/-! ## The optional of nearest(point) -/

namespace kdtree

theorem nearest_rec_covers_mono (point : Point) (k : Nat) (x : Int) :
    ∀ (t : Tree) (i : Nat) (is_x : Bool) (nd : DistMap) (md : Int), nd.Covers x →
      (nearest_rec t point k i is_x nd md).Covers x := by
  intro t
  induction t with
  | nil => intro i is_x nd md h; exact h
  | node a p l r nx nix m ihl ihr =>
    intro i is_x nd md h
    have hv := visit_covers_mono nd k (point.distance p) p x h
    simp only [nearest_rec]
    generalize (if md > point.distance p then point.distance p else md) = md1
    generalize (if is_x = true then p.x - point.x else p.y - point.y) = sub
    by_cases hs : sub < 0
    · rw [if_pos hs]
      by_cases hc : sub * sub < md1 ∨ i + 1 < k
      · rw [if_pos hc]
        exact ihl _ _ _ _ (ihr _ _ _ _ hv)
      · rw [if_neg hc]
        exact ihr _ _ _ _ hv
    · rw [if_neg hs]
      by_cases hc : sub * sub < md1 ∨ i + 1 < k
      · rw [if_pos hc]
        exact ihr _ _ _ _ (ihl _ _ _ _ hv)
      · rw [if_neg hc]
        exact ihl _ _ _ _ hv

theorem nearest_rec_covers_self (point : Point) (k : Nat) (hk : 1 ≤ k) (a : Nat) (p : Point)
    (l r : Tree) (nx : Option Nat) (nix : Bool) (m : Nat) (i : Nat) (is_x : Bool)
    (nd : DistMap) (md : Int) (hlen : nd.length ≤ k) :
    (nearest_rec (Tree.node a p l r nx nix m) point k i is_x nd md).Covers (point.distance p) := by
  have hv := visit_covers_new nd k (point.distance p) p hk hlen
  simp only [nearest_rec]
  generalize (if md > point.distance p then point.distance p else md) = md1
  generalize (if is_x = true then p.x - point.x else p.y - point.y) = sub
  by_cases hs : sub < 0
  · rw [if_pos hs]
    by_cases hc : sub * sub < md1 ∨ i + 1 < k
    · rw [if_pos hc]
      exact nearest_rec_covers_mono _ _ _ _ _ _ _ _ (nearest_rec_covers_mono _ _ _ _ _ _ _ _ hv)
    · rw [if_neg hc]
      exact nearest_rec_covers_mono _ _ _ _ _ _ _ _ hv
  · rw [if_neg hs]
    by_cases hc : sub * sub < md1 ∨ i + 1 < k
    · rw [if_pos hc]
      exact nearest_rec_covers_mono _ _ _ _ _ _ _ _ (nearest_rec_covers_mono _ _ _ _ _ _ _ _ hv)
    · rw [if_neg hc]
      exact nearest_rec_covers_mono _ _ _ _ _ _ _ _ hv

theorem nearest_rec_one_entry (t : Tree) (point : Point) (md : Int) (hne : t ≠ Tree.nil) :
    ∃ e, nearest_rec t point 1 0 true [] md = [e] := by
  have hlen := (nearest_rec_sub point 1 t 0 true [] md (Nat.zero_le _)).1
  have hcov : ∃ x, (nearest_rec t point 1 0 true [] md).Covers x := by
    cases t with
    | nil => exact absurd rfl hne
    | node a p l r nx nix m =>
      exact ⟨_, nearest_rec_covers_self point 1 (le_refl 1) a p l r nx nix m 0 true [] md
        (Nat.zero_le _)⟩
  obtain ⟨x, e, he, _⟩ := hcov
  cases h : nearest_rec t point 1 0 true [] md with
  | nil => rw [h] at he; simp at he
  | cons e1 rest =>
    rw [h] at hlen
    cases rest with
    | nil => exact ⟨e1, rfl⟩
    | cons e2 rest2 => simp at hlen

theorem PointSet.nearest_absent_iff (s : PointSet) (point : Point) :
    ∃ o, s.nearest point = some o ∧ (o = none ↔ s.empty = true) := by
  by_cases hne : s.m_root = Tree.nil
  · refine ⟨none, ?_, by simp [PointSet.empty, hne]⟩
    unfold PointSet.nearest PointSet.nearest_k
    rw [hne]
    simp [nearest_rec, emit_all]
  · obtain ⟨e, he⟩ := nearest_rec_one_entry s.m_root point (DBL_MAX * DBL_MAX) hne
    refine ⟨some e.2, ?_, by simp [PointSet.empty, hne]⟩
    unfold PointSet.nearest PointSet.nearest_k
    rw [he]
    simp [emit_all, emit, Tree.find, Tree.cells]

end kdtree

/-- C14: on the reference set and on the k-d tree, for every query point, `nearest(p)`
returns an absent optional if and only if the set is empty. -/
theorem nearest_absent_iff_empty (pts : List Point) (p : Point) :
    (∀ s : rbtree.PointSet, s.nearest p = none ↔ s.empty = true) ∧
    ((rbtree.PointSet.put_all rbtree.PointSet.empty_set pts).empty = true ↔ pts = []) ∧
    ∃ s o, PointSet.put_all PointSet.empty_set pts = some s ∧ s.nearest p = some o ∧
      (o = none ↔ s.empty = true) ∧ (s.empty = true ↔ pts = []) := by
  refine ⟨fun s => ?_, ?_, ?_⟩
  · unfold rbtree.PointSet.nearest rbtree.PointSet.empty
    cases s.points <;> simp
  · have hm := rbtree.PointSet.built_mem pts
    unfold rbtree.PointSet.empty
    rw [List.isEmpty_iff]
    constructor
    · intro h
      rw [h] at hm
      exact List.eq_nil_iff_forall_not_mem.2 (fun q hq => by simpa using (hm q).2 hq)
    · intro h
      subst h
      rfl
  · obtain ⟨s, hs, hinv, hsub, hne⟩ := kdtree.PointSet.stored_subset pts
    obtain ⟨o, ho, hiff⟩ := PointSet.nearest_absent_iff s p
    refine ⟨s, o, hs, ho, hiff, ?_⟩
    constructor
    · intro h
      by_contra hp
      exact hne hp (by simpa [PointSet.empty] using h)
    · intro h
      subst h
      simp only [PointSet.put_all, Option.some.injEq] at hs
      rw [← hs]
      rfl

/-! ## The order of the walk and the weights after a rebuild -/

/-- C13 fails as stated: after the puts `(5,5)`, `(3,3)`, `(1,4)` the walk from `begin()`
reads `(3,3)`, `(1,4)`, `(5,5)`: `begin()` is `(3,3)` although `(1,4)` has the smallest `x`,
and the `x` coordinates `3, 1, 5` are not in non-decreasing order. -/
theorem kdtree_walk_not_sorted_by_x :
    (PointSet.put_all PointSet.empty_set [pt 5 5 0, pt 3 3 0, pt 1 4 0]).bind
        (fun s => enumerate s.m_root 4 s.m_begin s.m_end) =
      some [pt 3 3 0, pt 1 4 0, pt 5 5 0] ∧
    (pt 1 4 0).x < (pt 3 3 0).x := by
  decide

/-- C13, as amended: in every set reachable by puts, `begin()` is the leftmost node of the
tree and the walk along the successor links reads the nodes in in-order (left subtree, node,
right subtree); at every node the points of the left subtree are smaller than the node's
point on the node's own axis and those of the right subtree are not smaller, the axes
alternate from `x` at the root.  So all points before the root's point in the walk have a
smaller `x` than the root and all points after it have an `x` at least the root's. -/
theorem kdtree_walk_in_order (pts : List Point) :
    ∃ s, PointSet.put_all PointSet.empty_set pts = some s ∧
      (pts ≠ [] → s.m_root ≠ kdtree.Tree.nil) ∧
      s.m_begin = s.m_root.leftmost.map Cell.addr ∧
      (∀ fuel, s.size < fuel → enumerate s.m_root fuel s.m_begin s.m_end = some s.m_root.toList) ∧
      s.m_root.Ordered ∧ s.m_root.Axis true ∧
      ∀ a rp l r nx nix m, s.m_root = kdtree.Tree.node a rp l r nx nix m →
        nix = true ∧ s.m_root.toList = l.toList ++ rp :: r.toList ∧
        (∀ q ∈ l.toList, q.x < rp.x) ∧ (∀ q ∈ r.toList, rp.x ≤ q.x) := by
  obtain ⟨s, hs, hinv, _, hne⟩ := kdtree.PointSet.stored_subset pts
  refine ⟨s, hs, hne, ?_, fun fuel hf => PointSet.enumerate_all s hinv fuel hf,
    hinv.wf.ordered, hinv.wf.axis, ?_⟩
  · rw [hinv.m_begin_first]
    by_cases h : s.m_root = kdtree.Tree.nil
    · rw [h]; rfl
    · exact Tree.first_of_ne_nil h none
  · intro a rp l r nx nix m hroot
    have hord := hinv.wf.ordered
    have hax := hinv.wf.axis
    rw [hroot] at hord hax
    obtain ⟨h1, h2, _, _⟩ := hord
    have hnix : nix = true := hax.1
    subst hnix
    refine ⟨rfl, by rw [hroot]; rfl, fun q hq => ?_, fun q hq => ?_⟩
    · simpa using h1 q hq
    · simpa using h2 q hq

/-- C20 fails on the code: the puts `(3,9)`, `(3,7)`, `(6,6)`, `(8,5)`.  The fourth put
rebuilds the tree at the root, and the rebuilt root `(8,5)` of weight 4 has a left child of
weight 3, more than `0.7 * 4`. -/
theorem kdtree_rebuilt_root_exceeds_alpha :
    (PointSet.put_all PointSet.empty_set [pt 3 9 0, pt 3 7 0, pt 6 6 0]).map
        (fun s => s.m_root) =
      some (kdtree.Tree.node 0 (pt 3 9 0) kdtree.Tree.nil
        (kdtree.Tree.node 1 (pt 3 7 0)
          (kdtree.Tree.node 2 (pt 6 6 0) kdtree.Tree.nil kdtree.Tree.nil (some 1) true 1)
          kdtree.Tree.nil none false 2) (some 2) true 3) ∧
    (PointSet.put_all PointSet.empty_set [pt 3 9 0, pt 3 7 0, pt 6 6 0, pt 8 5 0]).map
        (fun s => s.m_root) =
      some (kdtree.Tree.node 4 (pt 8 5 0)
        (kdtree.Tree.node 5 (pt 6 6 0) kdtree.Tree.nil
          (kdtree.Tree.node 6 (pt 3 9 0) kdtree.Tree.nil
            (kdtree.Tree.node 7 (pt 3 7 0) kdtree.Tree.nil kdtree.Tree.nil (some 4) false 1)
            (some 7) true 2) (some 6) false 3)
        kdtree.Tree.nil none true 4) ∧
    (PointSet.put_all PointSet.empty_set [pt 3 9 0, pt 3 7 0, pt 6 6 0, pt 8 5 0]).map
        (fun s => s.m_root.within_alpha) = some false ∧
    exceeds_alpha 3 4 = true := by
  decide

/-! ## Insertion order and nearest(point, k) -/

namespace rbtree

theorem dset_emplace_length_new (ds : List Int) (d : Int) (h : d ∉ ds) :
    (dset_emplace ds d).length = ds.length + 1 := by
  induction ds with
  | nil => simp [dset_emplace]
  | cons x xs ih =>
    simp only [List.mem_cons, not_or] at h
    simp only [dset_emplace]
    by_cases h1 : d < x
    · rw [if_pos h1]; simp
    · rw [if_neg h1]
      by_cases h2 : x < d
      · rw [if_pos h2]; simp [ih h.2]
      · exact absurd (by omega) h.1

theorem PointSet.nearest_distances_step (p : Point) (k : Nat) (hk : 1 ≤ k) (q : Point)
    (qs : List Point) (ds seen : List Int)
    (hs : ds.Pairwise (· < ·)) (hsub : ∀ d ∈ ds, d ∈ seen) (hlen : ds.length = min k seen.length)
    (hinv : ∀ x ∈ seen, x ∈ ds ∨ ∀ d ∈ ds, d < x)
    (hnew : q.distance p ∉ seen) :
    ∃ ds1, PointSet.nearest_distances p k (q :: qs) ds = PointSet.nearest_distances p k qs ds1 ∧
      ds1.Pairwise (· < ·) ∧ (∀ d ∈ ds1, d ∈ seen ++ [q.distance p]) ∧
      ds1.length = min k (seen ++ [q.distance p]).length ∧
      ∀ x ∈ seen ++ [q.distance p], x ∈ ds1 ∨ ∀ d ∈ ds1, d < x := by
  by_cases hfull : ds.length = k
  · have hne : ds ≠ [] := by
      intro h; rw [h] at hfull; simp at hfull; omega
    rcases List.eq_nil_or_concat ds with h | ⟨front, last, hds0⟩
    · exact absurd h hne
    · have hds : ds = front ++ [last] := by rw [hds0, List.concat_eq_append]
      have hgl : ds.getLast? = some last := by rw [hds]; simp
      have hdl : ds.dropLast = front := by rw [hds]; simp
      have hfl : front.length + 1 = k := by rw [← hfull, hds]; simp
      have hlast_mem : last ∈ ds := by rw [hds]; simp
      have hfront_sub : ∀ x ∈ front, x ∈ ds := by intro x hx; rw [hds]; simp [hx]
      have hfront_lt : ∀ x ∈ front, x < last := by
        intro x hx
        rw [hds, List.pairwise_append] at hs
        exact hs.2.2 x hx last (by simp)
      have hfront_sorted : front.Pairwise (· < ·) := by
        rw [hds, List.pairwise_append] at hs
        exact hs.1
      have hle_last : ∀ x ∈ ds, x ≤ last := sorted_le_last ds hs last hgl
      by_cases hlt : last < q.distance p
      · refine ⟨ds, ?_, hs, fun d hd => by simp [hsub d hd], ?_, fun x hx => ?_⟩
        · rw [PointSet.nearest_distances, hgl, if_pos ⟨hfull, by simpa using hlt⟩]
        · simp only [List.length_append, List.length_singleton]; omega
        · rcases List.mem_append.1 hx with hx | hx
          · exact hinv x hx
          · rw [List.mem_singleton] at hx
            right
            intro d hd
            have := hle_last d hd
            omega
      · have hlt2 : q.distance p < last := by
          have hneq : q.distance p ≠ last := by
            intro h; apply hnew; rw [h]; exact hsub last hlast_mem
          omega
        have hnotfront : q.distance p ∉ front := fun h => hnew (hsub _ (hfront_sub _ h))
        refine ⟨dset_emplace front (q.distance p), ?_, dset_emplace_sorted _ _ hfront_sorted,
          fun d hd => ?_, ?_, fun x hx => ?_⟩
        · rw [PointSet.nearest_distances, hgl, if_neg (by simp [hlt]), if_pos hfull, hdl]
        · rcases (mem_dset_emplace _ _ _).1 hd with h | h
          · simp [hsub d (hfront_sub d h)]
          · simp [h]
        · rw [dset_emplace_length_new _ _ hnotfront]
          simp only [List.length_append, List.length_singleton]; omega
        · have hall_lt : ∀ y, last ≤ y → ∀ d ∈ dset_emplace front (q.distance p), d < y := by
            intro y hy d hd
            rcases (mem_dset_emplace _ _ _).1 hd with h | h
            · have := hfront_lt d h; omega
            · omega
          rcases List.mem_append.1 hx with hx | hx
          · rcases hinv x hx with h | h
            · rw [hds] at h
              rcases List.mem_append.1 h with h | h
              · exact Or.inl ((mem_dset_emplace _ _ _).2 (Or.inl h))
              · rw [List.mem_singleton] at h
                exact Or.inr (hall_lt x (by omega))
            · exact Or.inr (hall_lt x (le_of_lt (h last hlast_mem)))
          · rw [List.mem_singleton] at hx
            exact Or.inl ((mem_dset_emplace _ _ _).2 (Or.inr hx))
  · have hlt : ds.length < k := by omega
    have hseen : seen.length = ds.length := by omega
    have hperm : ds.Perm seen := by
      have hsp : ds.Subperm seen :=
        List.subperm_of_subset (hs.imp (fun h => ne_of_lt h)) (fun d hd => hsub d hd)
      exact hsp.perm_of_length_le (by omega)
    have hnotin : q.distance p ∉ ds := fun h => hnew (hsub _ h)
    refine ⟨dset_emplace ds (q.distance p), ?_, dset_emplace_sorted _ _ hs, fun d hd => ?_, ?_,
      fun x hx => ?_⟩
    · rw [PointSet.nearest_distances, if_neg (fun h => hfull h.1), if_neg hfull]
    · rcases (mem_dset_emplace _ _ _).1 hd with h | h
      · simp [hsub d h]
      · simp [h]
    · rw [dset_emplace_length_new _ _ hnotin]
      simp only [List.length_append, List.length_singleton]; omega
    · rcases List.mem_append.1 hx with hx | hx
      · exact Or.inl ((mem_dset_emplace _ _ _).2 (Or.inl (hperm.mem_iff.2 hx)))
      · rw [List.mem_singleton] at hx
        exact Or.inl ((mem_dset_emplace _ _ _).2 (Or.inr hx))

theorem PointSet.nearest_distances_smallest (p : Point) (k : Nat) (hk : 1 ≤ k) :
    ∀ (rest : List Point) (ds seen : List Int),
      ds.Pairwise (· < ·) → (∀ d ∈ ds, d ∈ seen) → ds.length = min k seen.length →
      (∀ x ∈ seen, x ∈ ds ∨ ∀ d ∈ ds, d < x) →
      (seen ++ rest.map (fun q => q.distance p)).Nodup →
      (PointSet.nearest_distances p k rest ds).Pairwise (· < ·) ∧
      (∀ d ∈ PointSet.nearest_distances p k rest ds,
        d ∈ seen ++ rest.map (fun q => q.distance p)) ∧
      (PointSet.nearest_distances p k rest ds).length = min k (seen.length + rest.length) ∧
      (∀ x ∈ seen ++ rest.map (fun q => q.distance p),
        x ∈ PointSet.nearest_distances p k rest ds ∨
          ∀ d ∈ PointSet.nearest_distances p k rest ds, d < x) := by
  intro rest
  induction rest with
  | nil =>
    intro ds seen hs hsub hlen hinv _
    simp only [PointSet.nearest_distances, List.map_nil, List.append_nil, List.length_nil,
      Nat.add_zero]
    exact ⟨hs, hsub, hlen, hinv⟩
  | cons q qs ih =>
    intro ds seen hs hsub hlen hinv hnd
    have hnew : q.distance p ∉ seen := by
      intro h
      have := (List.nodup_append.1 hnd).2.2
      exact this h (by simp)
    obtain ⟨ds1, hstep, h1, h2, h3, h4⟩ :=
      PointSet.nearest_distances_step p k hk q qs ds seen hs hsub hlen hinv hnew
    have hassoc : seen ++ List.map (fun q => q.distance p) (q :: qs) =
        (seen ++ [q.distance p]) ++ qs.map (fun q => q.distance p) := by simp
    have hl : seen.length + (q :: qs).length = (seen ++ [q.distance p]).length + qs.length := by
      simp only [List.length_cons, List.length_append, List.length_nil]; omega
    rw [hstep, hassoc, hl]
    rw [hassoc] at hnd
    exact ih ds1 (seen ++ [q.distance p]) h1 h2 h3 h4 hnd

end rbtree

/-! ## The radius of the reference nearest(point, k) -/

theorem kth_smallest_of_smallest (all R : List Int) (k : Nat) (hk : 1 ≤ k)
    (hR : R.Pairwise (· < ·)) (hsub : ∀ d ∈ R, d ∈ all) (hlen : R.length = k)
    (hnd : all.Nodup) (hsep : ∀ x ∈ all, x ∈ R ∨ ∀ d ∈ R, d < x) (radius : Int)
    (hlast : R.getLast? = some radius) :
    kth_smallest all k = some radius := by
  have hp1 : R.Perm (all.filter (fun x => decide (x ∈ R))) := by
    rw [List.perm_ext_iff_of_nodup (hR.imp (fun h => ne_of_lt h)) (hnd.filter _)]
    intro a
    simp only [List.mem_filter, decide_eq_true_eq]
    exact ⟨fun h => ⟨hsub a h, h⟩, fun h => h.2⟩
  have hp2 : ((all.filter (fun x => !decide (x ∈ R))).insertionSort (fun a b => a ≤ b)).Perm
      (all.filter (fun x => !decide (x ∈ R))) := List.perm_insertionSort _ _
  have hperm : (R ++ (all.filter (fun x => !decide (x ∈ R))).insertionSort
      (fun a b => a ≤ b)).Perm all :=
    (List.Perm.append hp1 hp2).trans (List.filter_append_perm _ _)
  have hsorted : (R ++ (all.filter (fun x => !decide (x ∈ R))).insertionSort
      (fun a b => a ≤ b)).Sorted (fun a b => a ≤ b) := by
    unfold List.Sorted
    rw [List.pairwise_append]
    refine ⟨hR.imp (fun h => le_of_lt h), List.sorted_insertionSort _ _, fun a ha b hb => ?_⟩
    have hb2 := hp2.mem_iff.1 hb
    simp only [List.mem_filter, Bool.not_eq_true', decide_eq_false_iff_not] at hb2
    rcases hsep b hb2.1 with h | h
    · exact absurd h hb2.2
    · exact le_of_lt (h a ha)
  have heq : all.insertionSort (fun a b => a ≤ b) =
      R ++ (all.filter (fun x => !decide (x ∈ R))).insertionSort (fun a b => a ≤ b) :=
    List.eq_of_perm_of_sorted ((List.perm_insertionSort _ _).trans hperm.symm)
      (List.sorted_insertionSort _ _) hsorted
  unfold kth_smallest
  rw [if_neg (by omega), heq, List.getElem?_append_left (by omega), ← hlen,
    ← List.getLast?_eq_getElem?]
  exact hlast

namespace rbtree

theorem PointSet.nearest_k_radius (s : PointSet) (p : Point) (k : Nat)
    (hp : p.ne Point.default = true) (hnd : (s.points.map p.distance).Nodup)
    (hk1 : 1 ≤ k) (hk2 : k ≤ s.size) :
    ∃ its radius, s.nearest_k p k = some its ∧
      kth_smallest (s.points.map p.distance) k = some radius ∧
      ∀ fuel, s.size < fuel → enumerate fuel its.1 its.2 =
        some (s.points.filter (fun q => decide (p.distance q ≤ radius))) := by
  have hmap : s.points.map (fun q => q.distance p) = s.points.map p.distance :=
    List.map_congr_left (fun q _ => Point.distance_comm q p)
  obtain ⟨h1, h2, h3, h4⟩ := PointSet.nearest_distances_smallest p k hk1 s.points [] []
    List.Pairwise.nil (fun d hd => by simp at hd) (by simp) (fun x hx => by simp at hx)
    (by rw [List.nil_append, hmap]; exact hnd)
  rw [List.nil_append, hmap] at h2 h4
  simp only [List.length_nil, Nat.zero_add] at h3
  have hlen : (PointSet.nearest_distances p k s.points []).length = k := by
    rw [h3]; exact Nat.min_eq_left hk2
  unfold PointSet.nearest_k
  simp only [Nat.min_eq_right hk2]
  rw [if_neg (by omega)]
  cases hl : (PointSet.nearest_distances p k s.points []).getLast? with
  | none =>
    rw [List.getLast?_eq_none_iff.1 hl] at hlen
    simp at hlen
    omega
  | some radius =>
    simp only []
    refine ⟨_, radius, rfl, kth_smallest_of_smallest _ _ k hk1 h1 h2 hlen hnd h4 radius hl,
      fun fuel hf => ?_⟩
    simp only [iterator.of_radius_eq _ _ _ hp, skip_while]
    exact enumerate_filtered p radius hp s.points fuel hf

end rbtree

/-- C11 fails as stated, in two ways.  For the stored points `(0,0)`, `(1,1)`,
`(DBL_MAX, DBL_MAX)`, the query point `Point()` and `k = 1`, the smallest distance is `0` and
`nearest(p, k)` of the reference set yields `(1,1)` and `(DBL_MAX, DBL_MAX)`: a query point
equal to `Point()` switches the radius filter off.  For the stored points `(-1,0)`, `(0,-5)`,
`(0,1)`, `(9,0)`, the query point `(0,0)` and `k = 2`, the second smallest of the distances
is that of `(-1,0)` and of `(0,1)`, and `nearest(p, k)` yields all four points. -/
theorem rbtree_nearest_k_not_kth_radius :
    (kth_smallest ((rbtree.PointSet.put_all rbtree.PointSet.empty_set
        [pt 0 0 0, pt 1 1 0, Point.default]).points.map Point.default.distance) 1 = some 0 ∧
      Point.default.distance (pt 1 1 0) > 0 ∧
      ((rbtree.PointSet.put_all rbtree.PointSet.empty_set
        [pt 0 0 0, pt 1 1 0, Point.default]).nearest_k Point.default 1).bind
          (fun its => rbtree.enumerate 4 its.1 its.2) = some [pt 1 1 0, Point.default]) ∧
    ((pt 0 0 0).ne Point.default = true ∧
      (rbtree.PointSet.put_all rbtree.PointSet.empty_set
        [pt (-1) 0 0, pt 0 (-5) 0, pt 0 1 0, pt 9 0 0]).size = 4 ∧
      kth_smallest ((rbtree.PointSet.put_all rbtree.PointSet.empty_set
        [pt (-1) 0 0, pt 0 (-5) 0, pt 0 1 0, pt 9 0 0]).points.map (pt 0 0 0).distance) 2 =
        some ((pt 0 0 0).distance (pt 0 1 0)) ∧
      (pt 0 0 0).distance (pt 0 1 0) < (pt 0 0 0).distance (pt 0 (-5) 0) ∧
      (pt 0 0 0).distance (pt 0 1 0) < (pt 0 0 0).distance (pt 9 0 0) ∧
      ((rbtree.PointSet.put_all rbtree.PointSet.empty_set
        [pt (-1) 0 0, pt 0 (-5) 0, pt 0 1 0, pt 9 0 0]).nearest_k (pt 0 0 0) 2).bind
          (fun its => rbtree.enumerate 5 its.1 its.2) =
        some [pt (-1) 0 0, pt 0 (-5) 0, pt 0 1 0, pt 9 0 0]) := by
  decide

/-- C11, as amended: for a query point `p` other than `Point()`, stored points with pairwise
distinct distances to `p`, and `1 <= k <= size()`, `nearest(p, k)` of the reference set
enumerates exactly the stored points whose distance to `p` is at most the `k`-th smallest of
the stored points' distances to `p`, in ascending `Point` order. -/
theorem rbtree_nearest_k_exact (pts : List Point) (p : Point) (k : Nat)
    (hp : p.ne Point.default = true) (hd : DistinctDistances p pts) (hk1 : 1 ≤ k)
    (hk2 : k ≤ (rbtree.PointSet.put_all rbtree.PointSet.empty_set pts).size) :
    ∃ its radius,
      (rbtree.PointSet.put_all rbtree.PointSet.empty_set pts).nearest_k p k = some its ∧
      kth_smallest ((rbtree.PointSet.put_all rbtree.PointSet.empty_set pts).points.map
        p.distance) k = some radius ∧
      ∀ fuel, (rbtree.PointSet.put_all rbtree.PointSet.empty_set pts).size < fuel →
        rbtree.enumerate fuel its.1 its.2 =
          some ((rbtree.PointSet.put_all rbtree.PointSet.empty_set pts).points.filter
            (fun q => decide (p.distance q ≤ radius))) := by
  apply rbtree.PointSet.nearest_k_radius _ p k hp _ hk1 hk2
  apply List.Nodup.map_on _ (rbtree.nodup_of_sorted _ (rbtree.PointSet.built_sorted pts))
  intro a ha b hb hab
  exact hd a ((rbtree.PointSet.built_mem pts a).1 ha) b ((rbtree.PointSet.built_mem pts b).1 hb) hab

/-- The hypotheses of the amended C11 hold for the points `(-1,0)`, `(0,-5)`, `(0,2)`,
`(9,0)`, the query `(0,0)` and `k = 2`. -/
theorem rbtree_nearest_k_exact_witness :
    ((pt 0 0 0).ne Point.default = true ∧
      DistinctDistances (pt 0 0 0) [pt (-1) 0 0, pt 0 (-5) 0, pt 0 2 0, pt 9 0 0] ∧
      2 ≤ (rbtree.PointSet.put_all rbtree.PointSet.empty_set
        [pt (-1) 0 0, pt 0 (-5) 0, pt 0 2 0, pt 9 0 0]).size) ∧
    ∃ its radius,
      (rbtree.PointSet.put_all rbtree.PointSet.empty_set
        [pt (-1) 0 0, pt 0 (-5) 0, pt 0 2 0, pt 9 0 0]).nearest_k (pt 0 0 0) 2 = some its ∧
      kth_smallest ((rbtree.PointSet.put_all rbtree.PointSet.empty_set
        [pt (-1) 0 0, pt 0 (-5) 0, pt 0 2 0, pt 9 0 0]).points.map (pt 0 0 0).distance) 2 =
        some radius ∧
      ∀ fuel, (rbtree.PointSet.put_all rbtree.PointSet.empty_set
          [pt (-1) 0 0, pt 0 (-5) 0, pt 0 2 0, pt 9 0 0]).size < fuel →
        rbtree.enumerate fuel its.1 its.2 =
          some ((rbtree.PointSet.put_all rbtree.PointSet.empty_set
            [pt (-1) 0 0, pt 0 (-5) 0, pt 0 2 0, pt 9 0 0]).points.filter
            (fun q => decide ((pt 0 0 0).distance q ≤ radius))) :=
  ⟨⟨by decide, by unfold DistinctDistances; decide, by decide⟩,
    rbtree_nearest_k_exact [pt (-1) 0 0, pt 0 (-5) 0, pt 0 2 0, pt 9 0 0] (pt 0 0 0) 2
      (by decide) (by unfold DistinctDistances; decide) (by decide) (by decide)⟩

/-! ## Invariants of reachable sets and the bounds of nearest(point, k) -/

namespace kdtree

theorem Tree.depth_flags_of_axis :
    ∀ (t : Tree) (d : Nat), t.Axis (decide (d % 2 = 0)) →
      ∀ e ∈ t.depth_flags d, (e.2 = true ↔ e.1 % 2 = 0) := by
  intro t
  induction t with
  | nil => intro d _ e he; simp [Tree.depth_flags] at he
  | node a p l r nx nix m ihl ihr =>
    intro d hax e he
    obtain ⟨h1, h2, h3⟩ := hax
    have hnext : (!decide (d % 2 = 0)) = decide ((d + 1) % 2 = 0) := by
      by_cases h : d % 2 = 0
      · have : ¬ (d + 1) % 2 = 0 := by omega
        simp [h, this]
      · have : (d + 1) % 2 = 0 := by omega
        simp [h, this]
    rw [hnext] at h2 h3
    simp only [Tree.depth_flags, List.mem_append, List.mem_cons] at he
    rcases he with he | he | he
    · exact ihl (d + 1) h2 e he
    · rw [he]
      simp [h1]
    · exact ihr (d + 1) h3 e he

theorem nearest_flags_agree (point : Point) (k : Nat) :
    ∀ (t : Tree) (i : Nat) (is_x : Bool) (nd : DistMap) (md : Int), t.Axis is_x →
      ∀ e ∈ nearest_flags t point k i is_x nd md, e.1 = e.2 := by
  intro t
  induction t with
  | nil => intro i is_x nd md _ e he; simp [nearest_flags] at he
  | node a p l r nx nix m ihl ihr =>
    intro i is_x nd md hax e he
    obtain ⟨h1, h2, h3⟩ := hax
    simp only [nearest_flags] at he
    generalize (if md > point.distance p then point.distance p else md) = md1 at he
    generalize (if is_x = true then p.x - point.x else p.y - point.y) = sub at he
    by_cases hs : sub < 0
    · rw [if_pos hs] at he
      rcases List.mem_cons.1 he with he | he
      · rw [he]; exact h1.symm
      · rcases List.mem_append.1 he with he | he
        · exact ihr _ _ _ _ h3 e he
        · by_cases hc : sub * sub < md1 ∨ i + 1 < k
          · rw [if_pos hc] at he
            exact ihl _ _ _ _ h2 e he
          · rw [if_neg hc] at he
            simp at he
    · rw [if_neg hs] at he
      rcases List.mem_cons.1 he with he | he
      · rw [he]; exact h1.symm
      · rcases List.mem_append.1 he with he | he
        · exact ihl _ _ _ _ h2 e he
        · by_cases hc : sub * sub < md1 ∨ i + 1 < k
          · rw [if_pos hc] at he
            exact ihr _ _ _ _ h3 e he
          · rw [if_neg hc] at he
            simp at he

theorem collect_tree (t : Tree) (is_x : Bool) (next : Option Nat) (c : Nat)
    (hwf : t.WF is_x next c) (hsize : 2 ≤ t.size) :
    ∃ b e, t.leftmost = some b ∧ t.rightmost = some e ∧ e.m_next = next ∧
      collect t e.addr t.size b = some t.toList.tail := by
  have hchain : Chain t.cells next := (Tree.linked_iff_chain t next).1 hwf.linked
  have hlen : 2 ≤ t.cells.length := by rw [Tree.cells_length, ← Tree.size_eq_length]; exact hsize
  obtain ⟨b, rest, hcells⟩ : ∃ b rest, t.cells = b :: rest := by
    cases h : t.cells with
    | nil => rw [h] at hlen; simp at hlen
    | cons b rest => exact ⟨b, rest, rfl⟩
  have hrest : rest ≠ [] := by
    intro h; rw [hcells, h] at hlen; simp at hlen
  obtain ⟨e, he⟩ : ∃ e, rest.getLast? = some e := by
    cases h : rest.getLast? with
    | none => exact absurd (List.getLast?_eq_none_iff.1 h) hrest
    | some e => exact ⟨e, rfl⟩
  have hlast : t.cells.getLast? = some e := by
    rw [hcells]
    cases rest with
    | nil => exact absurd rfl hrest
    | cons d ds => rw [List.getLast?_cons_cons]; exact he
  have hcol : collect t e.addr t.size b = some (rest.map Cell.m_point) := by
    apply collect_spec t hwf.nodup e.addr next rest [] b t.size (by simpa using hcells) hrest
      (hcells ▸ hchain) (by rw [he]; rfl)
    rw [Tree.size_eq_length, ← Tree.cells_length, hcells]; simp
  refine ⟨b, e, ?_, ?_, Chain.last_next _ _ _ hchain hlast, ?_⟩
  · rw [Tree.leftmost_eq_head, hcells]; rfl
  · rw [Tree.rightmost_eq_last]; exact hlast
  · rw [hcol, Tree.toList_eq_cells, hcells]; rfl

theorem DistMap.insert_keys_sorted (m : DistMap) (d : Int) (p : Point)
    (h : m.keys.Pairwise (· < ·)) : (m.insert d p).keys.Pairwise (· < ·) := by
  induction m with
  | nil => simp [DistMap.insert, DistMap.keys]
  | cons x xs ih =>
    obtain ⟨k0, q0⟩ := x
    simp only [DistMap.keys, List.map_cons, List.pairwise_cons] at h
    simp only [DistMap.insert]
    by_cases h1 : d < k0
    · rw [if_pos h1]
      simp only [DistMap.keys, List.map_cons, List.pairwise_cons]
      refine ⟨fun y hy => ?_, h⟩
      rcases List.mem_cons.1 hy with hy | hy
      · omega
      · have := h.1 y hy; omega
    · rw [if_neg h1]
      by_cases h2 : d = k0
      · rw [if_pos h2]
        simp only [DistMap.keys, List.map_cons, List.pairwise_cons]
        exact h
      · rw [if_neg h2]
        simp only [DistMap.keys, List.map_cons, List.pairwise_cons]
        refine ⟨fun y hy => ?_, ih h.2⟩
        obtain ⟨e, he, hey⟩ := List.mem_map.1 hy
        rcases DistMap.insert_sub xs d p e he with h3 | h3
        · exact h.1 y (List.mem_map.2 ⟨e, h3, hey⟩)
        · rw [← hey, h3]; omega

theorem DistMap.erase_keys_sorted (m : DistMap) (key : Int)
    (h : m.keys.Pairwise (· < ·)) : (m.erase key).keys.Pairwise (· < ·) :=
  h.sublist (List.Sublist.map _ (List.filter_sublist _))

theorem visit_keys_sorted (nd : DistMap) (k : Nat) (d : Int) (p : Point)
    (h : nd.keys.Pairwise (· < ·)) : (visit nd k d p).keys.Pairwise (· < ·) := by
  unfold visit
  simp only []
  cases nd.rbegin_key with
  | none =>
    simp only []
    split
    · exact DistMap.insert_keys_sorted _ _ _ h
    · exact h
  | some key =>
    simp only []
    by_cases hc : k > 0 ∧ nd.length = k ∧ key > d
    · rw [if_pos hc]
      split
      · exact DistMap.insert_keys_sorted _ _ _ (DistMap.erase_keys_sorted _ _ h)
      · exact DistMap.erase_keys_sorted _ _ h
    · rw [if_neg hc]
      split
      · exact DistMap.insert_keys_sorted _ _ _ h
      · exact h

theorem nearest_rec_keys_sorted (point : Point) (k : Nat) :
    ∀ (t : Tree) (i : Nat) (is_x : Bool) (nd : DistMap) (md : Int),
      nd.keys.Pairwise (· < ·) → (nearest_rec t point k i is_x nd md).keys.Pairwise (· < ·) := by
  intro t
  induction t with
  | nil => intro i is_x nd md h; exact h
  | node a p l r nx nix m ihl ihr =>
    intro i is_x nd md h
    have hv := visit_keys_sorted nd k (point.distance p) p h
    simp only [nearest_rec]
    generalize (if md > point.distance p then point.distance p else md) = md1
    generalize (if is_x = true then p.x - point.x else p.y - point.y) = sub
    by_cases hs : sub < 0
    · rw [if_pos hs]
      by_cases hc : sub * sub < md1 ∨ i + 1 < k
      · rw [if_pos hc]
        exact ihl _ _ _ _ (ihr _ _ _ _ hv)
      · rw [if_neg hc]
        exact ihr _ _ _ _ hv
    · rw [if_neg hs]
      by_cases hc : sub * sub < md1 ∨ i + 1 < k
      · rw [if_pos hc]
        exact ihr _ _ _ _ (ihl _ _ _ _ hv)
      · rw [if_neg hc]
        exact ihl _ _ _ _ hv

/-- What `nearest(point, k)` returns on a set that meets the invariant: stored points, no
point twice, at most `min(k, size())` of them. -/
theorem PointSet.nearest_k_bounds (s : PointSet) (hs : s.Inv) (point : Point) (k : Nat) :
    ∃ res, s.nearest_k point k = some res ∧ res.Inv ∧
      res.root.toList.Perm
        ((nearest_rec s.m_root point k 0 true [] (DBL_MAX * DBL_MAX)).map Prod.snd) ∧
      (∀ q ∈ res.root.toList, q ∈ s.m_root.toList) ∧ res.root.toList.Nodup ∧
      res.root.toList.length ≤ min k s.size := by
  obtain ⟨res, h1, h2, h3⟩ := PointSet.nearest_k_spec s point k
  obtain ⟨hlen, hsub⟩ := nearest_rec_sub point k s.m_root 0 true [] (DBL_MAX * DBL_MAX)
    (Nat.zero_le _)
  have hsorted := nearest_rec_keys_sorted point k s.m_root 0 true [] (DBL_MAX * DBL_MAX)
    (by simp [DistMap.keys])
  have hkeq : (nearest_rec s.m_root point k 0 true [] (DBL_MAX * DBL_MAX)).keys =
      ((nearest_rec s.m_root point k 0 true [] (DBL_MAX * DBL_MAX)).map Prod.snd).map
        point.distance := by
    simp only [DistMap.keys, List.map_map]
    apply List.map_congr_left
    intro e he
    rcases hsub e he with h | h
    · simp at h
    · exact h.2
  have hnd : ((nearest_rec s.m_root point k 0 true [] (DBL_MAX * DBL_MAX)).map Prod.snd).Nodup := by
    have hk : (nearest_rec s.m_root point k 0 true [] (DBL_MAX * DBL_MAX)).keys.Nodup :=
      hsorted.imp (fun h => ne_of_lt h)
    rw [hkeq] at hk
    exact List.Nodup.of_map _ hk
  have hmem : ∀ q ∈ res.root.toList, q ∈ s.m_root.toList := by
    intro q hq
    obtain ⟨e, he, heq⟩ := List.mem_map.1 (h3.mem_iff.1 hq)
    rcases hsub e he with h | h
    · simp at h
    · rw [← heq]; exact h.1
  have hnd2 : res.root.toList.Nodup := h3.nodup_iff.2 hnd
  refine ⟨res, h1, h2, h3, hmem, hnd2, ?_⟩
  have hl1 : res.root.toList.length ≤ k := by
    rw [h3.length_eq, List.length_map]; exact hlen
  have hl2 : res.root.toList.length ≤ s.size := by
    show _ ≤ s.m_size
    rw [hs.m_size_eq]
    exact (List.subperm_of_subset hnd2 hmem).length_le
  omega

end kdtree

/-- C21: in every set reachable by puts, and in every result tree of `range` and of
`nearest`, a node that splits on an axis has only points with a strictly smaller coordinate
on that axis in its left subtree and only points with a coordinate greater than or equal in
its right subtree; `balance` returns a tree with the same points that meets this. -/
theorem kdtree_discriminant_invariant (pts : List Point) (rect : Rect) (p : Point) (k : Nat) :
    ∃ s, PointSet.put_all PointSet.empty_set pts = some s ∧ s.m_root.Ordered ∧
      (∃ res, s.range rect = some res ∧ res.root.Ordered) ∧
      (∃ res, s.nearest_k p k = some res ∧ res.root.Ordered) ∧
      ∀ (t : kdtree.Tree) (is_x : Bool) (next : Option Nat) (c : Nat),
        t.WF is_x next c → 2 ≤ t.size →
          ∃ t1 c1, balance t is_x c = some (t1, c1) ∧ t1.Ordered ∧ t1.toList.Perm t.toList := by
  obtain ⟨s, hs, hinv, _⟩ := kdtree.PointSet.stored_subset pts
  obtain ⟨res1, hr1, hr2, _⟩ := PointSet.range_spec s hinv rect
  obtain ⟨res2, hn1, hn2, _⟩ := PointSet.nearest_k_spec s p k
  refine ⟨s, hs, hinv.wf.ordered, ⟨res1, hr1, hr2.wf.ordered⟩, ⟨res2, hn1, hn2.wf.ordered⟩, ?_⟩
  intro t is_x next c hwf hsize
  obtain ⟨t1, c1, h1, h2, _, h4, _⟩ := balance_spec t is_x next c hwf hsize
  exact ⟨t1, c1, h1, h2.ordered, h4⟩

/-- C23: in every set reachable by puts the nodes have pairwise different addresses, each
node's successor link holds the address of the next node in in-order, the last node's link
is null, `begin()` is the first node in in-order and `end()` is null.  The puts never fail:
on a well-formed subtree of at least two nodes the walk of `balance` from the leftmost node
reads the remaining points in in-order and stops at the rightmost node, and the rebuilt
subtree is linked in in-order again, its last node to the old successor. -/
theorem kdtree_successor_links_in_order (pts : List Point) :
    ∃ s, PointSet.put_all PointSet.empty_set pts = some s ∧
      s.m_root.addrs.Nodup ∧ Chain s.m_root.cells none ∧
      s.m_begin = link_target s.m_root.cells none ∧ s.m_end = none ∧
      ∀ (t : kdtree.Tree) (is_x : Bool) (next : Option Nat) (c : Nat),
        t.WF is_x next c → 2 ≤ t.size →
          (∃ b e, t.leftmost = some b ∧ t.rightmost = some e ∧
            collect t e.addr t.size b = some t.toList.tail) ∧
          ∃ t1 c1, balance t is_x c = some (t1, c1) ∧ Chain t1.cells next ∧
            t1.addrs.Nodup := by
  obtain ⟨s, hs, hinv, _⟩ := kdtree.PointSet.stored_subset pts
  refine ⟨s, hs, hinv.wf.nodup, (Tree.linked_iff_chain _ _).1 hinv.wf.linked, ?_,
    hinv.m_end_null, ?_⟩
  · rw [hinv.m_begin_first, Tree.first_eq]
  · intro t is_x next c hwf hsize
    obtain ⟨b, e, h1, h2, _, h4⟩ := collect_tree t is_x next c hwf hsize
    obtain ⟨t1, c1, h5, h6, _⟩ := balance_spec t is_x next c hwf hsize
    exact ⟨⟨b, e, h1, h2, h4⟩, t1, c1, h5, (Tree.linked_iff_chain _ _).1 h6.linked, h6.nodup⟩

/-- C24: in every set reachable by puts a node at depth `d` stores `is_x = true` exactly
when `d` is even, `balance` called with the flag of a subtree's root returns a subtree whose
flags alternate from that flag, and in every call of the recursive `nearest` that enters a
node the flag passed down equals the flag stored in the node. -/
theorem kdtree_axis_alternates (pts : List Point) :
    ∃ s, PointSet.put_all PointSet.empty_set pts = some s ∧
      (∀ e ∈ s.m_root.depth_flags 0, (e.2 = true ↔ e.1 % 2 = 0)) ∧
      (∀ (p : Point) (k : Nat),
        ∀ e ∈ nearest_flags s.m_root p k 0 true [] (DBL_MAX * DBL_MAX), e.1 = e.2) ∧
      ∀ (t : kdtree.Tree) (d : Nat) (next : Option Nat) (c : Nat),
        t.WF (decide (d % 2 = 0)) next c → 2 ≤ t.size →
          ∃ t1 c1, balance t (decide (d % 2 = 0)) c = some (t1, c1) ∧
            ∀ e ∈ t1.depth_flags d, (e.2 = true ↔ e.1 % 2 = 0) := by
  obtain ⟨s, hs, hinv, _⟩ := kdtree.PointSet.stored_subset pts
  refine ⟨s, hs, Tree.depth_flags_of_axis s.m_root 0 (by simpa using hinv.wf.axis),
    fun p k => nearest_flags_agree p k s.m_root 0 true [] _ hinv.wf.axis, ?_⟩
  intro t d next c hwf hsize
  obtain ⟨t1, c1, h1, h2, _⟩ := balance_spec t _ next c hwf hsize
  exact ⟨t1, c1, h1, Tree.depth_flags_of_axis t1 d h2.axis⟩

/-- C26: the points read from the iterator pair of `nearest(p, k)` are stored points, no
point is read twice, and their number is at most `min(k, size())`; none is read when `k = 0`
or the set is empty. -/
theorem kdtree_nearest_k_safe (pts : List Point) (p : Point) (k : Nat) :
    ∃ s res, PointSet.put_all PointSet.empty_set pts = some s ∧ s.nearest_k p k = some res ∧
      ∀ fuel, s.size < fuel →
        ∃ out, res.points fuel = some out ∧ (∀ q ∈ out, q ∈ s.stored) ∧ out.Nodup ∧
          out.length ≤ min k s.size ∧ (k = 0 ∨ s.empty = true → out = []) := by
  obtain ⟨s, hs, hinv, _⟩ := kdtree.PointSet.stored_subset pts
  obtain ⟨res, h1, h2, _, h4, h5, h6⟩ := PointSet.nearest_k_bounds s hinv p k
  refine ⟨s, res, hs, h1, fun fuel hf => ⟨res.root.toList, ?_, h4, h5, h6, fun h => ?_⟩⟩
  · apply Result.points_eq res h2 fuel
    rw [Tree.size_eq_length]
    omega
  · have hz : min k s.size = 0 := by
      rcases h with h | h
      · simp [h]
      · have hr : s.m_root = kdtree.Tree.nil := by simpa [PointSet.empty] using h
        have : s.size = 0 := by
          show s.m_size = 0
          rw [hinv.m_size_eq, hr]; rfl
        simp [this]
    exact List.length_eq_zero.1 (by omega)

namespace kdtree

theorem Tree.Weighted.weight_eq_size : ∀ (t : Tree), t.Weighted → t.weight = t.size := by
  intro t
  induction t with
  | nil => intro _; rfl
  | node a p l r nx nix m ihl ihr =>
    intro h
    obtain ⟨h1, h2, h3⟩ := h
    simp only [Tree.weight, Tree.size]
    rw [h1, ihl h2, ihr h3]
    omega

theorem put_with_weighted (bal : Tree → Bool → Nat → Option (Tree × Nat)) (b : Bool)
    (hbal : b = true → BalSpec bal)
    (hbalW : b = true → ∀ (t : Tree) (is_x : Bool) (c : Nat) (t1 : Tree) (c1 : Nat),
      bal t is_x c = some (t1, c1) → t1.Weighted) :
    ∀ (t : Tree) (point : Point) (is_x : Bool) (next : Option Nat) (c : Nat),
      t.WF is_x next c → t.Weighted →
      ∀ (t1 : Tree) (c1 : Nat), put_with bal t point is_x next b c = some (t1, c1) →
        t1.Weighted := by
  intro t
  induction t with
  | nil =>
    intro point is_x next c _ _ t1 c1 hput
    simp only [put_with, Option.some.injEq, Prod.mk.injEq] at hput
    rw [← hput.1]
    exact ⟨rfl, trivial, trivial⟩
  | node a p l r nx nix m ihl ihr =>
    intro point is_x next c hwf hw t1 c1 hput
    obtain ⟨hm, hwl, hwr⟩ := hw
    obtain ⟨_, hl, hr, _⟩ := (Tree.WF_node_iff a p l r nx nix m is_x next c).1 hwf
    simp only [put_with] at hput
    by_cases hcond : ((decide (point.x < p.x) && nix) || (decide (point.y < p.y) && !nix)) = true
    · rw [if_pos hcond] at hput
      obtain ⟨l1, c2, hput1, _, _, hperm, _⟩ :=
        put_with_spec bal b hbal l point (!is_x) (some a) c hl
      have hl1 := ihl point (!is_x) (some a) c hl hwl l1 c2 hput1
      rw [hput1] at hput
      simp only [] at hput
      by_cases hb : (b && exceeds_alpha l1.weight (m + 1)) = true
      · rw [if_pos hb] at hput
        have hbt : b = true := by
          cases b
          · simp at hb
          · rfl
        exact hbalW hbt _ _ _ _ _ hput
      · rw [if_neg hb] at hput
        simp only [Option.some.injEq, Prod.mk.injEq] at hput
        rw [← hput.1]
        refine ⟨?_, hl1, hwr⟩
        have h1 := Tree.Weighted.weight_eq_size l1 hl1
        have h2 := Tree.Weighted.weight_eq_size l hwl
        have h3 := hperm.length_eq
        rw [Tree.size_eq_length] at h1 h2
        simp only [List.length_cons] at h3
        omega
    · rw [if_neg hcond] at hput
      obtain ⟨r1, c2, hput1, _, _, hperm, _⟩ :=
        put_with_spec bal b hbal r point (!is_x) next c hr
      have hr1 := ihr point (!is_x) next c hr hwr r1 c2 hput1
      rw [hput1] at hput
      simp only [] at hput
      by_cases hb : (b && exceeds_alpha r1.weight (m + 1)) = true
      · rw [if_pos hb] at hput
        have hbt : b = true := by
          cases b
          · simp at hb
          · rfl
        exact hbalW hbt _ _ _ _ _ hput
      · rw [if_neg hb] at hput
        simp only [Option.some.injEq, Prod.mk.injEq] at hput
        rw [← hput.1]
        refine ⟨?_, hwl, hr1⟩
        have h1 := Tree.Weighted.weight_eq_size r1 hr1
        have h2 := Tree.Weighted.weight_eq_size r hwr
        have h3 := hperm.length_eq
        rw [Tree.size_eq_length] at h1 h2
        simp only [List.length_cons] at h3
        omega

theorem build_tree_weighted (temp : List Point) :
    ∀ (fuel : Nat) (root : Tree) (is_x : Bool) (last : Option Nat) (left right c : Nat),
      right - left < fuel → right ≤ temp.length → root.WF is_x last c → root.Weighted →
      ∀ (t1 : Tree) (c1 : Nat), build_tree temp fuel root is_x last left right c = some (t1, c1) →
        t1.Weighted := by
  intro fuel
  induction fuel with
  | zero => intro root is_x last left right c h; omega
  | succ fuel ih =>
    intro root is_x last left right c hfuel hlen hwf hw t1 c1 hb
    rw [build_tree] at hb
    by_cases hmid : (left + right) / 2 ≥ left ∧ (left + right) / 2 < right
    · rw [if_pos hmid] at hb
      have hlt : (left + right) / 2 < temp.length := by omega
      have hget : temp[(left + right) / 2]? = some temp[(left + right) / 2] :=
        List.getElem?_eq_getElem hlt
      rw [hget] at hb
      simp only [] at hb
      obtain ⟨root1, c2, hp1, hwf1, _⟩ :=
        put_plain_spec root temp[(left + right) / 2] is_x last c hwf
      have hw1 : root1.Weighted :=
        put_with_weighted _ false (by simp) (by simp) root _ is_x last c hwf hw root1 c2 hp1
      rw [hp1] at hb
      simp only [] at hb
      obtain ⟨root2, c3, hb2, hwf2, _⟩ :=
        build_tree_spec temp fuel root1 is_x last left ((left + right) / 2) c2 (by omega)
          (by omega) hwf1
      have hw2 := ih root1 is_x last left ((left + right) / 2) c2 (by omega) (by omega) hwf1 hw1
        root2 c3 hb2
      rw [hb2] at hb
      simp only [] at hb
      exact ih root2 is_x last ((left + right) / 2 + 1) right c3 (by omega) hlen hwf2 hw2 t1 c1 hb
    · rw [if_neg hmid] at hb
      simp only [Option.some.injEq, Prod.mk.injEq] at hb
      rw [← hb.1]
      exact hw

theorem balance_weighted (t : Tree) (is_x : Bool) (c : Nat) (t1 : Tree) (c1 : Nat)
    (h : balance t is_x c = some (t1, c1)) : t1.Weighted := by
  unfold balance at h
  cases hl : t.leftmost with
  | none => rw [hl] at h; simp at h
  | some b =>
    cases hr : t.rightmost with
    | none => rw [hl, hr] at h; simp at h
    | some e =>
      rw [hl, hr] at h
      simp only [] at h
      cases hc : collect t e.addr t.size b with
      | none => rw [hc] at h; simp at h
      | some rest =>
        rw [hc] at h
        simp only [] at h
        exact build_tree_weighted (b.m_point :: rest) (rest.length + 2) Tree.nil is_x e.m_next 0
          (rest.length + 1) c (by omega) (by simp) (Tree.WF_nil _ _ _) trivial t1 c1 h

theorem put_weighted (t : Tree) (point : Point) (is_x : Bool) (next : Option Nat) (b : Bool)
    (c : Nat) (hwf : t.WF is_x next c) (hw : t.Weighted) (t1 : Tree) (c1 : Nat)
    (h : put t point is_x next b c = some (t1, c1)) : t1.Weighted :=
  put_with_weighted balance b (fun _ => balance_spec)
    (fun _ t is_x c t1 c1 h => balance_weighted t is_x c t1 c1 h) t point is_x next c hwf hw t1 c1 h

theorem PointSet.put_public_weighted (s : PointSet) (hs : s.Inv) (hw : s.m_root.Weighted)
    (p : Point) (s1 : PointSet) (h : s.put p = some s1) : s1.m_root.Weighted := by
  unfold PointSet.put at h
  by_cases hc : s.contains p = true
  · rw [if_pos hc] at h
    simp only [Option.some.injEq] at h
    rw [← h]; exact hw
  · rw [if_neg hc] at h
    cases hroot : s.m_root with
    | nil =>
      rw [hroot] at h
      simp only [Option.some.injEq] at h
      rw [← h]
      exact ⟨rfl, trivial, trivial⟩
    | node a q l r nx nix m =>
      rw [hroot] at h
      simp only [] at h
      have hwf := hs.wf
      rw [hs.m_end_null] at h
      rw [hroot] at hwf hw
      cases hput : kdtree.put (Tree.node a q l r nx nix m) p true none true s.alloc with
      | none => rw [hput] at h; simp at h
      | some res =>
        obtain ⟨root1, c1⟩ := res
        rw [hput] at h
        simp only [Option.some.injEq] at h
        rw [← h]
        exact put_weighted _ p true none true s.alloc hwf hw root1 c1 hput

theorem PointSet.put_all_weighted (pts : List Point) :
    ∀ (s : PointSet), s.Inv → s.m_root.Weighted →
      ∀ s1, s.put_all pts = some s1 → s1.m_root.Weighted := by
  induction pts with
  | nil =>
    intro s _ hw s1 h
    simp only [PointSet.put_all, Option.some.injEq] at h
    rw [← h]; exact hw
  | cons p ps ih =>
    intro s hs hw s1 h
    obtain ⟨s2, hput, hs2, _⟩ := PointSet.put_public_spec s hs p
    rw [PointSet.put_all, hput] at h
    simp only [] at h
    exact ih s2 hs2 (PointSet.put_public_weighted s hs hw p s2 hput) s1 h

end kdtree

/-- C22: in every set reachable by puts every node satisfies `m = 1 + m(left) + m(right)`,
an absent child counting as `0`, and the weight of the root equals `size()`; on a well-formed
subtree of at least two nodes `balance` returns a tree that satisfies it at every node and
whose root has the number of nodes of the subtree as its weight. -/
theorem kdtree_weight_invariant (pts : List Point) :
    ∃ s, PointSet.put_all PointSet.empty_set pts = some s ∧ s.m_root.Weighted ∧
      s.m_root.weight = s.size ∧
      ∀ (t : kdtree.Tree) (is_x : Bool) (next : Option Nat) (c : Nat),
        t.WF is_x next c → 2 ≤ t.size →
          ∃ t1 c1, balance t is_x c = some (t1, c1) ∧ t1.Weighted ∧ t1.weight = t.size := by
  obtain ⟨s, hs, hinv, _⟩ := kdtree.PointSet.stored_subset pts
  have hw : s.m_root.Weighted :=
    PointSet.put_all_weighted pts PointSet.empty_set PointSet.Inv.empty_set trivial s hs
  refine ⟨s, hs, hw, ?_, ?_⟩
  · rw [Tree.Weighted.weight_eq_size _ hw, Tree.size_eq_length]
    exact hinv.m_size_eq.symm
  · intro t is_x next c hwf hsize
    obtain ⟨t1, c1, h1, _, _, h4, _⟩ := balance_spec t is_x next c hwf hsize
    have hw1 := balance_weighted t is_x c t1 c1 h1
    refine ⟨t1, c1, h1, hw1, ?_⟩
    rw [Tree.Weighted.weight_eq_size _ hw1, Tree.size_eq_length, Tree.size_eq_length,
      h4.length_eq]

/-! ## Distance to a rectangle and its corners -/

theorem sq_lt_of_le_of_ne {d a b : Int} (h0 : 0 ≤ d) (h1 : d ≤ a ∨ d ≤ -a) (h2 : b ≠ 0) :
    d * d < a * a + b * b := by
  have hb : 0 < b * b := by
    rcases lt_or_gt_of_ne h2 with h | h
    · nlinarith
    · nlinarith
  have ha : d * d ≤ a * a := by
    rcases h1 with h | h
    · nlinarith
    · nlinarith
  omega

/-- C25 fails as stated: the point `(4,5)` lies outside the rectangle from `(0,0)` to `(1,1)`
on both axes, the nearest corner is `(1,1)` at distance `5`, and `distance((4,5))` is `3`. -/
theorem rect_distance_below_nearest_corner :
    (Rect.mk (pt 0 0 0) (pt 1 1 0)).xmin ≤ (Rect.mk (pt 0 0 0) (pt 1 1 0)).xmax ∧
    (Rect.mk (pt 0 0 0) (pt 1 1 0)).ymin ≤ (Rect.mk (pt 0 0 0) (pt 1 1 0)).ymax ∧
    (Rect.mk (pt 0 0 0) (pt 1 1 0)).xmax < (pt 4 5 0).x ∧
    (Rect.mk (pt 0 0 0) (pt 1 1 0)).ymax < (pt 4 5 0).y ∧
    pt 1 1 0 ∈ (Rect.mk (pt 0 0 0) (pt 1 1 0)).corners ∧
    (∀ c ∈ (Rect.mk (pt 0 0 0) (pt 1 1 0)).corners,
      (pt 4 5 0).distance (pt 1 1 0) ≤ (pt 4 5 0).distance c) ∧
    (pt 4 5 0).distance (pt 1 1 0) = dbl 5 0 * dbl 5 0 ∧
    (Rect.mk (pt 0 0 0) (pt 1 1 0)).distance (pt 4 5 0) = dbl 3 0 ∧
    dbl 3 0 < dbl 5 0 := by
  decide

/-- C25, as amended: for a rectangle with `xmin <= xmax` and `ymin <= ymax` and a point
outside it on both axes, `distance(p)` is not negative and is less than the Euclidean
distance from `p` to every corner of the rectangle, the nearest one included (the distances
are compared through their squares). -/
theorem rect_distance_underestimates_corner (r : Rect) (p : Point)
    (hx : r.xmin ≤ r.xmax) (hy : r.ymin ≤ r.ymax)
    (hox : p.x < r.xmin ∨ r.xmax < p.x) (hoy : p.y < r.ymin ∨ r.ymax < p.y) :
    0 ≤ r.distance p ∧ ∀ c ∈ r.corners, r.distance p * r.distance p < p.distance c := by
  have hpos := DBL_MAX_pos
  obtain ⟨m, lt, tp, rt, bt, hd, h1, h2, h3, h4, hm, s1, s2, s3, s4⟩ := Rect.distance_slots r p
  have hdm : 0 ≤ r.distance p ∧ r.distance p ≤ m := by
    rw [hd]
    by_cases hlt : m < DBL_MAX
    · rw [if_pos hlt]; omega
    · rw [if_neg hlt]; omega
  refine ⟨hdm.1, fun c hc => ?_⟩
  have hxa : r.distance p ≤ r.xmin - p.x ∧ r.distance p ≤ r.xmax - p.x ∨
      r.distance p ≤ p.x - r.xmin ∧ r.distance p ≤ p.x - r.xmax := by omega
  have hya : p.y ≠ r.ymin ∧ p.y ≠ r.ymax := by omega
  simp only [Rect.corners, List.mem_cons, List.mem_singleton, List.mem_nil_iff, or_false] at hc
  simp only [Point.distance]
  have hpx : p.px = p.x := rfl
  have hpy : p.py = p.y := rfl
  rcases hc with hc | hc | hc | hc <;>
    · rw [hc]
      simp only [Point.x, Point.y]
      apply sq_lt_of_le_of_ne hdm.1
      · simp only [Point.x] at hxa; omega
      · simp only [Point.y] at hya; omega

/-- The hypotheses of the amended C25 hold for the rectangle from `(0,0)` to `(1,1)` and the
point `(4,5)`. -/
theorem rect_distance_underestimates_corner_witness :
    ((Rect.mk (pt 0 0 0) (pt 1 1 0)).xmax < (pt 4 5 0).x ∧
      (Rect.mk (pt 0 0 0) (pt 1 1 0)).ymax < (pt 4 5 0).y) ∧
    0 ≤ (Rect.mk (pt 0 0 0) (pt 1 1 0)).distance (pt 4 5 0) ∧
    ∀ c ∈ (Rect.mk (pt 0 0 0) (pt 1 1 0)).corners,
      (Rect.mk (pt 0 0 0) (pt 1 1 0)).distance (pt 4 5 0) *
        (Rect.mk (pt 0 0 0) (pt 1 1 0)).distance (pt 4 5 0) < (pt 4 5 0).distance c :=
  ⟨by decide, rect_distance_underestimates_corner (Rect.mk (pt 0 0 0) (pt 1 1 0)) (pt 4 5 0)
    (by decide) (by decide) (by decide) (by decide)⟩

/-! ## Counting the distances within the radius -/

theorem sorted_split_at (S : List Int) (k : Nat) (v : Int) (hk : 1 ≤ k)
    (h : S[k - 1]? = some v) : S = S.take (k - 1) ++ v :: S.drop k := by
  have hlt : k - 1 < S.length := by
    rcases List.getElem?_eq_some_iff.1 h with ⟨hl, _⟩
    exact hl
  have hv : S[k - 1] = v := by
    rcases List.getElem?_eq_some_iff.1 h with ⟨_, hv⟩
    exact hv
  have h1 := (List.take_append_drop (k - 1) S).symm
  have h2 : S.drop (k - 1) = v :: S.drop k := by
    rw [List.drop_eq_getElem_cons hlt, hv]
    congr 2
    omega
  rw [h2] at h1
  exact h1

theorem kth_smallest_count (ds : List Int) (k : Nat) (v : Int) (h : kth_smallest ds k = some v) :
    k ≤ ds.countP (fun x => decide (x ≤ v)) := by
  unfold kth_smallest at h
  by_cases hk : k = 0
  · omega
  · rw [if_neg hk] at h
    have hsplit := sorted_split_at _ k v (by omega) h
    have hsorted : (ds.insertionSort (fun a b => a ≤ b)).Pairwise (fun a b => a ≤ b) :=
      List.sorted_insertionSort _ _
    have hperm : (ds.insertionSort (fun a b => a ≤ b)).Perm ds := List.perm_insertionSort _ _
    have hlen : ((ds.insertionSort (fun a b => a ≤ b)).take (k - 1)).length = k - 1 := by
      rw [List.length_take]
      rcases List.getElem?_eq_some_iff.1 h with ⟨hl, _⟩
      omega
    rw [← hperm.countP_eq]
    rw [hsplit, List.pairwise_append] at hsorted
    rw [hsplit, List.countP_append, List.countP_cons]
    have hall : List.countP (fun x => decide (x ≤ v))
        ((ds.insertionSort (fun a b => a ≤ b)).take (k - 1)) = k - 1 := by
      have hcl : List.countP (fun x => decide (x ≤ v))
          ((ds.insertionSort (fun a b => a ≤ b)).take (k - 1)) =
          ((ds.insertionSort (fun a b => a ≤ b)).take (k - 1)).length := by
        rw [List.countP_eq_length]
        intro a ha
        simpa using hsorted.2.2 a ha v (by simp)
      rw [hcl, hlen]
    rw [hall]
    simp
    omega

theorem kth_smallest_le_of_count (ds : List Int) (k : Nat) (v r : Int)
    (h : kth_smallest ds k = some v) (hc : k ≤ ds.countP (fun x => decide (x ≤ r))) :
    v ≤ r := by
  by_contra hlt
  unfold kth_smallest at h
  by_cases hk : k = 0
  · rw [if_pos hk] at h; cases h
  · rw [if_neg hk] at h
    have hsplit := sorted_split_at _ k v (by omega) h
    have hsorted : (ds.insertionSort (fun a b => a ≤ b)).Pairwise (fun a b => a ≤ b) :=
      List.sorted_insertionSort _ _
    have hperm : (ds.insertionSort (fun a b => a ≤ b)).Perm ds := List.perm_insertionSort _ _
    have hlen : ((ds.insertionSort (fun a b => a ≤ b)).take (k - 1)).length = k - 1 := by
      rw [List.length_take]
      rcases List.getElem?_eq_some_iff.1 h with ⟨hl, _⟩
      omega
    rw [← hperm.countP_eq] at hc
    rw [hsplit, List.pairwise_append, List.pairwise_cons] at hsorted
    rw [hsplit, List.countP_append, List.countP_cons] at hc
    have h1 : List.countP (fun x => decide (x ≤ r))
        ((ds.insertionSort (fun a b => a ≤ b)).take (k - 1)) ≤ k - 1 := by
      exact (List.countP_le_length _).trans (le_of_eq hlen)
    have h2 : List.countP (fun x => decide (x ≤ r))
        ((ds.insertionSort (fun a b => a ≤ b)).drop k) = 0 := by
      rw [List.countP_eq_zero]
      intro a ha
      have := hsorted.2.1.1 a ha
      simp only [decide_eq_true_eq]
      omega
    have h3 : ¬ v ≤ r := hlt
    simp only [h3, decide_False, Bool.false_eq_true, ↓reduceIte] at hc
    omega

theorem kth_smallest_some (ds : List Int) (k : Nat) (hk1 : 1 ≤ k) (hk2 : k ≤ ds.length) :
    ∃ v, kth_smallest ds k = some v := by
  unfold kth_smallest
  rw [if_neg (by omega)]
  have hl : (ds.insertionSort (fun a b => a ≤ b)).length = ds.length := List.length_insertionSort _ _
  exact ⟨_, List.getElem?_eq_getElem (by omega)⟩

namespace rbtree

theorem count_ge_of_sorted_sub (ds seen : List Int) (M : Int) (hs : ds.Pairwise (· < ·))
    (hsub : ∀ d ∈ ds, d ∈ seen) (hle : ∀ d ∈ ds, d ≤ M) :
    ds.length ≤ seen.countP (fun x => decide (x ≤ M)) := by
  rw [List.countP_eq_length_filter]
  apply (List.subperm_of_subset (hs.imp (fun h => ne_of_lt h)) _).length_le
  intro d hd
  rw [List.mem_filter]
  exact ⟨hsub d hd, by simpa using hle d hd⟩

theorem countP_le_mono (seen : List Int) (M N : Int) (h : M ≤ N) :
    seen.countP (fun x => decide (x ≤ M)) ≤ seen.countP (fun x => decide (x ≤ N)) := by
  apply List.countP_mono_left
  intro x _ hx
  simp only [decide_eq_true_eq] at hx ⊢
  omega

theorem PointSet.nearest_distances_count_step (p : Point) (k : Nat) (hk : 1 ≤ k) (q : Point)
    (qs : List Point) (ds seen : List Int)
    (hs : ds.Pairwise (· < ·)) (hsub : ∀ d ∈ ds, d ∈ seen) (hlen : ds.length ≤ k)
    (hcnt : ∀ M, ds.getLast? = some M →
      min k seen.length ≤ seen.countP (fun x => decide (x ≤ M)))
    (hemp : ds = [] → seen = []) :
    ∃ ds1, PointSet.nearest_distances p k (q :: qs) ds = PointSet.nearest_distances p k qs ds1 ∧
      ds1.Pairwise (· < ·) ∧ (∀ d ∈ ds1, d ∈ q.distance p :: seen) ∧ ds1.length ≤ k ∧
      (∀ M, ds1.getLast? = some M →
        min k (q.distance p :: seen).length ≤
          (q.distance p :: seen).countP (fun x => decide (x ≤ M))) ∧
      ds1 ≠ [] := by
  have hnew : ∀ (base : List Int), base.Pairwise (· < ·) → (∀ d ∈ base, d ∈ seen) →
      base.length < k →
      (∀ M, (dset_emplace base (q.distance p)).getLast? = some M →
        min k (seen.length + 1) ≤ 1 + seen.countP (fun x => decide (x ≤ M))) →
      dset_emplace base (q.distance p) ≠ [] ∧
      (dset_emplace base (q.distance p)).Pairwise (· < ·) ∧
      (∀ d ∈ dset_emplace base (q.distance p), d ∈ q.distance p :: seen) ∧
      (dset_emplace base (q.distance p)).length ≤ k ∧
      (∀ M, (dset_emplace base (q.distance p)).getLast? = some M →
        min k (q.distance p :: seen).length ≤
          (q.distance p :: seen).countP (fun x => decide (x ≤ M))) := by
    intro base hbs hbsub hblen hbcnt
    have hsorted := dset_emplace_sorted base (q.distance p) hbs
    have hmemd : q.distance p ∈ dset_emplace base (q.distance p) :=
      (mem_dset_emplace _ _ _).2 (Or.inr rfl)
    refine ⟨List.ne_nil_of_mem hmemd, hsorted, fun d hd => ?_, ?_, fun M hM => ?_⟩
    · rcases (mem_dset_emplace _ _ _).1 hd with h | h
      · exact List.mem_cons_of_mem _ (hbsub d h)
      · rw [h]; exact List.mem_cons_self _ _
    · have := dset_emplace_length base (q.distance p); omega
    · have hle := sorted_le_last _ hsorted M hM _ hmemd
      rw [List.countP_cons, List.length_cons]
      simp only [hle, decide_True, ↓reduceIte]
      have := hbcnt M hM
      omega
  by_cases hfull : ds.length = k
  · have hne : ds ≠ [] := by
      intro h; rw [h] at hfull; simp at hfull; omega
    rcases List.eq_nil_or_concat ds with h | ⟨front, last, hds0⟩
    · exact absurd h hne
    · have hds : ds = front ++ [last] := by rw [hds0, List.concat_eq_append]
      have hgl : ds.getLast? = some last := by rw [hds]; simp
      have hdl : ds.dropLast = front := by rw [hds]; simp
      have hfl : front.length + 1 = k := by rw [← hfull, hds]; simp
      have hfront_sub : ∀ x ∈ front, x ∈ ds := by intro x hx; rw [hds]; simp [hx]
      have hfront_sorted : front.Pairwise (· < ·) := by
        rw [hds, List.pairwise_append] at hs
        exact hs.1
      have hle_last : ∀ x ∈ ds, x ≤ last := sorted_le_last ds hs last hgl
      by_cases hlt : last < q.distance p
      · refine ⟨ds, ?_, hs, fun d hd => List.mem_cons_of_mem _ (hsub d hd), hlen, fun M hM => ?_,
          hne⟩
        · rw [PointSet.nearest_distances, hgl, if_pos ⟨hfull, by simpa using hlt⟩]
        · rw [hgl] at hM
          simp only [Option.some.injEq] at hM
          subst hM
          have h1 := count_ge_of_sorted_sub ds seen last hs hsub hle_last
          rw [List.countP_cons]
          have : min k (q.distance p :: seen).length ≤ k := Nat.min_le_left _ _
          omega
      · obtain ⟨h1, h2, h3, h4, h5⟩ := hnew front hfront_sorted
          (fun d hd => hsub d (hfront_sub d hd)) (by omega) (fun M hM => by
            have hsorted := dset_emplace_sorted front (q.distance p) hfront_sorted
            have hc := count_ge_of_sorted_sub front seen M hfront_sorted
              (fun d hd => hsub d (hfront_sub d hd))
              (fun d hd => sorted_le_last _ hsorted M hM d ((mem_dset_emplace _ _ _).2 (Or.inl hd)))
            have : min k (seen.length + 1) ≤ k := Nat.min_le_left _ _
            omega)
        refine ⟨dset_emplace front (q.distance p), ?_, h2, h3, h4, h5, h1⟩
        rw [PointSet.nearest_distances, hgl, if_neg (by simp [hlt]), if_pos hfull, hdl]
  · have hlt : ds.length < k := by omega
    obtain ⟨h1, h2, h3, h4, h5⟩ := hnew ds hs hsub hlt (fun M hM => by
      have hsorted := dset_emplace_sorted ds (q.distance p) hs
      cases hgl : ds.getLast? with
      | none =>
        have hnil := hemp (List.getLast?_eq_none_iff.1 hgl)
        rw [hnil]
        simp only [List.length_nil, Nat.zero_add]
        have : min k 1 ≤ 1 := Nat.min_le_right _ _
        omega
      | some M0 =>
        have h0 := hcnt M0 hgl
        have hM0 : M0 ≤ M := sorted_le_last _ hsorted M hM M0
          ((mem_dset_emplace _ _ _).2 (Or.inl (List.mem_of_getLast?_eq_some hgl)))
        have hmono := countP_le_mono seen M0 M hM0
        omega)
    refine ⟨dset_emplace ds (q.distance p), ?_, h2, h3, h4, h5, h1⟩
    rw [PointSet.nearest_distances, if_neg (fun h => hfull h.1), if_neg hfull]

theorem PointSet.nearest_distances_count (p : Point) (k : Nat) (hk : 1 ≤ k) :
    ∀ (rest : List Point) (ds seen : List Int),
      ds.Pairwise (· < ·) → (∀ d ∈ ds, d ∈ seen) → ds.length ≤ k →
      (∀ M, ds.getLast? = some M →
        min k seen.length ≤ seen.countP (fun x => decide (x ≤ M))) →
      (ds = [] → seen = []) →
      (∀ M, (PointSet.nearest_distances p k rest ds).getLast? = some M →
        min k (seen.length + rest.length) ≤
          (rest.map (fun q => q.distance p) ++ seen).countP (fun x => decide (x ≤ M))) ∧
      (PointSet.nearest_distances p k rest ds = [] → seen = [] ∧ rest = []) := by
  intro rest
  induction rest with
  | nil =>
    intro ds seen _ _ _ hcnt hemp
    simp only [PointSet.nearest_distances, List.map_nil, List.nil_append, List.length_nil,
      Nat.add_zero]
    exact ⟨hcnt, fun h => ⟨hemp h, trivial⟩⟩
  | cons q qs ih =>
    intro ds seen hs hsub hlen hcnt hemp
    obtain ⟨ds1, hstep, h1, h2, h3, h4, h5⟩ :=
      PointSet.nearest_distances_count_step p k hk q qs ds seen hs hsub hlen hcnt hemp
    obtain ⟨h6, h7⟩ := ih ds1 (q.distance p :: seen) h1 h2 h3 h4 (fun h => absurd h h5)
    rw [hstep]
    refine ⟨fun M hM => ?_, fun h => ?_⟩
    · have h8 := h6 M hM
      have hperm : (qs.map (fun q => q.distance p) ++ q.distance p :: seen).Perm
          ((q :: qs).map (fun q => q.distance p) ++ seen) := by
        rw [List.map_cons, List.cons_append]
        exact List.perm_middle
      rw [← hperm.countP_eq]
      simp only [List.length_cons] at h8 ⊢
      have : seen.length + (qs.length + 1) = seen.length + 1 + qs.length := by omega
      rw [this]
      exact h8
    · have := (h7 h).1
      simp at this

/-- The radius of `nearest(p, k)` of the reference set: at least `k` stored points are within
it. -/
theorem PointSet.nearest_k_radius_count (s : PointSet) (p : Point) (k : Nat) (hk1 : 1 ≤ k)
    (hk2 : k ≤ s.size) :
    ∃ radius, (PointSet.nearest_distances p k s.points []).getLast? = some radius ∧
      k ≤ (s.points.map p.distance).countP (fun x => decide (x ≤ radius)) := by
  have hmap : s.points.map (fun q => q.distance p) = s.points.map p.distance :=
    List.map_congr_left (fun q _ => Point.distance_comm q p)
  obtain ⟨h1, h2⟩ := PointSet.nearest_distances_count p k hk1 s.points [] []
    List.Pairwise.nil (fun d hd => by simp at hd) (Nat.zero_le _) (fun M hM => by simp at hM)
    (fun _ => rfl)
  cases hl : (PointSet.nearest_distances p k s.points []).getLast? with
  | none =>
    have h3 := (h2 (List.getLast?_eq_none_iff.1 hl)).2
    rw [PointSet.size, h3] at hk2
    simp at hk2
    omega
  | some radius =>
    refine ⟨radius, rfl, ?_⟩
    have h3 := h1 radius hl
    rw [List.append_nil, hmap] at h3
    simp only [List.length_nil, Nat.zero_add] at h3
    rw [PointSet.size] at hk2
    omega

end rbtree

/-! ## The reference nearest(point, k) covers the k nearest -/

namespace rbtree

theorem PointSet.nearest_k_covers (s : PointSet) (p : Point) (k : Nat) (hk1 : 1 ≤ k)
    (hk2 : k ≤ s.size) :
    ∃ its v radius, s.nearest_k p k = some its ∧
      kth_smallest (s.points.map p.distance) k = some v ∧
      (PointSet.nearest_distances p k s.points []).getLast? = some radius ∧ v ≤ radius ∧
      ∀ fuel, s.size < fuel →
        ∃ out, enumerate fuel its.1 its.2 = some out ∧
          (∀ q ∈ s.points, p.distance q ≤ v → q ∈ out) ∧ k ≤ out.length := by
  obtain ⟨radius, hl, hcount⟩ := PointSet.nearest_k_radius_count s p k hk1 hk2
  obtain ⟨v, hv⟩ := kth_smallest_some (s.points.map p.distance) k hk1
    (by rw [List.length_map]; exact hk2)
  have hvr : v ≤ radius := kth_smallest_le_of_count _ k v radius hv hcount
  have hcount2 : k ≤ s.points.countP (fun q => decide (p.distance q ≤ radius)) := by
    rw [List.countP_map] at hcount
    exact hcount
  unfold PointSet.nearest_k
  simp only [Nat.min_eq_right hk2]
  rw [if_neg (by omega)]
  simp only [hl]
  refine ⟨_, v, radius, rfl, hv, rfl, hvr, fun fuel hf => ?_⟩
  by_cases hp : p.ne Point.default = true
  · refine ⟨s.points.filter (fun q => decide (p.distance q ≤ radius)), ?_, fun q hq hle => ?_, ?_⟩
    · simp only [iterator.of_radius_eq _ _ _ hp, skip_while]
      exact enumerate_filtered p radius hp s.points fuel hf
    · rw [List.mem_filter]
      exact ⟨hq, by simp only [decide_eq_true_eq]; omega⟩
    · rw [← List.countP_eq_length_filter]
      exact hcount2
  · have hp2 : p.ne Point.default = false := by simpa using hp
    have hof : iterator.of_radius [] p radius = ⟨[], Rect.default, p, radius⟩ := rfl
    rw [hof]
    cases hpts : s.points with
    | nil =>
      rw [PointSet.size, hpts] at hk2
      simp at hk2
      omega
    | cons q0 rest =>
      rw [hpts] at hcount2
      rw [PointSet.size, hpts] at hf
      simp only [List.length_cons] at hf
      by_cases hc : p.distance q0 > radius
      · have hit : iterator.of_radius (q0 :: rest) p radius =
            ⟨rest, Rect.default, p, radius⟩ := by
          simp only [iterator.of_radius]
          rw [if_pos hc]
          simp [iterator.incr, next_point, Rect.default_ne_default, hp2]
        rw [hit]
        refine ⟨rest, enumerate_unfiltered p radius hp2 rest fuel (by omega), fun q hq hle => ?_, ?_⟩
        · rcases List.mem_cons.1 hq with h | h
          · rw [h] at hle; omega
          · exact h
        · rw [List.countP_cons] at hcount2
          have hnot : ¬ p.distance q0 ≤ radius := by omega
          simp only [hnot, decide_False, Bool.false_eq_true, ↓reduceIte, Nat.add_zero] at hcount2
          exact hcount2.trans (List.countP_le_length _)
      · have hit : iterator.of_radius (q0 :: rest) p radius =
            ⟨q0 :: rest, Rect.default, p, radius⟩ := by
          simp only [iterator.of_radius]
          rw [if_neg hc]
        rw [hit]
        refine ⟨q0 :: rest, enumerate_unfiltered p radius hp2 (q0 :: rest) fuel
          (by simp only [List.length_cons]; omega), fun q hq _ => hq, ?_⟩
        exact hcount2.trans (List.countP_le_length _)

end rbtree

/-- C28: for `1 <= k <= size()`, the radius that `nearest(p, k)` of the reference set takes
from its set of distances is at least the `k`-th smallest of the stored points' distances
to `p`, counted with repetitions; the points read from the iterator pair include every
stored point whose distance to `p` is at most that `k`-th smallest distance, and are at
least `k` in number. -/
theorem rbtree_nearest_k_covers_kth (pts : List Point) (p : Point) (k : Nat) (hk1 : 1 ≤ k)
    (hk2 : k ≤ (rbtree.PointSet.put_all rbtree.PointSet.empty_set pts).size) :
    ∃ its v radius,
      (rbtree.PointSet.put_all rbtree.PointSet.empty_set pts).nearest_k p k = some its ∧
      kth_smallest ((rbtree.PointSet.put_all rbtree.PointSet.empty_set pts).points.map
        p.distance) k = some v ∧
      (rbtree.PointSet.nearest_distances p k
        (rbtree.PointSet.put_all rbtree.PointSet.empty_set pts).points []).getLast? =
        some radius ∧ v ≤ radius ∧
      ∀ fuel, (rbtree.PointSet.put_all rbtree.PointSet.empty_set pts).size < fuel →
        ∃ out, rbtree.enumerate fuel its.1 its.2 = some out ∧
          (∀ q ∈ (rbtree.PointSet.put_all rbtree.PointSet.empty_set pts).points,
            p.distance q ≤ v → q ∈ out) ∧ k ≤ out.length :=
  rbtree.PointSet.nearest_k_covers _ p k hk1 hk2

/-- The hypotheses of C28 hold for the points `(-1,0)`, `(0,-5)`, `(0,1)`, `(9,0)` and
`k = 2`; two of the points are at the same distance from the query `(0,0)`. -/
theorem rbtree_nearest_k_covers_kth_witness :
    (1 ≤ 2 ∧ 2 ≤ (rbtree.PointSet.put_all rbtree.PointSet.empty_set
      [pt (-1) 0 0, pt 0 (-5) 0, pt 0 1 0, pt 9 0 0]).size) ∧
    ∃ its v radius,
      (rbtree.PointSet.put_all rbtree.PointSet.empty_set
        [pt (-1) 0 0, pt 0 (-5) 0, pt 0 1 0, pt 9 0 0]).nearest_k (pt 0 0 0) 2 = some its ∧
      kth_smallest ((rbtree.PointSet.put_all rbtree.PointSet.empty_set
        [pt (-1) 0 0, pt 0 (-5) 0, pt 0 1 0, pt 9 0 0]).points.map (pt 0 0 0).distance) 2 =
        some v ∧
      (rbtree.PointSet.nearest_distances (pt 0 0 0) 2
        (rbtree.PointSet.put_all rbtree.PointSet.empty_set
          [pt (-1) 0 0, pt 0 (-5) 0, pt 0 1 0, pt 9 0 0]).points []).getLast? = some radius ∧
      v ≤ radius ∧
      ∀ fuel, (rbtree.PointSet.put_all rbtree.PointSet.empty_set
          [pt (-1) 0 0, pt 0 (-5) 0, pt 0 1 0, pt 9 0 0]).size < fuel →
        ∃ out, rbtree.enumerate fuel its.1 its.2 = some out ∧
          (∀ q ∈ (rbtree.PointSet.put_all rbtree.PointSet.empty_set
              [pt (-1) 0 0, pt 0 (-5) 0, pt 0 1 0, pt 9 0 0]).points,
            (pt 0 0 0).distance q ≤ v → q ∈ out) ∧ 2 ≤ out.length :=
  ⟨⟨by decide, by decide⟩,
    rbtree_nearest_k_covers_kth [pt (-1) 0 0, pt 0 (-5) 0, pt 0 1 0, pt 9 0 0] (pt 0 0 0) 2
      (by decide) (by decide)⟩
